import Mathlib

/-!
Swiss-table hash set (package `swiss`, file `set.go`).

A shallow embedding of the open-addressing set of `set.go` and a verification
development about it.

* Go slices and fixed-size arrays are lists; an index that is out of range is a
  run-time fault and makes the operation return `none`.
* `uint32` fields are natural numbers, every `uint32` operation is reduced
  modulo `2^32`; the 64-bit digest is reduced modulo `2^64`.
* The unbounded `for` loops of the probe sequence never change the table
  before they return, and they visit the groups cyclically.  A loop that has
  not returned after `len(group)` iterations is back at its first group in the
  very same state and therefore never returns; the embedding gives such a loop
  `len(group)` iterations and the result `none` afterwards.  So `none` means
  exactly: the Go code does not return (it faults or it loops forever).
* The package constants `groupSize` and `maxAvgGroupLoad`, the matching
  primitives and the hasher are not part of `set.go`; the constants are the
  fields of `Config`, the primitives and the hasher are modelled from the
  specification.
-/

set_option linter.unusedSectionVars false

namespace Swiss

/-! ## Constants and collaborators -/

/-- The two build-time constants of the package that `set.go` uses without
declaring them: the number of lanes of a group and the average load bound. -/
structure Config where
  groupSize : Nat
  maxAvgGroupLoad : Nat
deriving DecidableEq

/-- The constraints the design puts on the constants: the load bound is at
least two and strictly below the lane count, which fits an array length. -/
def Config.Valid (cfg : Config) : Prop :=
  2 ≤ cfg.maxAvgGroupLoad ∧ cfg.maxAvgGroupLoad < cfg.groupSize ∧ cfg.groupSize < 2 ^ 32

instance (cfg : Config) : Decidable cfg.Valid :=
  inferInstanceAs (Decidable
    (2 ≤ cfg.maxAvgGroupLoad ∧ cfg.maxAvgGroupLoad < cfg.groupSize ∧ cfg.groupSize < 2 ^ 32))

/-- Control byte of an empty slot, `0b10000000` as `int8`. -/
def kEmpty : Int := -128

/-- Control byte of a tombstone, `0b11111110` as `int8`. -/
def kDeleted : Int := -2

/-- Modelled from the spec: the hash oracle collaborator (`maphash.Hasher`).
`H seed` is the digest function of the hasher with seed number `seed`;
`maphash.NewHasher` yields seed `0` and `maphash.NewSeed` the next seed, whose
digest function is independent of all earlier ones.  The family is arbitrary. -/
abbrev Oracle (K : Type) := Nat → K → Nat

/-- Modelled from the spec: the group matching primitive.  Bit `i` of the mask
is set iff control byte `i` satisfies `p`. -/
def matchMask (p : Int → Bool) : List Int → Nat
  | [] => 0
  | c :: cs => (if p c then 1 else 0) + 2 * matchMask p cs

/-- Modelled from the spec: `match_tag`, the mask of the lanes whose control
byte equals the tag `H2`. -/
def ctlrMatchH2 (ctrl : List Int) (H2 : Nat) : Nat :=
  matchMask (fun c => c == (H2 : Int)) ctrl

/-- Modelled from the spec: `match_empty`, the mask of the lanes whose control
byte is `kEmpty`. -/
def ctlrMatchEmpty (ctrl : List Int) : Nat :=
  matchMask (fun c => c == kEmpty) ctrl

/-- Number of trailing zero bits of a `w`-bit value (`w` for the value zero). -/
def trailingZeros : Nat → Nat → Nat
  | 0, _ => 0
  | w + 1, m => if m % 2 = 1 then 0 else trailingZeros w (m / 2) + 1

/-- Modelled from the spec: the "take lowest set bit" helper.  Returns the lane
of the lowest set bit and the mask with that bit cleared. -/
def nextMatch (cfg : Config) (m : Nat) : Nat × Nat :=
  let s := trailingZeros cfg.groupSize m
  (s, m ^^^ (m &&& (1 <<< s)))

/-! ## Data model -/

/-- A group: `groupSize` control bytes and `groupSize` key slots. -/
structure Group (K : Type) where
  ctrl : List Int
  slot : List K
deriving DecidableEq

/-- The set: seed of the current hasher, the two counters, the load limit and
the group array. -/
structure Set (K : Type) where
  hashFunction : Nat
  resident : Nat
  dead : Nat
  elementLimit : Nat
  group : List (Group K)
deriving DecidableEq

section Ops

variable {K : Type} [DecidableEq K] [Inhabited K]

/-- The zero value of the key type (`var k K`). -/
def zeroKey : K := default

/-- Type invariant of the Go representation: every group array is a
`[groupSize]` array. -/
def Set.WellTyped (cfg : Config) (set : Set K) : Prop :=
  ∀ g ∈ set.group, g.ctrl.length = cfg.groupSize ∧ g.slot.length = cfg.groupSize

/-- `numGroups` returns the minimum number of groups needed to store `n` elems. -/
def numGroups (cfg : Config) (n : Nat) : Nat :=
  let groups := ((n + cfg.maxAvgGroupLoad + (2 ^ 32 - 1)) % 2 ^ 32) / cfg.maxAvgGroupLoad
  if groups = 0 then 1 else groups

/-- The loop `for j := range groupSize { ctrl[j] = kEmpty }`. -/
def fillEmpty (cfg : Config) (ctrl : List Int) : List Int :=
  (List.range cfg.groupSize).foldl (fun c j => c.set j kEmpty) ctrl

/-- The loop `for j := range groupSize { slot[j] = k }` with the zero key. -/
def fillZero (cfg : Config) (slot : List K) : List K :=
  (List.range cfg.groupSize).foldl (fun c j => c.set j zeroKey) slot

/-- `make([]Group[K], n)` followed by the loop that sets every control byte
to `kEmpty`. -/
def makeGroups (cfg : Config) (n : Nat) : List (Group K) :=
  (List.replicate n
    ({ ctrl := List.replicate cfg.groupSize 0,
       slot := List.replicate cfg.groupSize zeroKey } : Group K)).map
    (fun g => { g with ctrl := fillEmpty cfg g.ctrl })

/-- `NewSet` constructs a Set. -/
def NewSet (cfg : Config) (sz : Nat) : Set K :=
  let reqNrOfGroups := numGroups cfg sz
  { hashFunction := 0
    resident := 0
    dead := 0
    elementLimit := (reqNrOfGroups * cfg.maxAvgGroupLoad) % 2 ^ 32
    group := makeGroups cfg reqNrOfGroups }

/-- The 64-bit digest of an element under the current hasher. -/
def digest (H : Oracle K) (set : Set K) (element : K) : Nat :=
  H set.hashFunction element % 2 ^ 64

/-- `H1 := (hash & 0xffff_ffff_ffff_ff80) >> 7`. -/
def hashH1 (hash : Nat) : Nat := (hash &&& 0xffffffffffffff80) >>> 7

/-- `H2 := (hash & 0x0000_0000_0000_007f)`. -/
def hashH2 (hash : Nat) : Nat := hash &&& 0x7f

/-- `grpIdx += 1; if grpIdx >= grpCnt { grpIdx = 0 }`. -/
def nextGroup (grpIdx grpCnt : Nat) : Nat :=
  if grpIdx + 1 ≥ grpCnt then 0 else grpIdx + 1

/-- The loop `for matches != 0 { s := nextMatch(&matches); if element == slot[s] {...} }`
shared by `Contains`, `Add`, `Remove` and `find`: the lane of the first
equality hit, or `none` when the mask is used up. -/
def firstHit (cfg : Config) (slot : List K) (element : K) : Nat → Nat → Option Nat
  | 0, _ => none
  | fuel + 1, m =>
    if m = 0 then none
    else
      let sm := nextMatch cfg m
      if slot[sm.1]? = some element then some sm.1
      else firstHit cfg slot element fuel sm.2

/-- The probe loop of `Contains`. -/
def containsLoop (cfg : Config) (group : List (Group K)) (element : K) (H2 grpCnt : Nat) :
    Nat → Nat → Option Bool
  | 0, _ => none
  | fuel + 1, grpIdx =>
    match group[grpIdx]? with
    | none => none
    | some g =>
      match firstHit cfg g.slot element cfg.groupSize (ctlrMatchH2 g.ctrl H2) with
      | some _ => some true
      | none =>
        if ctlrMatchEmpty g.ctrl ≠ 0 then some false
        else containsLoop cfg group element H2 grpCnt fuel (nextGroup grpIdx grpCnt)

/-- `Contains` returns true if `element` is present in the Set. -/
def Contains (cfg : Config) (H : Oracle K) (set : Set K) (element : K) : Option Bool :=
  let hash := digest H set element
  let H1 := hashH1 hash
  let H2 := hashH2 hash
  let grpIdx := H1 % set.group.length
  let grpCnt := set.group.length
  containsLoop cfg set.group element H2 grpCnt grpCnt grpIdx

/-- `nextSize`: twice the group count, or the same count when tombstones
dominate. -/
def nextSize (set : Set K) : Nat :=
  let n := ((set.group.length % 2 ^ 32) * 2) % 2 ^ 32
  if set.dead ≥ set.resident / 2 then set.group.length % 2 ^ 32 else n

/-- The loop `for stillSearchingSpace` of `rehash`: the reduced insert of one
element into the new group array.  Returns the new array. -/
def rehashInsert (cfg : Config) (group : List (Group K)) (element : K) (H2 grpCnt : Nat) :
    Nat → Nat → Option (List (Group K))
  | 0, _ => none
  | fuel + 1, grpIdx =>
    match group[grpIdx]? with
    | none => none
    | some g =>
      let m := ctlrMatchEmpty g.ctrl
      if m ≠ 0 then
        let s := (nextMatch cfg m).1
        some (group.set grpIdx { ctrl := g.ctrl.set s (H2 : Int), slot := g.slot.set s element })
      else rehashInsert cfg group element H2 grpCnt fuel (nextGroup grpIdx grpCnt)

/-- The body of the two nested `for` loops of `rehash` for lane `s` of an old
group. -/
def rehashLane (cfg : Config) (H : Oracle K) (oldGrp : Group K) (acc : Option (Set K))
    (s : Nat) : Option (Set K) :=
  match acc with
  | none => none
  | some set =>
    match oldGrp.ctrl[s]?, oldGrp.slot[s]? with
    | some c, some element =>
      if c = kEmpty ∨ c = kDeleted then some set
      else
        let hash := digest H set element
        let H1 := hashH1 hash
        let H2 := hashH2 hash
        let grpIdx := H1 % set.group.length
        let grpCnt := set.group.length
        match rehashInsert cfg set.group element H2 grpCnt grpCnt grpIdx with
        | none => none
        | some grp => some { set with group := grp, resident := (set.resident + 1) % 2 ^ 32 }
    | _, _ => none

/-- `rehash` moves every live element into a fresh array of `n` groups under a
reseeded hasher. -/
def rehash (cfg : Config) (H : Oracle K) (set : Set K) (n : Nat) : Option (Set K) :=
  let oldGroups := set.group
  let fresh : Set K :=
    { hashFunction := set.hashFunction + 1
      elementLimit := (n * cfg.maxAvgGroupLoad) % 2 ^ 32
      resident := 0
      dead := 0
      group := makeGroups cfg n }
  oldGroups.foldl
    (fun acc oldGrp => (List.range cfg.groupSize).foldl (rehashLane cfg H oldGrp) acc)
    (some fresh)

/-- The probe loop of `Add`. -/
def addLoop (cfg : Config) (set : Set K) (element : K) (H2 grpCnt : Nat) :
    Nat → Nat → Option (Set K)
  | 0, _ => none
  | fuel + 1, grpIdx =>
    match set.group[grpIdx]? with
    | none => none
    | some g =>
      match firstHit cfg g.slot element cfg.groupSize (ctlrMatchH2 g.ctrl H2) with
      | some _ => some set
      | none =>
        let m := ctlrMatchEmpty g.ctrl
        if m ≠ 0 then
          let s := (nextMatch cfg m).1
          some { set with
            group := set.group.set grpIdx
              { ctrl := g.ctrl.set s (H2 : Int), slot := g.slot.set s element }
            resident := (set.resident + 1) % 2 ^ 32 }
        else addLoop cfg set element H2 grpCnt fuel (nextGroup grpIdx grpCnt)

/-- The part of `Add` after the rehash check. -/
def addProbe (cfg : Config) (H : Oracle K) (set : Set K) (element : K) : Option (Set K) :=
  let hash := digest H set element
  let H1 := hashH1 hash
  let H2 := hashH2 hash
  let grpIdx := H1 % set.group.length
  let grpCnt := set.group.length
  addLoop cfg set element H2 grpCnt grpCnt grpIdx

/-- `Add` attempts to insert `element`. -/
def Add (cfg : Config) (H : Oracle K) (set : Set K) (element : K) : Option (Set K) :=
  if set.resident ≥ set.elementLimit then
    match rehash cfg H set (nextSize set) with
    | none => none
    | some set1 => addProbe cfg H set1 element
  else addProbe cfg H set element

/-- The probe loop of `Remove`. -/
def removeLoop (cfg : Config) (set : Set K) (element : K) (H2 grpCnt : Nat) :
    Nat → Nat → Option (Bool × Set K)
  | 0, _ => none
  | fuel + 1, grpIdx =>
    match set.group[grpIdx]? with
    | none => none
    | some g =>
      match firstHit cfg g.slot element cfg.groupSize (ctlrMatchH2 g.ctrl H2) with
      | some s =>
        if ctlrMatchEmpty g.ctrl ≠ 0 then
          some (true, { set with
            group := set.group.set grpIdx
              { ctrl := g.ctrl.set s kEmpty, slot := g.slot.set s zeroKey }
            resident := (set.resident + (2 ^ 32 - 1)) % 2 ^ 32 })
        else
          some (true, { set with
            group := set.group.set grpIdx
              { ctrl := g.ctrl.set s kDeleted, slot := g.slot.set s zeroKey }
            dead := (set.dead + 1) % 2 ^ 32 })
      | none =>
        if ctlrMatchEmpty g.ctrl ≠ 0 then some (false, set)
        else removeLoop cfg set element H2 grpCnt fuel (nextGroup grpIdx grpCnt)

/-- `Remove` attempts to remove `element`, returns true if the `element` was
in the Set. -/
def Remove (cfg : Config) (H : Oracle K) (set : Set K) (element : K) : Option (Bool × Set K) :=
  let hash := digest H set element
  let H1 := hashH1 hash
  let H2 := hashH2 hash
  let grpIdx := H1 % set.group.length
  let grpCnt := set.group.length
  removeLoop cfg set element H2 grpCnt grpCnt grpIdx

/-- The loop `for i, ctrlByte := range ctrl` of `Iter` from lane `i` on.  The
callback has a state of its own (the variables its closure captures) and does
not touch the set.  Returns the keys passed to the callback so far, the state
of the callback and whether it asked to stop. -/
def iterLanes {σ : Type} (callBack : σ → K → σ × Bool) :
    List Int → List K → σ → List K → List K × σ × Bool
  | ctrlByte :: ctrl, k :: slot, st, seen =>
    if ctrlByte = kEmpty ∨ ctrlByte = kDeleted then iterLanes callBack ctrl slot st seen
    else
      let r := callBack st k
      if r.2 then (seen ++ [k], r.1, true)
      else iterLanes callBack ctrl slot r.1 (seen ++ [k])
  | _, _, st, seen => (seen, st, false)

/-- The loop `for n := 0; n < len(data); n++` of `Iter` with `todo` rounds to
go. -/
def iterGroups {σ : Type} (data : List (Group K)) (callBack : σ → K → σ × Bool) :
    Nat → Nat → σ → List K → Option (List K × σ)
  | 0, _, st, seen => some (seen, st)
  | todo + 1, grpIdx, st, seen =>
    match data[grpIdx]? with
    | none => none
    | some g =>
      let r := iterLanes callBack g.ctrl g.slot st seen
      if r.2.2 then some (r.1, r.2.1)
      else iterGroups data callBack todo (nextGroup grpIdx (data.length % 2 ^ 32)) r.2.1 r.1

/-- `Iter` iterates the elements of the Set, passing them to the callback.
`start` is the value drawn by `rand.Uint32N(uint32(len(data)))`.  The result is
the list of keys the callback was called with, in call order, and the final
state of the callback. -/
def Iter {σ : Type} (set : Set K) (start : Nat) (callBack : σ → K → σ × Bool) (init : σ) :
    Option (List K × σ) :=
  let data := set.group
  iterGroups data callBack data.length start init []

/-- `Clear` removes all elements from the Set. -/
def Clear (cfg : Config) (set : Set K) : Set K :=
  { set with
    group := set.group.map
      (fun d => { ctrl := fillEmpty cfg d.ctrl, slot := fillZero cfg d.slot })
    resident := 0
    dead := 0 }

/-- `Count` returns the number of elements in the Set. -/
def Count (set : Set K) : Nat := (set.resident + (2 ^ 32 - set.dead % 2 ^ 32)) % 2 ^ 32

/-- `Capacity` returns the number of additional elements that can be added
before resizing. -/
def Capacity (set : Set K) : Nat :=
  (set.elementLimit + (2 ^ 32 - set.resident % 2 ^ 32)) % 2 ^ 32

/-- `find` returns the location of `key` if present, or its insertion location
if absent. -/
def findLoop (cfg : Config) (group : List (Group K)) (key : K) (H2 : Nat) :
    Nat → Nat → Option (Nat × Nat × Bool)
  | 0, _ => none
  | fuel + 1, g =>
    match group[g]? with
    | none => none
    | some grp =>
      match firstHit cfg grp.slot key cfg.groupSize (ctlrMatchH2 grp.ctrl H2) with
      | some s => some (g, s, true)
      | none =>
        let m := ctlrMatchEmpty grp.ctrl
        if m ≠ 0 then some (g, (nextMatch cfg m).1, false)
        else findLoop cfg group key H2 fuel (nextGroup g group.length)

/-- `find`, manually inlined into the public methods by the source. -/
def find (cfg : Config) (H : Oracle K) (set : Set K) (key : K) : Option (Nat × Nat × Bool) :=
  let hash := digest H set key
  findLoop cfg set.group key (hashH2 hash) set.group.length (hashH1 hash % set.group.length)

end Ops

/-! ## Specification vocabulary -/

section Spec

variable {K : Type} [DecidableEq K] [Inhabited K]

/-- Control byte of lane `j` of group `i`, if there is such a lane. -/
def ctrlAt (gs : List (Group K)) (i j : Nat) : Option Int :=
  (gs[i]?).bind (fun g => g.ctrl[j]?)

/-- Key slot of lane `j` of group `i`, if there is such a lane. -/
def slotAt (gs : List (Group K)) (i j : Nat) : Option K :=
  (gs[i]?).bind (fun g => g.slot[j]?)

/-- A control byte is Occupied when it is neither Empty nor Deleted. -/
def isFull (c : Int) : Bool := !(decide (c = kEmpty ∨ c = kDeleted))

/-- The keys in the Occupied lanes of one group, in lane order. -/
def Group.keys (g : Group K) : List K :=
  (g.ctrl.zip g.slot).filterMap (fun ck => if isFull ck.1 then some ck.2 else none)

/-- The keys in the Occupied slots of the table, group by group. -/
def liveKeys (gs : List (Group K)) : List K := gs.flatMap Group.keys

/-- Overwrite lane `s` of group `i` with control byte `c` and key `k`. -/
def setCell (gs : List (Group K)) (i s : Nat) (c : Int) (k : K) : List (Group K) :=
  match gs[i]? with
  | none => gs
  | some g => gs.set i { ctrl := g.ctrl.set s c, slot := g.slot.set s k }

/-- Number of slots whose control byte satisfies `p`. -/
def countCtrl (p : Int → Bool) (gs : List (Group K)) : Nat :=
  (gs.map (fun g => g.ctrl.countP p)).sum

/-- Number of slots whose control byte is not Empty. -/
def countNonEmpty (gs : List (Group K)) : Nat :=
  countCtrl (fun c => decide (c ≠ kEmpty)) gs

/-- Number of slots whose control byte is Deleted. -/
def countDeleted (gs : List (Group K)) : Nat :=
  countCtrl (fun c => decide (c = kDeleted)) gs

/-- Group `i` has an Empty control byte. -/
def GEmpty (gs : List (Group K)) (i : Nat) : Prop := ∃ s, ctrlAt gs i s = some kEmpty

/-- Group `i` has a lane with control byte `tag` holding key `x`. -/
def GHit (gs : List (Group K)) (x : K) (tag : Nat) (i : Nat) : Prop :=
  ∃ s, ctrlAt gs i s = some (tag : Int) ∧ slotAt gs i s = some x

/-- Lane `j` of group `i` is Occupied and holds key `k`. -/
def Occ (gs : List (Group K)) (i j : Nat) (k : K) : Prop :=
  ∃ c, ctrlAt gs i j = some c ∧ isFull c = true ∧ slotAt gs i j = some k

/-- The group reached from group `a` after `t` steps of the carousel over `n`
groups. -/
def walk (n a t : Nat) : Nat := (a + t) % n

/-- The group at which the probe sequence of `x` starts. -/
def startOf (H : Oracle K) (seed n : Nat) (x : K) : Nat := hashH1 (H seed x % 2 ^ 64) % n

/-- The tag (`H2`) of `x`. -/
def tagOf (H : Oracle K) (seed : Nat) (x : K) : Nat := hashH2 (H seed x % 2 ^ 64)

/-- The invariant of the group array under the hasher with seed `seed`. -/
structure TableInv (cfg : Config) (H : Oracle K) (seed : Nat) (gs : List (Group K)) : Prop where
  wt : ∀ g ∈ gs, g.ctrl.length = cfg.groupSize ∧ g.slot.length = cfg.groupSize
  pos : 0 < gs.length
  path : ∀ i j k, Occ gs i j k →
    ctrlAt gs i j = some (tagOf H seed k : Int) ∧
    ∃ t, t < gs.length ∧ walk gs.length (startOf H seed gs.length k) t = i ∧
      ∀ u, u < t → ¬ GEmpty gs (walk gs.length (startOf H seed gs.length k) u)
  nodup : (liveKeys gs).Nodup

/-- The table is small enough for its load limit to fit a `uint32`. -/
def Fits (cfg : Config) (set : Set K) : Prop :=
  set.group.length * cfg.maxAvgGroupLoad < 2 ^ 32

instance (cfg : Config) (set : Set K) : Decidable (Fits cfg set) :=
  inferInstanceAs (Decidable (set.group.length * cfg.maxAvgGroupLoad < 2 ^ 32))

/-- The invariant of the set. -/
structure Inv (cfg : Config) (H : Oracle K) (set : Set K) : Prop where
  table : TableInv cfg H set.hashFunction set.group
  resident_eq : set.resident = countNonEmpty set.group
  dead_eq : set.dead = countDeleted set.group
  limit_eq : set.elementLimit = set.group.length * cfg.maxAvgGroupLoad
  resident_le : set.resident ≤ set.elementLimit
  fits : Fits cfg set

/-- The states of a run: `NewSet` followed by `Add`, `Remove` and `Clear`, as
long as the load limit of the table fits a `uint32`. -/
inductive Reachable (cfg : Config) (H : Oracle K) : Set K → Prop
  | newSet (sz : Nat) (h : sz < 2 ^ 32) : Reachable cfg H (NewSet cfg sz)
  | add {s s1 : Set K} (x : K) (hs : Reachable cfg H s) (h : Add cfg H s x = some s1)
      (hf : Fits cfg s1) : Reachable cfg H s1
  | remove {s s1 : Set K} (x : K) (b : Bool) (hs : Reachable cfg H s)
      (h : Remove cfg H s x = some (b, s1)) : Reachable cfg H s1
  | clear {s : Set K} (hs : Reachable cfg H s) : Reachable cfg H (Clear cfg s)

/-- One mutating operation of the public interface. -/
inductive Op (K : Type) where
  | add (x : K) : Op K
  | remove (x : K) : Op K
  | clear : Op K
deriving DecidableEq

/-- Apply one operation to the set. -/
def applyOp (cfg : Config) (H : Oracle K) (set : Set K) : Op K → Option (Set K)
  | Op.add x => Add cfg H set x
  | Op.remove x => (Remove cfg H set x).map (fun r => r.2)
  | Op.clear => some (Clear cfg set)

/-- Apply a sequence of operations, first to last. -/
def runOps (cfg : Config) (H : Oracle K) : Set K → List (Op K) → Option (Set K)
  | set, [] => some set
  | set, op :: ops =>
    match applyOp cfg H set op with
    | none => none
    | some set1 => runOps cfg H set1 ops

/-- Every state a run passes through has a load limit that fits a `uint32`
(checked along the run; a run that does not return passes the check). -/
def runFits (cfg : Config) (H : Oracle K) : Set K → List (Op K) → Bool
  | _, [] => true
  | set, op :: ops =>
    match applyOp cfg H set op with
    | none => true
    | some set1 => decide (Fits cfg set1) && runFits cfg H set1 ops

/-- The same operation on a mathematical set: insert, erase, empty. -/
def absOp (A : Finset K) : Op K → Finset K
  | Op.add x => insert x A
  | Op.remove x => A.erase x
  | Op.clear => ∅

/-- Replay a sequence of operations on the empty mathematical set. -/
def absRun (ops : List (Op K)) : Finset K := ops.foldl absOp ∅

end Spec

section Spec2

variable {K : Type} [DecidableEq K] [Inhabited K]

/-- The effect of `Add` once its probe has found the Empty lane `s` of group
`i`: the tag and the element are written, `resident` is incremented. -/
def insertAt (set : Set K) (i s tag : Nat) (element : K) : Set K :=
  { set with
    group := setCell set.group i s (tag : Int) element
    resident := (set.resident + 1) % 2 ^ 32 }

/-- The effect of `Remove` once its probe has found the element in lane `s` of
group `i`: hard delete when the group has an Empty byte, tombstone otherwise. -/
def removeAt (set : Set K) (i s : Nat) : Set K :=
  match set.group[i]? with
  | none => set
  | some g =>
    if ctlrMatchEmpty g.ctrl ≠ 0 then
      { set with
        group := setCell set.group i s kEmpty zeroKey
        resident := (set.resident + (2 ^ 32 - 1)) % 2 ^ 32 }
    else
      { set with
        group := setCell set.group i s kDeleted zeroKey
        dead := (set.dead + 1) % 2 ^ 32 }

end Spec2

section Spec3

variable {K : Type} [DecidableEq K] [Inhabited K]

/-- The reduced insert of `rehash` for one live element of the old array. -/
def rehashKey (cfg : Config) (H : Oracle K) (acc : Option (Set K)) (element : K) :
    Option (Set K) :=
  match acc with
  | none => none
  | some set =>
    match rehashInsert cfg set.group element (hashH2 (digest H set element)) set.group.length
        set.group.length (hashH1 (digest H set element) % set.group.length) with
    | none => none
    | some grp => some { set with group := grp, resident := (set.resident + 1) % 2 ^ 32 }

/-- The state of `rehash` after the elements `ins` have been moved: the new
array under the new hasher holds exactly those elements. -/
structure RehashInv (cfg : Config) (H : Oracle K) (seed lim n : Nat) (set : Set K)
    (ins : List K) : Prop where
  seed_eq : set.hashFunction = seed
  limit_eq : set.elementLimit = lim
  dead_eq : set.dead = 0
  length_eq : set.group.length = n
  table : TableInv cfg H seed set.group
  perm : List.Perm (liveKeys set.group) ins
  nonEmpty_eq : countNonEmpty set.group = ins.length
  deleted_eq : countDeleted set.group = 0
  resident_eq : set.resident = ins.length % 2 ^ 32

end Spec3

section Spec4

variable {K : Type} [DecidableEq K] [Inhabited K]

/-- The calls a callback receives when it is offered the keys of `l` in order
until it asks to stop: the keys it was called with, its final state and whether
it asked to stop. -/
def callsUntilStop {σ : Type} (callBack : σ → K → σ × Bool) : List K → σ → List K × σ × Bool
  | [], st => ([], st, false)
  | k :: ks, st =>
    let r := callBack st k
    if r.2 then ([k], r.1, true)
    else
      let q := callsUntilStop callBack ks r.1
      (k :: q.1, q.2.1, q.2.2)

/-- The live keys of group `i`, in lane order (none for a missing group). -/
def keysAt (gs : List (Group K)) (i : Nat) : List K :=
  match gs[i]? with
  | none => []
  | some g => Group.keys g

/-- The order in which `Iter` offers the live keys when it starts at group
`start`: the groups in carousel order, the lanes of each group in lane order. -/
def visitOrder (gs : List (Group K)) (start : Nat) : List K :=
  (List.range gs.length).flatMap (fun t => keysAt gs (walk gs.length start t))

/-- Apply `Add` to the keys of a list, first to last. -/
def addAll (cfg : Config) (H : Oracle K) : Set K → List K → Option (Set K)
  | set, [] => some set
  | set, x :: xs =>
    match Add cfg H set x with
    | none => none
    | some set1 => addAll cfg H set1 xs

end Spec4

/-! ## A small instance for concrete checks -/

/-- A small configuration: groups of four lanes, average load two. -/
def demoCfg : Config := { groupSize := 4, maxAvgGroupLoad := 2 }

/-- A sample family of digest functions on natural-number keys. -/
def demoHash : Oracle Nat := fun seed x => 128 * (x + seed) + x % 3

/-- The set built by `NewSet(1)` followed by `Add(5)`. -/
def demoSet1 : Set Nat :=
  { hashFunction := 0, resident := 1, dead := 0, elementLimit := 2,
    group := [{ ctrl := [2, -128, -128, -128], slot := [5, 0, 0, 0] }] }

section Spec5

variable {K : Type} [DecidableEq K] [Inhabited K]

/-- Number of slots whose control byte is Occupied. -/
def countOccupied (gs : List (Group K)) : Nat := countCtrl isFull gs

end Spec5

/-! ## Further instances for concrete checks -/

/-- The constants the specification names as typical: sixteen lanes, average
load fourteen. -/
def typicalCfg : Config := { groupSize := 16, maxAvgGroupLoad := 14 }

/-- Groups of three lanes, average load two. -/
def tombCfg : Config := { groupSize := 3, maxAvgGroupLoad := 2 }

/-- A digest family that sends every small key to group 0 with the key as
tag. -/
def tombHash : Oracle Nat := fun _ x => x % 128

/-- The set built by `NewSet(3)` and `Add` of 1, 2, 3 under `tombCfg` and
`tombHash`: group 0 is fully packed. -/
def packedSet : Set Nat :=
  { hashFunction := 0, resident := 3, dead := 0, elementLimit := 4,
    group := [{ ctrl := [1, 2, 3], slot := [1, 2, 3] },
              { ctrl := [-128, -128, -128], slot := [0, 0, 0] }] }

/-- The set `packedSet` after `Remove(2)`: lane 1 of group 0 is a tombstone. -/
def tombSet : Set Nat :=
  { hashFunction := 0, resident := 3, dead := 1, elementLimit := 4,
    group := [{ ctrl := [1, -2, 3], slot := [1, 0, 3] },
              { ctrl := [-128, -128, -128], slot := [0, 0, 0] }] }

/-- Groups of two lanes with average load one: the load bound is below the
lane count but not at least two. -/
def tinyCfg : Config := { groupSize := 2, maxAvgGroupLoad := 1 }

/-- The set built by `NewSet(1)`, `Add(1)`, `Add(2)` under `tinyCfg` and
`tombHash`: the second Add compacts and then fills the last Empty lane. -/
def fullSet : Set Nat :=
  { hashFunction := 1, resident := 2, dead := 0, elementLimit := 1,
    group := [{ ctrl := [1, 2], slot := [1, 2] }] }

section Spec6

variable {K : Type} [DecidableEq K] [Inhabited K]

/-- The part of the invariant of the set that survives a wrapped load limit:
the counters are the slot counts modulo `2^32`, the limit is the wrapped
product, and the array keeps room (an Empty lane). -/
structure Core (cfg : Config) (H : Oracle K) (set : Set K) : Prop where
  table : TableInv cfg H set.hashFunction set.group
  resident_eq : set.resident = countNonEmpty set.group % 2 ^ 32
  dead_eq : set.dead = countDeleted set.group % 2 ^ 32
  limit_eq : set.elementLimit = (set.group.length * cfg.maxAvgGroupLoad) % 2 ^ 32
  room : countNonEmpty set.group < set.group.length * cfg.groupSize
  wrap : 2 ^ 32 ≤ countNonEmpty set.group →
    (countNonEmpty set.group / 2 ^ 32 + 1) * 2 ^ 32 ≤ set.group.length * cfg.groupSize

/-- The states of a run in which every `Add` is applied to a table of fewer
than `2^31` groups, so that the `uint32` doubling of `nextSize` does not wrap:
`NewSet` followed by `Add`, `Remove` and `Clear`. -/
inductive Reach31 (cfg : Config) (H : Oracle K) : Set K → Prop
  | newSet (sz : Nat) (h : sz < 2 ^ 32) : Reach31 cfg H (NewSet cfg sz)
  | add {s s1 : Set K} (x : K) (hs : Reach31 cfg H s) (hn : s.group.length < 2 ^ 31)
      (h : Add cfg H s x = some s1) : Reach31 cfg H s1
  | remove {s s1 : Set K} (x : K) (b : Bool) (hs : Reach31 cfg H s)
      (h : Remove cfg H s x = some (b, s1)) : Reach31 cfg H s1
  | clear {s : Set K} (hs : Reach31 cfg H s) : Reach31 cfg H (Clear cfg s)

/-- Every state an operation of the run is applied to has fewer than `2^31`
groups (checked along the run; a run that does not return passes the check
from there on). -/
def runSmall (cfg : Config) (H : Oracle K) : Set K → List (Op K) → Bool
  | _, [] => true
  | set, op :: ops =>
    decide (set.group.length < 2 ^ 31) &&
      match applyOp cfg H set op with
      | none => true
      | some set1 => runSmall cfg H set1 ops

end Spec6

/-- The table holds exactly the keys below `m`, without tombstones, in `n`
groups under the hasher `seed`, with load limit `lim`; `resident` is `m`
modulo `2^32`. -/
structure Filled (cfg : Config) (H : Oracle Nat) (set : Set Nat) (n lim seed m : Nat) :
    Prop where
  table : TableInv cfg H seed set.group
  seed_eq : set.hashFunction = seed
  length_eq : set.group.length = n
  limit_eq : set.elementLimit = lim
  resident_eq : set.resident = m % 2 ^ 32
  dead_eq : set.dead = 0
  nonEmpty_eq : countNonEmpty set.group = m
  deleted_eq : countDeleted set.group = 0
  keys : ∀ y, y ∈ liveKeys set.group ↔ y < m

/-! ## Matching primitives -/

theorem matchMask_testBit (p : Int → Bool) (l : List Int) (j : Nat) :
    (matchMask p l).testBit j = true ↔ ∃ c, l[j]? = some c ∧ p c = true := by
  induction l generalizing j with
  | nil => simp [matchMask]
  | cons c cs ih =>
    cases j with
    | zero =>
      simp only [matchMask, Nat.testBit_zero, List.getElem?_cons_zero, Option.some.injEq,
        exists_eq_left', decide_eq_true_eq]
      by_cases h : p c = true
      · simp [h]
      · simp [h]
    | succ j =>
      simp only [matchMask, Nat.testBit_succ, List.getElem?_cons_succ]
      rw [← ih j]
      have : ((if p c = true then 1 else 0) + 2 * matchMask p cs) / 2 = matchMask p cs := by
        by_cases h : p c = true
        · simp [h]; omega
        · simp [h]
      rw [this]

theorem matchMask_lt (p : Int → Bool) (l : List Int) : matchMask p l < 2 ^ l.length := by
  induction l with
  | nil => simp [matchMask]
  | cons c cs ih =>
    simp only [matchMask, List.length_cons, pow_succ]
    by_cases h : p c = true <;> simp [h] <;> omega

theorem matchMask_ne_zero (p : Int → Bool) (l : List Int) :
    matchMask p l ≠ 0 ↔ ∃ c ∈ l, p c = true := by
  induction l with
  | nil => simp [matchMask]
  | cons c cs ih =>
    simp only [matchMask, List.mem_cons, exists_eq_or_imp]
    rw [← ih]
    by_cases h : p c = true <;> simp [h]

theorem trailingZeros_spec (w m : Nat) (hm : m ≠ 0) (hw : m < 2 ^ w) :
    m.testBit (trailingZeros w m) = true ∧ ∀ j, j < trailingZeros w m → m.testBit j = false := by
  induction w generalizing m with
  | zero => simp at hw; omega
  | succ w ih =>
    unfold trailingZeros
    by_cases h : m % 2 = 1
    · simp [h]
    · simp only [h, if_false]
      have hm2 : m / 2 ≠ 0 := by omega
      have hw2 : m / 2 < 2 ^ w := by rw [pow_succ] at hw; omega
      obtain ⟨h1, h2⟩ := ih (m / 2) hm2 hw2
      refine ⟨by rw [Nat.testBit_succ]; exact h1, ?_⟩
      intro j hj
      cases j with
      | zero => simp [h]
      | succ j => rw [Nat.testBit_succ]; exact h2 j (by omega)

theorem clearBit_testBit (m s j : Nat) :
    (m ^^^ (m &&& (1 <<< s))).testBit j = (m.testBit j && decide (j ≠ s)) := by
  rw [Nat.testBit_xor, Nat.testBit_and, Nat.one_shiftLeft, Nat.testBit_two_pow]
  by_cases h : s = j
  · subst h; simp
  · have h2 : ¬ j = s := fun e => h e.symm
    simp [h, h2]

theorem clearBit_le (m s : Nat) : m ^^^ (m &&& (1 <<< s)) ≤ m := by
  apply Nat.le_of_testBit
  intro i hi
  rw [clearBit_testBit] at hi
  simp at hi
  exact hi.1

theorem firstHit_spec {K : Type} [DecidableEq K] (cfg : Config) (slot : List K) (x : K)
    (fuel m lo : Nat) (hm : m < 2 ^ cfg.groupSize) (hlo : ∀ j, m.testBit j = true → lo ≤ j)
    (hf : cfg.groupSize ≤ fuel + lo) :
    match firstHit cfg slot x fuel m with
    | some s => m.testBit s = true ∧ slot[s]? = some x ∧
        ∀ j, j < s → m.testBit j = true → slot[j]? ≠ some x
    | none => ∀ j, m.testBit j = true → slot[j]? ≠ some x := by
  induction fuel generalizing m lo with
  | zero =>
    simp only [firstHit]
    intro j hj
    have h1 := hlo j hj
    have h2 : j < cfg.groupSize := by
      by_contra hge
      have : m < 2 ^ j := lt_of_lt_of_le hm (Nat.pow_le_pow_right (by omega) (by omega))
      rw [Nat.testBit_lt_two_pow this] at hj
      exact absurd hj (by simp)
    omega
  | succ fuel ih =>
    unfold firstHit
    by_cases h0 : m = 0
    · simp [h0]
    · simp only [h0, if_false]
      obtain ⟨t1, t2⟩ := trailingZeros_spec cfg.groupSize m h0 hm
      by_cases hx : slot[(nextMatch cfg m).1]? = some x
      · rw [if_pos hx]
        refine ⟨t1, hx, ?_⟩
        intro j hj hb
        have := t2 j hj
        rw [this] at hb
        exact absurd hb (by simp)
      · rw [if_neg hx]
        have hm2 : (nextMatch cfg m).2 < 2 ^ cfg.groupSize :=
          lt_of_le_of_lt (clearBit_le m _) hm
        have hlo2 : ∀ j, (nextMatch cfg m).2.testBit j = true →
            trailingZeros cfg.groupSize m + 1 ≤ j := by
          intro j hj
          simp only [nextMatch, clearBit_testBit, Bool.and_eq_true, decide_eq_true_eq] at hj
          have : ¬ j < trailingZeros cfg.groupSize m := by
            intro hlt
            have := t2 j hlt
            rw [this] at hj
            exact absurd hj.1 (by simp)
          omega
        have hs : trailingZeros cfg.groupSize m < cfg.groupSize := by
          by_contra hge
          have : m < 2 ^ trailingZeros cfg.groupSize m :=
            lt_of_lt_of_le hm (Nat.pow_le_pow_right (by omega) (by omega))
          rw [Nat.testBit_lt_two_pow this] at t1
          exact absurd t1 (by simp)
        have hlo1 := hlo _ t1
        have := ih (nextMatch cfg m).2 (trailingZeros cfg.groupSize m + 1) hm2 hlo2 (by omega)
        cases hr : firstHit cfg slot x fuel (nextMatch cfg m).2 with
        | some s =>
          rw [hr] at this
          simp only [nextMatch, clearBit_testBit, Bool.and_eq_true, decide_eq_true_eq] at this
          obtain ⟨⟨a1, a2⟩, a3, a4⟩ := this
          refine ⟨a1, a3, ?_⟩
          intro j hj hb
          by_cases hjs : j = trailingZeros cfg.groupSize m
          · subst hjs; exact hx
          · exact a4 j hj ⟨hb, hjs⟩
        | none =>
          rw [hr] at this
          simp only [nextMatch, clearBit_testBit, Bool.and_eq_true, decide_eq_true_eq] at this
          intro j hb
          by_cases hjs : j = trailingZeros cfg.groupSize m
          · subst hjs; exact hx
          · exact this j ⟨hb, hjs⟩

section Frame

variable {K : Type}

/-! ## Overwriting one lane -/

theorem setCell_length (gs : List (Group K)) (i s : Nat) (c : Int) (k : K) :
    (setCell gs i s c k).length = gs.length := by
  unfold setCell
  cases h : gs[i]? <;> simp

theorem setCell_getElem? (gs : List (Group K)) (i s : Nat) (c : Int) (k : K) (g : Group K)
    (hg : gs[i]? = some g) (i1 : Nat) :
    (setCell gs i s c k)[i1]? =
      if i1 = i then some { ctrl := g.ctrl.set s c, slot := g.slot.set s k } else gs[i1]? := by
  unfold setCell
  rw [hg]
  simp only []
  have hi : i < gs.length := by
    rcases Nat.lt_or_ge i gs.length with h | h
    · exact h
    · rw [List.getElem?_eq_none h] at hg; cases hg
  by_cases h : i1 = i
  · subst h; simp [hi]
  · simp only [h, if_false]
    exact List.getElem?_set_ne (fun e => h e.symm)

theorem ctrlAt_setCell (gs : List (Group K)) (i s : Nat) (c c0 : Int) (k : K)
    (h0 : ctrlAt gs i s = some c0) (i1 j1 : Nat) :
    ctrlAt (setCell gs i s c k) i1 j1 =
      if i1 = i ∧ j1 = s then some c else ctrlAt gs i1 j1 := by
  unfold ctrlAt at h0 ⊢
  cases hg : gs[i]? with
  | none => rw [hg] at h0; cases h0
  | some g =>
    rw [hg] at h0
    simp only [Option.some_bind] at h0
    rw [setCell_getElem? gs i s c k g hg]
    have hs : s < g.ctrl.length := by
      rcases Nat.lt_or_ge s g.ctrl.length with h | h
      · exact h
      · rw [List.getElem?_eq_none h] at h0; cases h0
    by_cases h1 : i1 = i
    · subst h1
      simp only [if_true, Option.some_bind, true_and, hg]
      by_cases h2 : j1 = s
      · subst h2; simp [hs]
      · simp only [h2, if_false]
        exact List.getElem?_set_ne (fun e => h2 e.symm)
    · simp [h1]

theorem slotAt_setCell (gs : List (Group K)) (i s : Nat) (c : Int) (k k0 : K)
    (h0 : slotAt gs i s = some k0) (i1 j1 : Nat) :
    slotAt (setCell gs i s c k) i1 j1 =
      if i1 = i ∧ j1 = s then some k else slotAt gs i1 j1 := by
  unfold slotAt at h0 ⊢
  cases hg : gs[i]? with
  | none => rw [hg] at h0; cases h0
  | some g =>
    rw [hg] at h0
    simp only [Option.some_bind] at h0
    rw [setCell_getElem? gs i s c k g hg]
    have hs : s < g.slot.length := by
      rcases Nat.lt_or_ge s g.slot.length with h | h
      · exact h
      · rw [List.getElem?_eq_none h] at h0; cases h0
    by_cases h1 : i1 = i
    · subst h1
      simp only [if_true, Option.some_bind, true_and, hg]
      by_cases h2 : j1 = s
      · subst h2; simp [hs]
      · simp only [h2, if_false]
        exact List.getElem?_set_ne (fun e => h2 e.symm)
    · simp [h1]

theorem setCell_wt (cfg : Config) (gs : List (Group K)) (i s : Nat) (c : Int) (k : K)
    (h : ∀ g ∈ gs, g.ctrl.length = cfg.groupSize ∧ g.slot.length = cfg.groupSize) :
    ∀ g ∈ setCell gs i s c k, g.ctrl.length = cfg.groupSize ∧ g.slot.length = cfg.groupSize := by
  intro g hg
  unfold setCell at hg
  cases hgi : gs[i]? with
  | none => rw [hgi] at hg; exact h g hg
  | some g0 =>
    rw [hgi] at hg
    simp only [] at hg
    rcases List.mem_or_eq_of_mem_set hg with h1 | h1
    · exact h g h1
    · subst h1
      have := h g0 (List.getElem?_mem hgi)
      simpa using this

/-- In a well-typed table every lane of every group exists. -/
theorem ctrlAt_isSome (cfg : Config) (gs : List (Group K))
    (h : ∀ g ∈ gs, g.ctrl.length = cfg.groupSize ∧ g.slot.length = cfg.groupSize)
    (i j : Nat) (hi : i < gs.length) (hj : j < cfg.groupSize) :
    ∃ c k, ctrlAt gs i j = some c ∧ slotAt gs i j = some k := by
  have hg : gs[i]? = some gs[i] := List.getElem?_eq_getElem hi
  have hl := h gs[i] (List.getElem_mem hi)
  have h1 : j < gs[i].ctrl.length := by omega
  have h2 : j < gs[i].slot.length := by omega
  refine ⟨gs[i].ctrl[j], gs[i].slot[j], ?_, ?_⟩
  · unfold ctrlAt; rw [hg]; simp [List.getElem?_eq_getElem h1]
  · unfold slotAt; rw [hg]; simp [List.getElem?_eq_getElem h2]

theorem ctrlAt_bounds (cfg : Config) (gs : List (Group K))
    (h : ∀ g ∈ gs, g.ctrl.length = cfg.groupSize ∧ g.slot.length = cfg.groupSize)
    (i j : Nat) (c : Int) (hc : ctrlAt gs i j = some c) :
    i < gs.length ∧ j < cfg.groupSize := by
  unfold ctrlAt at hc
  cases hg : gs[i]? with
  | none => rw [hg] at hc; cases hc
  | some g =>
    rw [hg] at hc
    simp only [Option.some_bind] at hc
    have hi : i < gs.length := by
      rcases Nat.lt_or_ge i gs.length with h | h
      · exact h
      · rw [List.getElem?_eq_none h] at hg; cases hg
    have hj : j < g.ctrl.length := by
      rcases Nat.lt_or_ge j g.ctrl.length with h | h
      · exact h
      · rw [List.getElem?_eq_none h] at hc; cases hc
    have := h g (List.getElem?_mem hg)
    exact ⟨hi, by omega⟩

end Frame

section Counting

variable {K : Type}

theorem sum_map_set {α : Type} (f : α → Nat) (l : List α) (i : Nat) (x y : α)
    (h : l[i]? = some x) :
    ((l.set i y).map f).sum + f x = (l.map f).sum + f y := by
  induction l generalizing i with
  | nil => simp at h
  | cons a l ih =>
    cases i with
    | zero =>
      simp only [List.getElem?_cons_zero, Option.some.injEq] at h
      subst h
      simp only [List.set_cons_zero, List.map_cons, List.sum_cons]
      omega
    | succ i =>
      simp only [List.getElem?_cons_succ] at h
      have := ih i h
      simp only [List.set_cons_succ, List.map_cons, List.sum_cons]
      omega

theorem countP_set_add (p : Int → Bool) (l : List Int) (i : Nat) (c0 c : Int)
    (h : l[i]? = some c0) :
    (l.set i c).countP p + (if p c0 = true then 1 else 0) =
      l.countP p + (if p c = true then 1 else 0) := by
  induction l generalizing i with
  | nil => simp at h
  | cons a l ih =>
    cases i with
    | zero =>
      simp only [List.getElem?_cons_zero, Option.some.injEq] at h
      subst h
      simp only [List.set_cons_zero, List.countP_cons]
      omega
    | succ i =>
      simp only [List.getElem?_cons_succ] at h
      have := ih i h
      simp only [List.set_cons_succ, List.countP_cons]
      omega

theorem countCtrl_setCell (p : Int → Bool) (gs : List (Group K)) (i s : Nat) (c c0 : Int)
    (k : K) (h0 : ctrlAt gs i s = some c0) :
    countCtrl p (setCell gs i s c k) + (if p c0 = true then 1 else 0) =
      countCtrl p gs + (if p c = true then 1 else 0) := by
  unfold ctrlAt at h0
  cases hg : gs[i]? with
  | none => rw [hg] at h0; cases h0
  | some g =>
    rw [hg] at h0
    simp only [Option.some_bind] at h0
    unfold setCell countCtrl
    rw [hg]
    simp only []
    have h1 := sum_map_set (fun g : Group K => g.ctrl.countP p) gs i g
      { ctrl := g.ctrl.set s c, slot := g.slot.set s k } hg
    have h2 := countP_set_add p g.ctrl s c0 c h0
    simp only [] at h1
    omega

theorem flatMap_set_perm {α β : Type} (F : α → List β) (l : List α) (i : Nat) (x y : α)
    (h : l[i]? = some x) :
    List.Perm ((l.set i y).flatMap F ++ F x) (l.flatMap F ++ F y) := by
  induction l generalizing i with
  | nil => simp at h
  | cons a l ih =>
    cases i with
    | zero =>
      simp only [List.getElem?_cons_zero, Option.some.injEq] at h
      subst h
      simp only [List.set_cons_zero, List.flatMap_cons, List.append_assoc]
      have e1 : List.Perm (F y ++ (List.flatMap l F ++ F a)) ((List.flatMap l F ++ F a) ++ F y) :=
        List.perm_append_comm
      have e2 : List.Perm ((List.flatMap l F ++ F a) ++ F y) ((F a ++ List.flatMap l F) ++ F y) :=
        List.Perm.append_right _ List.perm_append_comm
      have e3 := e1.trans e2
      simpa using e3
    | succ i =>
      simp only [List.getElem?_cons_succ] at h
      have := ih i h
      simp only [List.set_cons_succ, List.flatMap_cons, List.append_assoc]
      exact List.Perm.append_left _ this

theorem filterMap_set_perm {α β : Type} (f : α → Option β) (l : List α) (i : Nat) (x y : α)
    (h : l[i]? = some x) :
    List.Perm ((l.set i y).filterMap f ++ (f x).toList) (l.filterMap f ++ (f y).toList) := by
  induction l generalizing i with
  | nil => simp at h
  | cons a l ih =>
    cases i with
    | zero =>
      simp only [List.getElem?_cons_zero, Option.some.injEq] at h
      subst h
      simp only [List.set_cons_zero, List.filterMap_cons]
      have e1 : List.Perm ((f y).toList ++ (List.filterMap f l ++ (f a).toList))
          ((List.filterMap f l ++ (f a).toList) ++ (f y).toList) := List.perm_append_comm
      have e2 : List.Perm ((List.filterMap f l ++ (f a).toList) ++ (f y).toList)
          (((f a).toList ++ List.filterMap f l) ++ (f y).toList) :=
        List.Perm.append_right _ List.perm_append_comm
      have e3 := e1.trans e2
      cases hy : f y <;> cases ha : f a <;> simp [hy, ha] at e3 ⊢ <;> exact e3
    | succ i =>
      simp only [List.getElem?_cons_succ] at h
      have := ih i h
      simp only [List.set_cons_succ, List.filterMap_cons]
      cases ha : f a
      · simpa using this
      · simp only [List.cons_append]
        exact List.Perm.cons _ this

theorem zip_set_set {α β : Type} (l1 : List α) (l2 : List β) (s : Nat) (a : α) (b : β) :
    (l1.set s a).zip (l2.set s b) = (l1.zip l2).set s (a, b) := by
  induction l1 generalizing l2 s with
  | nil => simp
  | cons x l1 ih =>
    cases l2 with
    | nil => simp
    | cons y l2 =>
      cases s with
      | zero => simp
      | succ s => simp [ih]

end Counting

section Keys

variable {K : Type}

/-- The contribution of one lane to the list of live keys. -/
theorem liveKeys_setCell (gs : List (Group K)) (i s : Nat) (c c0 : Int) (k k0 : K)
    (hc : ctrlAt gs i s = some c0) (hk : slotAt gs i s = some k0) :
    List.Perm (liveKeys (setCell gs i s c k) ++ (if isFull c0 = true then [k0] else []))
      (liveKeys gs ++ (if isFull c = true then [k] else [])) := by
  unfold ctrlAt at hc
  unfold slotAt at hk
  cases hg : gs[i]? with
  | none => rw [hg] at hc; cases hc
  | some g =>
    rw [hg] at hc hk
    simp only [Option.some_bind] at hc hk
    have hz : (g.ctrl.zip g.slot)[s]? = some (c0, k0) := by
      rw [List.getElem?_zip_eq_some]; exact ⟨hc, hk⟩
    have h1 := filterMap_set_perm
      (fun ck : Int × K => if isFull ck.1 = true then some ck.2 else none)
      (g.ctrl.zip g.slot) s (c0, k0) (c, k) hz
    rw [← zip_set_set] at h1
    have e0 : ∀ (c : Int) (k : K), (if isFull c = true then some k else none).toList =
        (if isFull c = true then [k] else []) := by
      intro c k; by_cases h : isFull c = true <;> simp [h]
    simp only [e0] at h1
    have h2 := flatMap_set_perm Group.keys gs i g
      { ctrl := g.ctrl.set s c, slot := g.slot.set s k } hg
    unfold setCell liveKeys
    rw [hg]
    simp only []
    have h1' : List.Perm
        (Group.keys ({ ctrl := g.ctrl.set s c, slot := g.slot.set s k } : Group K) ++
          (if isFull c0 = true then [k0] else []))
        (Group.keys g ++ (if isFull c = true then [k] else [])) := h1
    -- A ++ keys g ~ B ++ keys g'   and   keys g' ++ d0 ~ keys g ++ d
    have e1 : List.Perm
        ((List.flatMap (gs.set i { ctrl := g.ctrl.set s c, slot := g.slot.set s k }) Group.keys ++
          (if isFull c0 = true then [k0] else [])) ++ Group.keys g)
        ((List.flatMap gs Group.keys ++ (if isFull c = true then [k] else [])) ++ Group.keys g) := by
      have a1 : List.Perm
          ((List.flatMap (gs.set i { ctrl := g.ctrl.set s c, slot := g.slot.set s k }) Group.keys ++
            (if isFull c0 = true then [k0] else [])) ++ Group.keys g)
          ((List.flatMap (gs.set i { ctrl := g.ctrl.set s c, slot := g.slot.set s k }) Group.keys ++
            Group.keys g) ++ (if isFull c0 = true then [k0] else [])) := by
        rw [List.append_assoc, List.append_assoc]
        exact List.Perm.append_left _ List.perm_append_comm
      have a2 := List.Perm.append_right (if isFull c0 = true then [k0] else []) h2
      have a3 : List.Perm
          ((List.flatMap gs Group.keys ++
            Group.keys ({ ctrl := g.ctrl.set s c, slot := g.slot.set s k } : Group K)) ++
            (if isFull c0 = true then [k0] else []))
          (List.flatMap gs Group.keys ++ (Group.keys g ++ (if isFull c = true then [k] else []))) := by
        rw [List.append_assoc]
        exact List.Perm.append_left _ h1'
      have a4 : List.Perm
          (List.flatMap gs Group.keys ++ (Group.keys g ++ (if isFull c = true then [k] else [])))
          ((List.flatMap gs Group.keys ++ (if isFull c = true then [k] else [])) ++ Group.keys g) := by
        rw [List.append_assoc]
        exact List.Perm.append_left _ List.perm_append_comm
      exact a1.trans (a2.trans (a3.trans a4))
    exact (List.perm_append_right_iff _).1 e1

theorem mem_keys (g : Group K) (k : K) :
    k ∈ Group.keys g ↔ ∃ (j : Nat) (c : Int), g.ctrl[j]? = some c ∧ isFull c = true ∧ g.slot[j]? = some k := by
  unfold Group.keys
  rw [List.mem_filterMap]
  constructor
  · rintro ⟨⟨c, k1⟩, hm, hf⟩
    obtain ⟨j, hj⟩ := List.getElem?_of_mem hm
    rw [List.getElem?_zip_eq_some] at hj
    by_cases hc : isFull c = true
    · simp only [hc, if_true, Option.some.injEq] at hf
      subst hf
      exact ⟨j, c, hj.1, hc, hj.2⟩
    · simp [hc] at hf
  · rintro ⟨j, c, h1, h2, h3⟩
    refine ⟨(c, k), ?_, by simp [h2]⟩
    have hz : (g.ctrl.zip g.slot)[j]? = some (c, k) := by
      rw [List.getElem?_zip_eq_some]
      exact ⟨h1, h3⟩
    exact List.getElem?_mem hz

theorem mem_liveKeys (gs : List (Group K)) (k : K) :
    k ∈ liveKeys gs ↔ ∃ i j, Occ gs i j k := by
  unfold liveKeys Occ ctrlAt slotAt
  rw [List.mem_flatMap]
  constructor
  · rintro ⟨g, hg, hk⟩
    obtain ⟨i, hi⟩ := List.getElem?_of_mem hg
    rw [mem_keys] at hk
    obtain ⟨j, c, h1, h2, h3⟩ := hk
    exact ⟨i, j, c, by simp [hi, h1], h2, by simp [hi, h3]⟩
  · rintro ⟨i, j, c, h1, h2, h3⟩
    cases hg : gs[i]? with
    | none => rw [hg] at h1; cases h1
    | some g =>
      rw [hg] at h1 h3
      simp only [Option.some_bind] at h1 h3
      exact ⟨g, List.getElem?_mem hg, (mem_keys g k).2 ⟨j, c, h1, h2, h3⟩⟩

theorem keys_length (ctrl : List Int) (slot : List K) (h : ctrl.length ≤ slot.length) :
    (Group.keys ({ ctrl := ctrl, slot := slot } : Group K)).length +
      ctrl.countP (fun c => decide (c = kDeleted)) =
      ctrl.countP (fun c => decide (c ≠ kEmpty)) := by
  induction ctrl generalizing slot with
  | nil => simp [Group.keys]
  | cons c cs ih =>
    cases slot with
    | nil => simp at h
    | cons k ks =>
      simp only [List.length_cons, Nat.add_le_add_iff_right] at h
      have := ih ks h
      simp only [Group.keys, List.zip_cons_cons, List.filterMap_cons, List.countP_cons] at this ⊢
      by_cases h1 : c = kEmpty
      · subst h1
        simp [isFull, kEmpty, kDeleted] at this ⊢
        omega
      · by_cases h2 : c = kDeleted
        · subst h2
          simp [isFull, kEmpty, kDeleted] at this ⊢
          omega
        · simp [isFull, h1, h2] at this ⊢
          omega

theorem liveKeys_length (cfg : Config) (gs : List (Group K))
    (h : ∀ g ∈ gs, g.ctrl.length = cfg.groupSize ∧ g.slot.length = cfg.groupSize) :
    (liveKeys gs).length + countDeleted gs = countNonEmpty gs := by
  induction gs with
  | nil => simp [liveKeys, countDeleted, countNonEmpty, countCtrl]
  | cons g gs ih =>
    have h1 := ih (fun g1 hg1 => h g1 (List.mem_cons_of_mem _ hg1))
    have h2 := h g (List.mem_cons_self _ _)
    have h3 : (Group.keys g).length + g.ctrl.countP (fun c => decide (c = kDeleted)) =
        g.ctrl.countP (fun c => decide (c ≠ kEmpty)) := keys_length g.ctrl g.slot (by omega)
    have e1 : (liveKeys (g :: gs)).length = (Group.keys g).length + (liveKeys gs).length := by
      simp [liveKeys]
    have e2 : countDeleted (g :: gs) =
        g.ctrl.countP (fun c => decide (c = kDeleted)) + countDeleted gs := by
      simp [countDeleted, countCtrl]
    have e3 : countNonEmpty (g :: gs) =
        g.ctrl.countP (fun c => decide (c ≠ kEmpty)) + countNonEmpty gs := by
      simp [countNonEmpty, countCtrl]
    omega

/-- A table without a single Empty control byte has `groupSize` non-Empty bytes
per group. -/
theorem countNonEmpty_full (cfg : Config) (gs : List (Group K))
    (h : ∀ g ∈ gs, g.ctrl.length = cfg.groupSize ∧ g.slot.length = cfg.groupSize)
    (hne : ∀ i, ¬ GEmpty gs i) : countNonEmpty gs = gs.length * cfg.groupSize := by
  induction gs with
  | nil => simp [countNonEmpty, countCtrl]
  | cons g gs ih =>
    have h1 := ih (fun g1 hg1 => h g1 (List.mem_cons_of_mem _ hg1))
      (fun i hi => hne (i + 1) (by
        obtain ⟨s, hs⟩ := hi
        exact ⟨s, by simpa [ctrlAt] using hs⟩))
    have h2 := h g (List.mem_cons_self _ _)
    have h3 : g.ctrl.countP (fun c => decide (c ≠ kEmpty)) = g.ctrl.length := by
      rw [List.countP_eq_length]
      intro a ha
      simp only [ne_eq, decide_not, Bool.not_eq_eq_eq_not, Bool.not_true, decide_eq_false_iff_not]
      intro e
      subst e
      obtain ⟨j, hj⟩ := List.getElem?_of_mem ha
      exact hne 0 ⟨j, by simpa [ctrlAt] using hj⟩
    simp only [countNonEmpty, countCtrl, List.map_cons, List.sum_cons, List.length_cons] at h1 ⊢
    rw [h1, h3, h2.1]
    ring

theorem exists_GEmpty (cfg : Config) (gs : List (Group K))
    (h : ∀ g ∈ gs, g.ctrl.length = cfg.groupSize ∧ g.slot.length = cfg.groupSize)
    (hlt : countNonEmpty gs < gs.length * cfg.groupSize) : ∃ i, GEmpty gs i := by
  by_contra hne
  have := countNonEmpty_full cfg gs h (fun i hi => hne ⟨i, hi⟩)
  omega

end Keys

section Probe

variable {K : Type} [DecidableEq K] [Inhabited K]

/-! ## One group -/

theorem ctlrMatchH2_testBit (ctrl : List Int) (tag j : Nat) :
    (ctlrMatchH2 ctrl tag).testBit j = true ↔ ctrl[j]? = some (tag : Int) := by
  unfold ctlrMatchH2
  rw [matchMask_testBit]
  constructor
  · rintro ⟨c, h1, h2⟩
    simp only [beq_iff_eq] at h2
    rw [h1, h2]
  · intro h
    exact ⟨_, h, by simp⟩

theorem ctlrMatchEmpty_testBit (ctrl : List Int) (j : Nat) :
    (ctlrMatchEmpty ctrl).testBit j = true ↔ ctrl[j]? = some kEmpty := by
  unfold ctlrMatchEmpty
  rw [matchMask_testBit]
  constructor
  · rintro ⟨c, h1, h2⟩
    simp only [beq_iff_eq] at h2
    rw [h1, h2]
  · intro h
    exact ⟨_, h, by simp⟩

theorem ctlrMatchEmpty_ne_zero (ctrl : List Int) :
    ctlrMatchEmpty ctrl ≠ 0 ↔ ∃ s : Nat, ctrl[s]? = some kEmpty := by
  unfold ctlrMatchEmpty
  rw [matchMask_ne_zero]
  constructor
  · rintro ⟨c, h1, h2⟩
    simp only [beq_iff_eq] at h2
    subst h2
    exact List.getElem?_of_mem h1
  · rintro ⟨s, hs⟩
    exact ⟨kEmpty, List.getElem?_mem hs, by simp⟩

/-- The lane taken from a non-zero Empty mask is an Empty lane. -/
theorem nextMatch_empty (cfg : Config) (ctrl : List Int) (hl : ctrl.length = cfg.groupSize)
    (hm : ctlrMatchEmpty ctrl ≠ 0) :
    ctrl[(nextMatch cfg (ctlrMatchEmpty ctrl)).1]? = some kEmpty ∧
      ∀ j, j < (nextMatch cfg (ctlrMatchEmpty ctrl)).1 → ctrl[j]? ≠ some kEmpty := by
  have hlt : ctlrMatchEmpty ctrl < 2 ^ cfg.groupSize := by
    rw [← hl]; exact matchMask_lt _ _
  obtain ⟨h1, h2⟩ := trailingZeros_spec cfg.groupSize _ hm hlt
  refine ⟨(ctlrMatchEmpty_testBit ctrl _).1 h1, ?_⟩
  intro j hj hc
  have := h2 j hj
  rw [(ctlrMatchEmpty_testBit ctrl j).2 hc] at this
  exact absurd this (by simp)

theorem firstHit_some (cfg : Config) (g : Group K) (hl : g.ctrl.length = cfg.groupSize)
    (x : K) (tag s : Nat)
    (h : firstHit cfg g.slot x cfg.groupSize (ctlrMatchH2 g.ctrl tag) = some s) :
    g.ctrl[s]? = some (tag : Int) ∧ g.slot[s]? = some x ∧
      ∀ j, j < s → ¬ (g.ctrl[j]? = some (tag : Int) ∧ g.slot[j]? = some x) := by
  have hlt : ctlrMatchH2 g.ctrl tag < 2 ^ cfg.groupSize := by
    rw [← hl]; exact matchMask_lt _ _
  have := firstHit_spec cfg g.slot x cfg.groupSize (ctlrMatchH2 g.ctrl tag) 0 hlt
    (fun _ _ => Nat.zero_le _) (by omega)
  rw [h] at this
  obtain ⟨a1, a2, a3⟩ := this
  refine ⟨(ctlrMatchH2_testBit _ _ _).1 a1, a2, ?_⟩
  rintro j hj ⟨b1, b2⟩
  exact a3 j hj ((ctlrMatchH2_testBit _ _ _).2 b1) b2

theorem firstHit_none (cfg : Config) (g : Group K) (hl : g.ctrl.length = cfg.groupSize)
    (x : K) (tag : Nat)
    (h : firstHit cfg g.slot x cfg.groupSize (ctlrMatchH2 g.ctrl tag) = none) :
    ∀ j : Nat, ¬ (g.ctrl[j]? = some (tag : Int) ∧ g.slot[j]? = some x) := by
  have hlt : ctlrMatchH2 g.ctrl tag < 2 ^ cfg.groupSize := by
    rw [← hl]; exact matchMask_lt _ _
  have := firstHit_spec cfg g.slot x cfg.groupSize (ctlrMatchH2 g.ctrl tag) 0 hlt
    (fun _ _ => Nat.zero_le _) (by omega)
  rw [h] at this
  rintro j ⟨b1, b2⟩
  exact this j ((ctlrMatchH2_testBit _ _ _).2 b1) b2

/-! ## The carousel -/

theorem walk_lt (n a t : Nat) (hn : 0 < n) : walk n a t < n := Nat.mod_lt _ hn

theorem walk_zero (n a : Nat) (ha : a < n) : walk n a 0 = a := by
  unfold walk; simpa using Nat.mod_eq_of_lt ha

theorem walk_nextGroup (n a t : Nat) (ha : a < n) :
    walk n (nextGroup a n) t = walk n a (t + 1) := by
  unfold walk nextGroup
  by_cases h : a + 1 ≥ n
  · have : a + (t + 1) = t + n := by omega
    simp only [h, if_true, this, Nat.zero_add, Nat.add_mod_right]
  · simp only [h, if_false]
    congr 1; omega

theorem nextGroup_lt (n a : Nat) (hn : 0 < n) : nextGroup a n < n := by
  unfold nextGroup
  by_cases h : a + 1 ≥ n
  · simp [h, hn]
  · simp only [h, if_false]; omega

theorem GEmpty_iff (gs : List (Group K)) (i : Nat) (g : Group K) (hg : gs[i]? = some g) :
    GEmpty gs i ↔ ctlrMatchEmpty g.ctrl ≠ 0 := by
  rw [ctlrMatchEmpty_ne_zero]
  unfold GEmpty ctrlAt
  rw [hg]
  simp

/-! ## The probe loops -/

/-- What `find` returns, and that it returns. -/
theorem findLoop_spec (cfg : Config) (gs : List (Group K))
    (wt : ∀ g ∈ gs, g.ctrl.length = cfg.groupSize ∧ g.slot.length = cfg.groupSize)
    (x : K) (tag : Nat) (fuel a : Nat) (ha : a < gs.length) :
    match findLoop cfg gs x tag fuel a with
    | some (i, s, ok) =>
      ∃ t, t < fuel ∧ walk gs.length a t = i ∧
        (∀ u, u < t → ¬ GEmpty gs (walk gs.length a u) ∧ ¬ GHit gs x tag (walk gs.length a u)) ∧
        (if ok = true then ctrlAt gs i s = some (tag : Int) ∧ slotAt gs i s = some x
         else ¬ GHit gs x tag i ∧ ctrlAt gs i s = some kEmpty)
    | none =>
      ∀ t, t < fuel → ¬ GEmpty gs (walk gs.length a t) ∧ ¬ GHit gs x tag (walk gs.length a t) := by
  induction fuel generalizing a with
  | zero => simp [findLoop]
  | succ fuel ih =>
    have hg : gs[a]? = some gs[a] := List.getElem?_eq_getElem ha
    have hwt := wt gs[a] (List.getElem_mem ha)
    unfold findLoop
    rw [hg]
    simp only []
    cases hf : firstHit cfg gs[a].slot x cfg.groupSize (ctlrMatchH2 gs[a].ctrl tag) with
    | some s =>
      simp only []
      obtain ⟨h1, h2, _⟩ := firstHit_some cfg gs[a] hwt.1 x tag s hf
      refine ⟨0, by omega, walk_zero _ _ ha, by intro u hu; omega, ?_⟩
      simp only [if_true]
      exact ⟨by simp [ctrlAt, hg, h1], by simp [slotAt, hg, h2]⟩
    | none =>
      simp only []
      have hnh : ¬ GHit gs x tag a := by
        rintro ⟨s, hs1, hs2⟩
        simp only [ctrlAt, slotAt, hg, Option.some_bind] at hs1 hs2
        exact firstHit_none cfg gs[a] hwt.1 x tag hf s ⟨hs1, hs2⟩
      by_cases hm : ctlrMatchEmpty gs[a].ctrl ≠ 0
      · rw [if_pos hm]
        simp only []
        refine ⟨0, by omega, walk_zero _ _ ha, by intro u hu; omega, ?_⟩
        simp only [Bool.false_eq_true, if_false]
        refine ⟨hnh, ?_⟩
        have := (nextMatch_empty cfg gs[a].ctrl hwt.1 hm).1
        simp [ctrlAt, hg, this]
      · rw [if_neg hm]
        have hne : ¬ GEmpty gs a := by rw [GEmpty_iff gs a gs[a] hg]; exact hm
        have hpos : 0 < gs.length := by omega
        have := ih (nextGroup a gs.length) (nextGroup_lt _ _ hpos)
        cases hr : findLoop cfg gs x tag fuel (nextGroup a gs.length) with
        | some r =>
          obtain ⟨i, s, ok⟩ := r
          rw [hr] at this
          simp only [] at this ⊢
          obtain ⟨t, ht, hw, hall, hres⟩ := this
          refine ⟨t + 1, by omega, by rw [← walk_nextGroup _ _ _ ha]; exact hw, ?_, hres⟩
          intro u hu
          cases u with
          | zero => rw [walk_zero _ _ ha]; exact ⟨hne, hnh⟩
          | succ u =>
            rw [← walk_nextGroup _ _ _ ha]
            exact hall u (by omega)
        | none =>
          rw [hr] at this
          simp only [] at this ⊢
          intro u hu
          cases u with
          | zero => rw [walk_zero _ _ ha]; exact ⟨hne, hnh⟩
          | succ u =>
            rw [← walk_nextGroup _ _ _ ha]
            exact this u (by omega)

end Probe

section Loops

variable {K : Type} [DecidableEq K] [Inhabited K]

theorem containsLoop_eq (cfg : Config) (gs : List (Group K)) (x : K) (tag fuel a : Nat) :
    containsLoop cfg gs x tag gs.length fuel a =
      (findLoop cfg gs x tag fuel a).map (fun r => r.2.2) := by
  induction fuel generalizing a with
  | zero => simp [containsLoop, findLoop]
  | succ fuel ih =>
    unfold containsLoop findLoop
    cases hg : gs[a]? with
    | none => simp
    | some g =>
      simp only []
      cases hf : firstHit cfg g.slot x cfg.groupSize (ctlrMatchH2 g.ctrl tag) with
      | some s => simp
      | none =>
        simp only []
        by_cases hm : ctlrMatchEmpty g.ctrl ≠ 0
        · rw [if_pos hm, if_pos hm]; simp
        · rw [if_neg hm, if_neg hm]; exact ih _

theorem addLoop_eq (cfg : Config) (set : Set K) (x : K) (tag fuel a : Nat) :
    addLoop cfg set x tag set.group.length fuel a =
      (findLoop cfg set.group x tag fuel a).map
        (fun r => if r.2.2 = true then set else insertAt set r.1 r.2.1 tag x) := by
  induction fuel generalizing a with
  | zero => simp [addLoop, findLoop]
  | succ fuel ih =>
    unfold addLoop findLoop
    cases hg : set.group[a]? with
    | none => simp
    | some g =>
      simp only []
      cases hf : firstHit cfg g.slot x cfg.groupSize (ctlrMatchH2 g.ctrl tag) with
      | some s => simp
      | none =>
        simp only []
        by_cases hm : ctlrMatchEmpty g.ctrl ≠ 0
        · rw [if_pos hm, if_pos hm]
          simp [insertAt, setCell, hg]
        · rw [if_neg hm, if_neg hm]; exact ih _

theorem removeLoop_eq (cfg : Config) (set : Set K) (x : K) (tag fuel a : Nat) :
    removeLoop cfg set x tag set.group.length fuel a =
      (findLoop cfg set.group x tag fuel a).map
        (fun r => if r.2.2 = true then (true, removeAt set r.1 r.2.1) else (false, set)) := by
  induction fuel generalizing a with
  | zero => simp [removeLoop, findLoop]
  | succ fuel ih =>
    unfold removeLoop findLoop
    cases hg : set.group[a]? with
    | none => simp
    | some g =>
      simp only []
      cases hf : firstHit cfg g.slot x cfg.groupSize (ctlrMatchH2 g.ctrl tag) with
      | some s =>
        simp only [Option.map_some', if_true]
        by_cases hm : ctlrMatchEmpty g.ctrl ≠ 0
        · rw [if_pos hm]; simp [removeAt, setCell, hg, hm]
        · rw [if_neg hm]; simp [removeAt, setCell, hg, hm]
      | none =>
        simp only []
        by_cases hm : ctlrMatchEmpty g.ctrl ≠ 0
        · rw [if_pos hm, if_pos hm]; simp
        · rw [if_neg hm, if_neg hm]; exact ih _

/-- What the reduced insert of `rehash` does, and that it returns. -/
theorem rehashInsert_spec (cfg : Config) (gs : List (Group K))
    (wt : ∀ g ∈ gs, g.ctrl.length = cfg.groupSize ∧ g.slot.length = cfg.groupSize)
    (x : K) (tag : Nat) (fuel a : Nat) (ha : a < gs.length) :
    match rehashInsert cfg gs x tag gs.length fuel a with
    | some gs1 =>
      ∃ t s, t < fuel ∧ (∀ u, u < t → ¬ GEmpty gs (walk gs.length a u)) ∧
        ctrlAt gs (walk gs.length a t) s = some kEmpty ∧
        gs1 = setCell gs (walk gs.length a t) s (tag : Int) x
    | none => ∀ t, t < fuel → ¬ GEmpty gs (walk gs.length a t) := by
  induction fuel generalizing a with
  | zero => simp [rehashInsert]
  | succ fuel ih =>
    have hg : gs[a]? = some gs[a] := List.getElem?_eq_getElem ha
    have hwt := wt gs[a] (List.getElem_mem ha)
    unfold rehashInsert
    rw [hg]
    simp only []
    by_cases hm : ctlrMatchEmpty gs[a].ctrl ≠ 0
    · rw [if_pos hm]
      simp only []
      refine ⟨0, (nextMatch cfg (ctlrMatchEmpty gs[a].ctrl)).1, by omega,
        by intro u hu; omega, ?_, ?_⟩
      · rw [walk_zero _ _ ha]
        have := (nextMatch_empty cfg gs[a].ctrl hwt.1 hm).1
        simp [ctrlAt, hg, this]
      · rw [walk_zero _ _ ha]
        simp [setCell, hg]
    · rw [if_neg hm]
      have hne : ¬ GEmpty gs a := by rw [GEmpty_iff gs a gs[a] hg]; exact hm
      have hpos : 0 < gs.length := by omega
      have := ih (nextGroup a gs.length) (nextGroup_lt _ _ hpos)
      cases hr : rehashInsert cfg gs x tag gs.length fuel (nextGroup a gs.length) with
      | some gs1 =>
        rw [hr] at this
        simp only [] at this ⊢
        obtain ⟨t, s, ht, hall, hc, he⟩ := this
        refine ⟨t + 1, s, by omega, ?_, ?_, ?_⟩
        · intro u hu
          cases u with
          | zero => rw [walk_zero _ _ ha]; exact hne
          | succ u =>
            rw [← walk_nextGroup _ _ _ ha]
            exact hall u (by omega)
        · rw [← walk_nextGroup _ _ _ ha]; exact hc
        · rw [← walk_nextGroup _ _ _ ha]; exact he
      | none =>
        rw [hr] at this
        simp only [] at this ⊢
        intro u hu
        cases u with
        | zero => rw [walk_zero _ _ ha]; exact hne
        | succ u =>
          rw [← walk_nextGroup _ _ _ ha]
          exact this u (by omega)

/-- Every group index is reached by the carousel within `n` steps. -/
theorem walk_surj (n a i : Nat) (ha : a < n) (hi : i < n) : ∃ t, t < n ∧ walk n a t = i := by
  refine ⟨(i + n - a) % n, Nat.mod_lt _ (by omega), ?_⟩
  unfold walk
  rw [Nat.add_mod_mod]
  have : a + (i + n - a) = i + n := by omega
  rw [this, Nat.add_mod_right]
  exact Nat.mod_eq_of_lt hi

theorem walk_inj (n a t u : Nat) (ht : t < n) (hu : u < n)
    (h : walk n a t = walk n a u) : t = u := by
  unfold walk at h
  have h1 : (a + t) % n = (a + u) % n := h
  rcases Nat.lt_trichotomy t u with hlt | heq | hgt
  · exfalso
    have h2 : (a + u) % n = (a + t + (u - t)) % n := by congr 1; omega
    have h3 := Nat.ModEq.add_left_cancel' (a + t) (show (a + t + 0) % n = (a + t + (u - t)) % n by
      rw [Nat.add_zero, h1, h2])
    have h4 : 0 % n = (u - t) % n := h3
    rw [Nat.zero_mod, Nat.mod_eq_of_lt (by omega)] at h4
    omega
  · exact heq
  · exfalso
    have h2 : (a + t) % n = (a + u + (t - u)) % n := by congr 1; omega
    have h3 := Nat.ModEq.add_left_cancel' (a + u) (show (a + u + 0) % n = (a + u + (t - u)) % n by
      rw [Nat.add_zero, ← h1, h2])
    have h4 : 0 % n = (t - u) % n := h3
    rw [Nat.zero_mod, Nat.mod_eq_of_lt (by omega)] at h4
    omega

end Loops

section Table

variable {K : Type} [DecidableEq K] [Inhabited K]

theorem isFull_tag (tag : Nat) : isFull (tag : Int) = true := by
  unfold isFull kEmpty kDeleted
  simp only [Bool.not_eq_true', decide_eq_false_iff_not, not_or]
  constructor <;> omega

theorem isFull_kEmpty : isFull kEmpty = false := by
  simp [isFull]

theorem isFull_kDeleted : isFull kDeleted = false := by
  simp [isFull]

theorem tag_ne_kEmpty (tag : Nat) : (tag : Int) ≠ kEmpty := by
  unfold kEmpty; omega

theorem tag_ne_kDeleted (tag : Nat) : (tag : Int) ≠ kDeleted := by
  unfold kDeleted; omega

/-- Writing a key with its tag into an Empty lane that lies on the probe path
of the key, behind groups without an Empty byte, keeps the table invariant. -/
theorem TableInv_insert (cfg : Config) (H : Oracle K) (seed : Nat) (gs : List (Group K))
    (inv : TableInv cfg H seed gs) (x : K) (hx : x ∉ liveKeys gs) (t s : Nat)
    (ht : t < gs.length)
    (hall : ∀ u, u < t → ¬ GEmpty gs (walk gs.length (startOf H seed gs.length x) u))
    (hc : ctrlAt gs (walk gs.length (startOf H seed gs.length x) t) s = some kEmpty) :
    TableInv cfg H seed
        (setCell gs (walk gs.length (startOf H seed gs.length x) t) s (tagOf H seed x : Int) x) ∧
      List.Perm
        (liveKeys (setCell gs (walk gs.length (startOf H seed gs.length x) t) s
          (tagOf H seed x : Int) x)) (x :: liveKeys gs) ∧
      countNonEmpty
        (setCell gs (walk gs.length (startOf H seed gs.length x) t) s (tagOf H seed x : Int) x) =
          countNonEmpty gs + 1 ∧
      countDeleted
        (setCell gs (walk gs.length (startOf H seed gs.length x) t) s (tagOf H seed x : Int) x) =
          countDeleted gs := by
  generalize hi0 : walk gs.length (startOf H seed gs.length x) t = i0 at hc ⊢
  obtain ⟨hib, hsb⟩ := ctrlAt_bounds cfg gs inv.wt i0 s kEmpty hc
  obtain ⟨c0, k0, hc0, hk0⟩ := ctrlAt_isSome cfg gs inv.wt i0 s hib hsb
  have hC := ctrlAt_setCell gs i0 s (tagOf H seed x : Int) kEmpty x hc
  have hS := slotAt_setCell gs i0 s (tagOf H seed x : Int) x k0 hk0
  have hlen := setCell_length gs i0 s (tagOf H seed x : Int) x
  have hperm := liveKeys_setCell gs i0 s (tagOf H seed x : Int) kEmpty x k0 hc hk0
  rw [isFull_kEmpty, isFull_tag] at hperm
  simp only [Bool.false_eq_true, if_false, List.append_nil, if_true] at hperm
  have hperm2 : List.Perm (liveKeys (setCell gs i0 s (tagOf H seed x : Int) x)) (x :: liveKeys gs) :=
    hperm.trans (@List.perm_append_comm K (liveKeys gs) [x])
  have hmono : ∀ i, GEmpty (setCell gs i0 s (tagOf H seed x : Int) x) i → GEmpty gs i := by
    rintro i ⟨j, hj⟩
    rw [hC] at hj
    by_cases h : i = i0 ∧ j = s
    · rw [if_pos h] at hj
      simp only [Option.some.injEq] at hj
      exact absurd hj (tag_ne_kEmpty _)
    · rw [if_neg h] at hj
      exact ⟨j, hj⟩
  refine ⟨⟨setCell_wt cfg gs i0 s _ x inv.wt, by rw [hlen]; exact inv.pos, ?_, ?_⟩, hperm2, ?_, ?_⟩
  · intro i j k hocc
    rw [hlen]
    obtain ⟨c, h1, h2, h3⟩ := hocc
    rw [hC] at h1 ⊢
    rw [hS] at h3
    by_cases h : i = i0 ∧ j = s
    · rw [if_pos h] at h1 h3 ⊢
      simp only [Option.some.injEq] at h3
      subst h3
      refine ⟨rfl, t, ht, by rw [hi0]; exact h.1.symm, ?_⟩
      intro u hu hge
      exact hall u hu (hmono _ hge)
    · rw [if_neg h] at h1 h3 ⊢
      obtain ⟨p1, t1, p2, p3, p4⟩ := inv.path i j k ⟨c, h1, h2, h3⟩
      refine ⟨p1, t1, p2, p3, ?_⟩
      intro u hu hge
      exact p4 u hu (hmono _ hge)
  · exact (List.Perm.nodup_iff hperm2).2 (List.nodup_cons.2 ⟨hx, inv.nodup⟩)
  · have := countCtrl_setCell (fun c => decide (c ≠ kEmpty)) gs i0 s (tagOf H seed x : Int)
      kEmpty x hc
    have e1 : decide ((tagOf H seed x : Int) ≠ kEmpty) = true := by
      simp [tag_ne_kEmpty]
    simp only [ne_eq, not_true_eq_false, decide_False, Bool.false_eq_true, if_false,
      Nat.add_zero] at this
    unfold countNonEmpty
    simp only [ne_eq]
    rw [this]
    have e2 : decide (¬ (tagOf H seed x : Int) = kEmpty) = true := by
      simp [tag_ne_kEmpty]
    rw [if_pos e2]
  · have := countCtrl_setCell (fun c => decide (c = kDeleted)) gs i0 s (tagOf H seed x : Int)
      kEmpty x hc
    have e1 : decide (kEmpty = kDeleted) = false := by decide
    have e2 : decide ((tagOf H seed x : Int) = kDeleted) = false := by
      simp [tag_ne_kDeleted]
    simp only [e1, e2, Bool.false_eq_true, if_false, Nat.add_zero] at this
    exact this

/-- Overwriting an Occupied lane with Deleted, or with Empty when its group
already has an Empty byte, keeps the table invariant and removes one key. -/
theorem TableInv_remove (cfg : Config) (H : Oracle K) (seed : Nat) (gs : List (Group K))
    (inv : TableInv cfg H seed gs) (x : K) (i s : Nat) (c0 c1 : Int)
    (hc : ctrlAt gs i s = some c0) (hfull : isFull c0 = true) (hk : slotAt gs i s = some x)
    (hc1 : (c1 = kEmpty ∧ GEmpty gs i) ∨ c1 = kDeleted) :
    TableInv cfg H seed (setCell gs i s c1 zeroKey) ∧
      List.Perm (x :: liveKeys (setCell gs i s c1 zeroKey)) (liveKeys gs) ∧
      (∀ i1, GEmpty (setCell gs i s c1 zeroKey) i1 ↔ GEmpty gs i1) := by
  have hC := ctrlAt_setCell gs i s c1 c0 (zeroKey : K) hc
  have hS := slotAt_setCell gs i s c1 (zeroKey : K) x hk
  have hlen := setCell_length gs i s c1 (zeroKey : K)
  have hnf : isFull c1 = false := by
    rcases hc1 with h | h
    · rw [h.1]; exact isFull_kEmpty
    · rw [h]; exact isFull_kDeleted
  have hperm := liveKeys_setCell gs i s c1 c0 (zeroKey : K) x hc hk
  rw [hfull, hnf] at hperm
  simp only [Bool.false_eq_true, if_false, List.append_nil, if_true] at hperm
  have hcomm : List.Perm (x :: liveKeys (setCell gs i s c1 (zeroKey : K)))
      (liveKeys (setCell gs i s c1 (zeroKey : K)) ++ [x]) := by
    simpa using (@List.perm_append_comm K [x] (liveKeys (setCell gs i s c1 (zeroKey : K))))
  have hperm2 : List.Perm (x :: liveKeys (setCell gs i s c1 (zeroKey : K))) (liveKeys gs) :=
    hcomm.trans hperm
  have hne0 : c0 ≠ kEmpty := by
    intro e; rw [e, isFull_kEmpty] at hfull; cases hfull
  have hmono : ∀ i1, GEmpty (setCell gs i s c1 (zeroKey : K)) i1 ↔ GEmpty gs i1 := by
    intro i1
    constructor
    · rintro ⟨j, hj⟩
      rw [hC] at hj
      by_cases h : i1 = i ∧ j = s
      · rw [if_pos h] at hj
        simp only [Option.some.injEq] at hj
        rcases hc1 with h1 | h1
        · rw [h.1]; exact h1.2
        · rw [h1] at hj; exact absurd hj (by decide)
      · rw [if_neg h] at hj
        exact ⟨j, hj⟩
    · rintro ⟨j, hj⟩
      refine ⟨j, ?_⟩
      rw [hC]
      by_cases h : i1 = i ∧ j = s
      · exfalso
        rw [h.1, h.2, hc] at hj
        simp only [Option.some.injEq] at hj
        exact hne0 hj
      · rw [if_neg h]; exact hj
  refine ⟨⟨setCell_wt cfg gs i s _ _ inv.wt, by rw [hlen]; exact inv.pos, ?_, ?_⟩, hperm2, hmono⟩
  · intro i1 j k hocc
    rw [hlen]
    obtain ⟨c, h1, h2, h3⟩ := hocc
    rw [hC] at h1 ⊢
    rw [hS] at h3
    by_cases h : i1 = i ∧ j = s
    · rw [if_pos h] at h1
      simp only [Option.some.injEq] at h1
      rw [← h1, hnf] at h2
      cases h2
    · rw [if_neg h] at h1 h3 ⊢
      obtain ⟨p1, t1, p2, p3, p4⟩ := inv.path i1 j k ⟨c, h1, h2, h3⟩
      refine ⟨p1, t1, p2, p3, ?_⟩
      intro u hu hge
      exact p4 u hu ((hmono _).1 hge)
  · have := (List.Perm.nodup_iff hperm2).2 inv.nodup
    exact (List.nodup_cons.1 this).2

/-- The outcome of the probe for `x` in a table that satisfies the invariant
and has an Empty byte somewhere: it returns, with a hit iff `x` is live. -/
theorem find_table (cfg : Config) (H : Oracle K) (seed : Nat) (gs : List (Group K))
    (inv : TableInv cfg H seed gs) (hE : ∃ i, GEmpty gs i) (x : K) :
    ∃ i s ok, findLoop cfg gs x (tagOf H seed x) gs.length (startOf H seed gs.length x) =
        some (i, s, ok) ∧
      (ok = true → x ∈ liveKeys gs ∧ ctrlAt gs i s = some (tagOf H seed x : Int) ∧
        slotAt gs i s = some x) ∧
      (ok = false → x ∉ liveKeys gs ∧ ctrlAt gs i s = some kEmpty ∧
        ∃ t, t < gs.length ∧ walk gs.length (startOf H seed gs.length x) t = i ∧
          ∀ u, u < t → ¬ GEmpty gs (walk gs.length (startOf H seed gs.length x) u)) := by
  have ha : startOf H seed gs.length x < gs.length := Nat.mod_lt _ inv.pos
  have spec := findLoop_spec cfg gs inv.wt x (tagOf H seed x) gs.length _ ha
  cases hr : findLoop cfg gs x (tagOf H seed x) gs.length (startOf H seed gs.length x) with
  | none =>
    exfalso
    rw [hr] at spec
    simp only [] at spec
    obtain ⟨i, hi⟩ := hE
    obtain ⟨s, hs⟩ := hi
    obtain ⟨hib, _⟩ := ctrlAt_bounds cfg gs inv.wt i s kEmpty hs
    obtain ⟨t, ht, hw⟩ := walk_surj gs.length _ i ha hib
    exact (spec t ht).1 (by rw [hw]; exact ⟨s, hs⟩)
  | some r =>
    obtain ⟨i, s, ok⟩ := r
    rw [hr] at spec
    simp only [] at spec
    obtain ⟨t, ht, hw, hall, hres⟩ := spec
    refine ⟨i, s, ok, rfl, ?_, ?_⟩
    · intro hok
      rw [if_pos hok] at hres
      refine ⟨?_, hres.1, hres.2⟩
      rw [mem_liveKeys]
      exact ⟨i, s, _, hres.1, isFull_tag _, hres.2⟩
    · intro hok
      rw [hok] at hres
      simp only [Bool.false_eq_true, if_false] at hres
      refine ⟨?_, hres.2, t, ht, hw, fun u hu => (hall u hu).1⟩
      intro hmem
      rw [mem_liveKeys] at hmem
      obtain ⟨i1, j1, hocc⟩ := hmem
      obtain ⟨p1, t1, p2, p3, p4⟩ := inv.path i1 j1 x hocc
      have hhit : GHit gs x (tagOf H seed x) i1 := by
        obtain ⟨c, _, _, q3⟩ := hocc
        exact ⟨j1, p1, q3⟩
      rcases Nat.lt_trichotomy t1 t with hlt | heq | hgt
      · exact (hall t1 hlt).2 (by rw [p3]; exact hhit)
      · subst heq
        rw [p3] at hw
        subst hw
        exact hres.1 hhit
      · exact p4 t hgt (by rw [hw]; exact ⟨s, hres.2⟩)

end Table

section Fresh

variable {K : Type} [DecidableEq K] [Inhabited K]

theorem foldl_set_length {α : Type} (v : α) (m : Nat) (l : List α) :
    ((List.range m).foldl (fun c j => c.set j v) l).length = l.length := by
  induction m with
  | zero => simp
  | succ m ih =>
    rw [List.range_succ, List.foldl_append]
    simp only [List.foldl_cons, List.foldl_nil, List.length_set]
    exact ih

theorem foldl_set_getElem? {α : Type} (v : α) (m : Nat) (l : List α) (j : Nat) :
    ((List.range m).foldl (fun c j => c.set j v) l)[j]? =
      if j < m then (l[j]?).map (fun _ => v) else l[j]? := by
  induction m with
  | zero => simp
  | succ m ih =>
    rw [List.range_succ, List.foldl_append]
    simp only [List.foldl_cons, List.foldl_nil]
    rw [List.getElem?_set, ih, foldl_set_length]
    by_cases h1 : m = j
    · subst h1
      simp only [if_true, Nat.lt_irrefl, if_false, Nat.lt_succ_self]
      by_cases h2 : m < l.length
      · simp [h2, List.getElem?_eq_getElem h2]
      · simp [h2, List.getElem?_eq_none (Nat.le_of_not_lt h2)]
    · simp only [h1, if_false]
      by_cases h2 : j < m
      · have : j < m + 1 := by omega
        simp [h2, this]
      · have : ¬ j < m + 1 := by omega
        simp [h2, this]

theorem foldl_set_eq_replicate {α : Type} (v : α) (m : Nat) (l : List α) (h : l.length = m) :
    (List.range m).foldl (fun c j => c.set j v) l = List.replicate m v := by
  apply List.ext_getElem?
  intro j
  rw [foldl_set_getElem?, List.getElem?_replicate]
  by_cases h2 : j < m
  · have : j < l.length := by omega
    simp [h2, List.getElem?_eq_getElem this]
  · simp [h2, List.getElem?_eq_none (by omega : l.length ≤ j)]

theorem fillEmpty_eq (cfg : Config) (ctrl : List Int) (h : ctrl.length = cfg.groupSize) :
    fillEmpty cfg ctrl = List.replicate cfg.groupSize kEmpty :=
  foldl_set_eq_replicate kEmpty cfg.groupSize ctrl h

theorem fillZero_eq (cfg : Config) (slot : List K) (h : slot.length = cfg.groupSize) :
    fillZero cfg slot = List.replicate cfg.groupSize zeroKey :=
  foldl_set_eq_replicate zeroKey cfg.groupSize slot h

/-- The group array that `NewSet`, `rehash` and `Clear` produce: every control
byte Empty, every slot the zero key. -/
theorem makeGroups_eq (cfg : Config) (n : Nat) :
    (makeGroups cfg n : List (Group K)) =
      List.replicate n { ctrl := List.replicate cfg.groupSize kEmpty,
                         slot := List.replicate cfg.groupSize zeroKey } := by
  unfold makeGroups
  rw [List.map_replicate]
  simp only []
  rw [fillEmpty_eq cfg _ (by simp)]

theorem Clear_group (cfg : Config) (set : Set K) (wt : set.WellTyped cfg) :
    (Clear cfg set).group = makeGroups cfg set.group.length := by
  rw [makeGroups_eq]
  unfold Clear
  simp only []
  apply List.ext_getElem?
  intro i
  rw [List.getElem?_map, List.getElem?_replicate]
  by_cases h : i < set.group.length
  · rw [List.getElem?_eq_getElem h, if_pos h]
    have := wt _ (List.getElem_mem h)
    simp [fillEmpty_eq cfg _ this.1, fillZero_eq cfg _ this.2]
  · rw [List.getElem?_eq_none (by omega), if_neg h]
    rfl

theorem makeGroups_length (cfg : Config) (n : Nat) :
    (makeGroups cfg n : List (Group K)).length = n := by
  rw [makeGroups_eq]; simp

theorem makeGroups_wt (cfg : Config) (n : Nat) :
    ∀ g ∈ (makeGroups cfg n : List (Group K)),
      g.ctrl.length = cfg.groupSize ∧ g.slot.length = cfg.groupSize := by
  intro g hg
  rw [makeGroups_eq] at hg
  have := List.eq_of_mem_replicate hg
  subst this
  simp

theorem makeGroups_ctrlAt (cfg : Config) (n i j : Nat) (c : Int)
    (h : ctrlAt (makeGroups cfg n : List (Group K)) i j = some c) : c = kEmpty := by
  rw [makeGroups_eq] at h
  unfold ctrlAt at h
  rw [List.getElem?_replicate] at h
  by_cases h1 : i < n
  · rw [if_pos h1] at h
    simp only [Option.some_bind, List.getElem?_replicate] at h
    by_cases h2 : j < cfg.groupSize
    · rw [if_pos h2] at h
      simp only [Option.some.injEq] at h
      exact h.symm
    · rw [if_neg h2] at h; cases h
  · rw [if_neg h1] at h; cases h

theorem makeGroups_slotAt (cfg : Config) (n i j : Nat) (k : K)
    (h : slotAt (makeGroups cfg n : List (Group K)) i j = some k) : k = zeroKey := by
  rw [makeGroups_eq] at h
  unfold slotAt at h
  rw [List.getElem?_replicate] at h
  by_cases h1 : i < n
  · rw [if_pos h1] at h
    simp only [Option.some_bind, List.getElem?_replicate] at h
    by_cases h2 : j < cfg.groupSize
    · rw [if_pos h2] at h
      simp only [Option.some.injEq] at h
      exact h.symm
    · rw [if_neg h2] at h; cases h
  · rw [if_neg h1] at h; cases h

theorem makeGroups_liveKeys (cfg : Config) (n : Nat) :
    liveKeys (makeGroups cfg n : List (Group K)) = [] := by
  rw [List.eq_nil_iff_forall_not_mem]
  intro k hk
  rw [mem_liveKeys] at hk
  obtain ⟨i, j, c, h1, h2, _⟩ := hk
  rw [makeGroups_ctrlAt cfg n i j c h1, isFull_kEmpty] at h2
  cases h2

theorem countCtrl_replicate (p : Int → Bool) (cfg : Config) (n : Nat) (hp : p kEmpty = false) :
    countCtrl p (makeGroups cfg n : List (Group K)) = 0 := by
  rw [makeGroups_eq]
  unfold countCtrl
  rw [List.map_replicate]
  simp only [List.sum_replicate, smul_eq_mul]
  have : List.countP p (List.replicate cfg.groupSize kEmpty) = 0 := by
    rw [List.countP_eq_zero]
    intro a ha
    rw [List.eq_of_mem_replicate ha, hp]
    simp
  rw [this]
  simp

theorem makeGroups_countNonEmpty (cfg : Config) (n : Nat) :
    countNonEmpty (makeGroups cfg n : List (Group K)) = 0 :=
  countCtrl_replicate _ cfg n (by simp)

theorem makeGroups_countDeleted (cfg : Config) (n : Nat) :
    countDeleted (makeGroups cfg n : List (Group K)) = 0 :=
  countCtrl_replicate _ cfg n (by decide)

theorem makeGroups_inv (cfg : Config) (H : Oracle K) (seed n : Nat) (hn : 0 < n) :
    TableInv cfg H seed (makeGroups cfg n : List (Group K)) := by
  refine ⟨makeGroups_wt cfg n, by rw [makeGroups_length]; exact hn, ?_, ?_⟩
  · intro i j k hocc
    have : k ∈ liveKeys (makeGroups cfg n : List (Group K)) := (mem_liveKeys _ _).2 ⟨i, j, hocc⟩
    rw [makeGroups_liveKeys] at this
    cases this
  · rw [makeGroups_liveKeys]; exact List.nodup_nil

end Fresh

section Rehash

variable {K : Type} [DecidableEq K] [Inhabited K]

theorem foldl_rehashLane_none (cfg : Config) (H : Oracle K) (g : Group K) (l : List Nat) :
    l.foldl (rehashLane cfg H g) none = none := by
  induction l with
  | nil => rfl
  | cons a l ih => simpa [rehashLane] using ih

theorem foldl_rehashKey_none (cfg : Config) (H : Oracle K) (l : List K) :
    l.foldl (rehashKey cfg H) none = none := by
  induction l with
  | nil => rfl
  | cons a l ih => simpa [rehashKey] using ih

theorem rehashLane_succ (cfg : Config) (H : Oracle K) (c : Int) (cs : List Int) (k : K)
    (ks : List K) (acc : Option (Set K)) (j : Nat) :
    rehashLane cfg H { ctrl := c :: cs, slot := k :: ks } acc (j + 1) =
      rehashLane cfg H { ctrl := cs, slot := ks } acc j := by
  unfold rehashLane
  simp only [List.getElem?_cons_succ]

theorem rehashLane_zero (cfg : Config) (H : Oracle K) (c : Int) (cs : List Int) (k : K)
    (ks : List K) (acc : Option (Set K)) :
    rehashLane cfg H { ctrl := c :: cs, slot := k :: ks } acc 0 =
      if isFull c = true then rehashKey cfg H acc k else acc := by
  unfold rehashLane rehashKey isFull
  cases acc with
  | none => simp
  | some set =>
    simp only [List.getElem?_cons_zero]
    by_cases h : c = kEmpty ∨ c = kDeleted
    · simp [h]
    · simp only [h, if_false, decide_False, Bool.not_false, if_true]

/-- The lane loop of `rehash` moves the live keys of the old group in lane
order. -/
theorem foldl_rehashLane (cfg : Config) (H : Oracle K) (ctrl : List Int) (slot : List K)
    (h : ctrl.length = slot.length) (acc : Option (Set K)) :
    (List.range ctrl.length).foldl (rehashLane cfg H { ctrl := ctrl, slot := slot }) acc =
      (Group.keys ({ ctrl := ctrl, slot := slot } : Group K)).foldl (rehashKey cfg H) acc := by
  induction ctrl generalizing slot acc with
  | nil => simp [Group.keys]
  | cons c cs ih =>
    cases slot with
    | nil => simp at h
    | cons k ks =>
      simp only [List.length_cons, Nat.add_right_cancel_iff] at h
      rw [List.length_cons, List.range_succ_eq_map, List.foldl_cons, List.foldl_map]
      simp only [rehashLane_succ]
      rw [ih ks h, rehashLane_zero]
      unfold Group.keys
      simp only [List.zip_cons_cons, List.filterMap_cons]
      by_cases hf : isFull c = true
      · simp [hf]
      · simp [hf]

theorem foldl_flatMap_keys (cfg : Config) (H : Oracle K) (gs : List (Group K))
    (acc : Option (Set K)) :
    gs.foldl (fun acc g => (Group.keys g).foldl (rehashKey cfg H) acc) acc =
      (liveKeys gs).foldl (rehashKey cfg H) acc := by
  induction gs generalizing acc with
  | nil => simp [liveKeys]
  | cons g gs ih =>
    simp only [List.foldl_cons, liveKeys, List.flatMap_cons, List.foldl_append]
    exact ih _

theorem foldl_groups_eq (cfg : Config) (H : Oracle K) (gs : List (Group K))
    (wt1 : ∀ g ∈ gs, g.ctrl.length = cfg.groupSize ∧ g.slot.length = cfg.groupSize)
    (acc : Option (Set K)) :
    gs.foldl (fun acc oldGrp => (List.range cfg.groupSize).foldl (rehashLane cfg H oldGrp) acc)
        acc =
      gs.foldl (fun acc g => (Group.keys g).foldl (rehashKey cfg H) acc) acc := by
  induction gs generalizing acc with
  | nil => rfl
  | cons g gs ih =>
    simp only [List.foldl_cons]
    have hg := wt1 g (List.mem_cons_self _ _)
    have := foldl_rehashLane cfg H g.ctrl g.slot (by omega) acc
    rw [hg.1] at this
    rw [this]
    exact ih (fun g1 hg1 => wt1 g1 (List.mem_cons_of_mem _ hg1)) _

/-- `rehash` is the reduced insert of the live keys of the old array, in
order, into the fresh array. -/
theorem rehash_eq (cfg : Config) (H : Oracle K) (set : Set K) (wt : set.WellTyped cfg)
    (n : Nat) :
    rehash cfg H set n =
      (liveKeys set.group).foldl (rehashKey cfg H)
        (some { hashFunction := set.hashFunction + 1
                elementLimit := (n * cfg.maxAvgGroupLoad) % 2 ^ 32
                resident := 0
                dead := 0
                group := makeGroups cfg n }) := by
  unfold rehash
  simp only []
  rw [← foldl_flatMap_keys]
  exact foldl_groups_eq cfg H set.group wt _

theorem rehashKey_step (cfg : Config) (H : Oracle K) (seed lim n : Nat) (set : Set K)
    (ins : List K) (inv : RehashInv cfg H seed lim n set ins) (x : K) (hx : x ∉ ins)
    (hroom : ins.length < n * cfg.groupSize) :
    ∃ set1, rehashKey cfg H (some set) x = some set1 ∧
      RehashInv cfg H seed lim n set1 (x :: ins) := by
  have hxl : x ∉ liveKeys set.group := fun h => hx ((inv.perm.mem_iff).1 h)
  have hE : ∃ i, GEmpty set.group i := by
    apply exists_GEmpty cfg set.group inv.table.wt
    rw [inv.nonEmpty_eq, inv.length_eq]; exact hroom
  have ha : startOf H seed set.group.length x < set.group.length := Nat.mod_lt _ inv.table.pos
  have spec := rehashInsert_spec cfg set.group inv.table.wt x (tagOf H seed x)
    set.group.length _ ha
  have e1 : hashH2 (digest H set x) = tagOf H seed x := by
    unfold digest tagOf; rw [inv.seed_eq]
  have e2 : hashH1 (digest H set x) % set.group.length = startOf H seed set.group.length x := by
    unfold digest startOf; rw [inv.seed_eq]
  unfold rehashKey
  simp only []
  rw [e1, e2]
  cases hr : rehashInsert cfg set.group x (tagOf H seed x) set.group.length set.group.length
      (startOf H seed set.group.length x) with
  | none =>
    exfalso
    rw [hr] at spec
    simp only [] at spec
    obtain ⟨i, s, hs⟩ := hE
    obtain ⟨hib, _⟩ := ctrlAt_bounds cfg set.group inv.table.wt i s kEmpty hs
    obtain ⟨t, ht, hw⟩ := walk_surj set.group.length _ i ha hib
    exact spec t ht (by rw [hw]; exact ⟨s, hs⟩)
  | some gs1 =>
    rw [hr] at spec
    simp only [] at spec
    obtain ⟨t, s, ht, hall, hc, he⟩ := spec
    obtain ⟨q1, q2, q3, q4⟩ := TableInv_insert cfg H seed set.group inv.table x hxl t s ht hall hc
    rw [← he] at q1 q2 q3 q4
    refine ⟨_, rfl, ⟨inv.seed_eq, inv.limit_eq, inv.dead_eq, ?_, q1, ?_, ?_, ?_, ?_⟩⟩
    · simp only []
      rw [he, setCell_length]; exact inv.length_eq
    · exact q2.trans (List.Perm.cons _ inv.perm)
    · simp only [List.length_cons]
      rw [q3, inv.nonEmpty_eq]
    · simp only []
      rw [q4]; exact inv.deleted_eq
    · simp only [List.length_cons]
      rw [inv.resident_eq]
      omega

theorem foldl_rehashKey (cfg : Config) (H : Oracle K) (seed lim n : Nat) (ks : List K) :
    ∀ (set : Set K) (ins : List K), RehashInv cfg H seed lim n set ins →
      ks.Nodup → (∀ k ∈ ks, k ∉ ins) →
      ins.length + ks.length ≤ n * cfg.groupSize →
      ∃ set1, ks.foldl (rehashKey cfg H) (some set) = some set1 ∧
        RehashInv cfg H seed lim n set1 (ks.reverse ++ ins) := by
  induction ks with
  | nil =>
    intro set ins inv _ _ _
    exact ⟨set, rfl, by simpa using inv⟩
  | cons k ks ih =>
    intro set ins inv hnd hdis hroom
    simp only [List.length_cons] at hroom
    obtain ⟨set1, h1, inv1⟩ := rehashKey_step cfg H seed lim n set ins inv k
      (hdis k (List.mem_cons_self _ _)) (by omega)
    rw [List.nodup_cons] at hnd
    obtain ⟨set2, h2, inv2⟩ := ih set1 (k :: ins) inv1 hnd.2
      (by
        intro k1 hk1 hmem
        rcases List.mem_cons.1 hmem with e | e
        · subst e; exact hnd.1 hk1
        · exact hdis k1 (List.mem_cons_of_mem _ hk1) e)
      (by simp only [List.length_cons]; omega)
    refine ⟨set2, ?_, ?_⟩
    · simp only [List.foldl_cons]
      rw [h1]; exact h2
    · simpa using inv2

/-- `rehash` returns; the new array has `n` groups, satisfies the table
invariant under the new hasher, has no tombstone and holds exactly the live
keys of the old array. -/
theorem rehash_spec (cfg : Config) (H : Oracle K) (set : Set K)
    (inv : TableInv cfg H set.hashFunction set.group) (n : Nat) (hn : 0 < n)
    (hroom : (liveKeys set.group).length ≤ n * cfg.groupSize) :
    ∃ set1, rehash cfg H set n = some set1 ∧
      RehashInv cfg H (set.hashFunction + 1) ((n * cfg.maxAvgGroupLoad) % 2 ^ 32) n set1
        (liveKeys set.group).reverse := by
  rw [rehash_eq cfg H set inv.wt n]
  have base : RehashInv cfg H (set.hashFunction + 1) ((n * cfg.maxAvgGroupLoad) % 2 ^ 32) n
      ({ hashFunction := set.hashFunction + 1
         elementLimit := (n * cfg.maxAvgGroupLoad) % 2 ^ 32
         resident := 0
         dead := 0
         group := makeGroups cfg n } : Set K) [] :=
    ⟨rfl, rfl, rfl, makeGroups_length cfg n, makeGroups_inv cfg H _ n hn,
      by rw [makeGroups_liveKeys], by rw [makeGroups_countNonEmpty]; rfl,
      makeGroups_countDeleted cfg n, rfl⟩
  obtain ⟨set1, h1, inv1⟩ := foldl_rehashKey cfg H _ _ n (liveKeys set.group) _ [] base
    inv.nodup (by intro k _ h; cases h) (by simpa using hroom)
  exact ⟨set1, h1, by simpa using inv1⟩

end Rehash

section SetLevel

variable {K : Type} [DecidableEq K] [Inhabited K]

theorem digest_tag (H : Oracle K) (set : Set K) (x : K) :
    hashH2 (digest H set x) = tagOf H set.hashFunction x := rfl

theorem digest_start (H : Oracle K) (set : Set K) (x : K) :
    hashH1 (digest H set x) % set.group.length =
      startOf H set.hashFunction set.group.length x := rfl

/-- `find` agrees with the probe of the public methods. -/
theorem find_eq (cfg : Config) (H : Oracle K) (set : Set K) (x : K) :
    find cfg H set x =
      findLoop cfg set.group x (tagOf H set.hashFunction x) set.group.length
        (startOf H set.hashFunction set.group.length x) := rfl

theorem Contains_eq (cfg : Config) (H : Oracle K) (set : Set K) (x : K) :
    Contains cfg H set x = (find cfg H set x).map (fun r => r.2.2) := by
  unfold Contains
  simp only []
  rw [containsLoop_eq]
  rfl

theorem addProbe_eq (cfg : Config) (H : Oracle K) (set : Set K) (x : K) :
    addProbe cfg H set x =
      (find cfg H set x).map
        (fun r => if r.2.2 = true then set
          else insertAt set r.1 r.2.1 (tagOf H set.hashFunction x) x) := by
  unfold addProbe
  simp only []
  rw [addLoop_eq]
  rfl

theorem Remove_eq (cfg : Config) (H : Oracle K) (set : Set K) (x : K) :
    Remove cfg H set x =
      (find cfg H set x).map
        (fun r => if r.2.2 = true then (true, removeAt set r.1 r.2.1) else (false, set)) := by
  unfold Remove
  simp only []
  rw [removeLoop_eq]
  rfl

/-- `Contains` returns, and it returns true exactly for the live keys. -/
theorem Contains_spec (cfg : Config) (H : Oracle K) (set : Set K)
    (inv : TableInv cfg H set.hashFunction set.group) (hE : ∃ i, GEmpty set.group i) (x : K) :
    Contains cfg H set x = some (decide (x ∈ liveKeys set.group)) := by
  rw [Contains_eq, find_eq]
  obtain ⟨i, s, ok, h1, h2, h3⟩ := find_table cfg H set.hashFunction set.group inv hE x
  rw [h1]
  simp only [Option.map_some', Option.some.injEq]
  cases ok with
  | true => simp [(h2 rfl).1]
  | false => simp [(h3 rfl).1]

/-- The probe of `Add` returns: a live key leaves the set as it is, any other
key is written into an Empty lane. -/
theorem addProbe_spec (cfg : Config) (H : Oracle K) (set : Set K)
    (inv : TableInv cfg H set.hashFunction set.group) (hE : ∃ i, GEmpty set.group i) (x : K) :
    (x ∈ liveKeys set.group ∧ addProbe cfg H set x = some set) ∨
    (x ∉ liveKeys set.group ∧ ∃ i s,
      addProbe cfg H set x = some (insertAt set i s (tagOf H set.hashFunction x) x) ∧
      ctrlAt set.group i s = some kEmpty ∧
      TableInv cfg H set.hashFunction
        (setCell set.group i s (tagOf H set.hashFunction x : Int) x) ∧
      List.Perm (liveKeys (setCell set.group i s (tagOf H set.hashFunction x : Int) x))
        (x :: liveKeys set.group) ∧
      countNonEmpty (setCell set.group i s (tagOf H set.hashFunction x : Int) x) =
        countNonEmpty set.group + 1 ∧
      countDeleted (setCell set.group i s (tagOf H set.hashFunction x : Int) x) =
        countDeleted set.group) := by
  rw [addProbe_eq, find_eq]
  obtain ⟨i, s, ok, h1, h2, h3⟩ := find_table cfg H set.hashFunction set.group inv hE x
  rw [h1]
  simp only [Option.map_some']
  cases ok with
  | true => exact Or.inl ⟨(h2 rfl).1, by simp⟩
  | false =>
    obtain ⟨q1, q2, t, q3, q4, q5⟩ := h3 rfl
    refine Or.inr ⟨q1, i, s, by simp, q2, ?_⟩
    have := TableInv_insert cfg H set.hashFunction set.group inv x q1 t s q3 q5
      (by rw [q4]; exact q2)
    rw [q4] at this
    exact this

/-- The probe of `Remove` returns: false and the set as it is for a key that
is not live, true and the set without the lane of the key otherwise. -/
theorem Remove_spec (cfg : Config) (H : Oracle K) (set : Set K)
    (inv : TableInv cfg H set.hashFunction set.group) (hE : ∃ i, GEmpty set.group i) (x : K) :
    (x ∉ liveKeys set.group ∧ Remove cfg H set x = some (false, set)) ∨
    (x ∈ liveKeys set.group ∧ ∃ i s,
      Remove cfg H set x = some (true, removeAt set i s) ∧
      ctrlAt set.group i s = some (tagOf H set.hashFunction x : Int) ∧
      slotAt set.group i s = some x) := by
  rw [Remove_eq, find_eq]
  obtain ⟨i, s, ok, h1, h2, h3⟩ := find_table cfg H set.hashFunction set.group inv hE x
  rw [h1]
  simp only [Option.map_some']
  cases ok with
  | true =>
    obtain ⟨q1, q2, q3⟩ := h2 rfl
    exact Or.inr ⟨q1, i, s, by simp, q2, q3⟩
  | false => exact Or.inl ⟨(h3 rfl).1, by simp⟩

end SetLevel

section Invariant

variable {K : Type} [DecidableEq K] [Inhabited K]

theorem numGroups_pos (cfg : Config) (sz : Nat) : 0 < numGroups cfg sz := by
  unfold numGroups
  simp only []
  split
  · exact Nat.one_pos
  · rename_i h; exact Nat.pos_of_ne_zero h

theorem numGroups_fits (cfg : Config) (hv : cfg.Valid) (sz : Nat) :
    numGroups cfg sz * cfg.maxAvgGroupLoad < 2 ^ 32 := by
  obtain ⟨h1, h2, h3⟩ := hv
  unfold numGroups
  simp only []
  split
  · omega
  · have := Nat.div_mul_le_self ((sz + cfg.maxAvgGroupLoad + (2 ^ 32 - 1)) % 2 ^ 32)
      cfg.maxAvgGroupLoad
    have := Nat.mod_lt (sz + cfg.maxAvgGroupLoad + (2 ^ 32 - 1)) (show 0 < 2 ^ 32 by norm_num)
    omega

/-- Below the load limit the table has an Empty control byte. -/
theorem Inv_room (cfg : Config) (H : Oracle K) (hv : cfg.Valid) (set : Set K)
    (inv : Inv cfg H set) : countNonEmpty set.group < set.group.length * cfg.groupSize := by
  have h1 := inv.resident_le
  rw [inv.limit_eq, inv.resident_eq] at h1
  have h2 := inv.table.pos
  have h3 : set.group.length * cfg.maxAvgGroupLoad < set.group.length * cfg.groupSize :=
    Nat.mul_lt_mul_of_pos_left hv.2.1 h2
  omega

theorem Inv_hasEmpty (cfg : Config) (H : Oracle K) (hv : cfg.Valid) (set : Set K)
    (inv : Inv cfg H set) : ∃ i, GEmpty set.group i :=
  exists_GEmpty cfg set.group inv.table.wt (Inv_room cfg H hv set inv)

/-- `Count` is the number of live keys. -/
theorem Inv_Count (cfg : Config) (H : Oracle K) (set : Set K) (inv : Inv cfg H set) :
    Count set = (liveKeys set.group).length := by
  have h1 := liveKeys_length cfg set.group inv.table.wt
  have h2 := inv.resident_le
  have h3 := inv.fits
  unfold Fits at h3
  rw [inv.limit_eq] at h2
  unfold Count
  rw [inv.resident_eq, inv.dead_eq] at *
  have h4 : countDeleted set.group % 2 ^ 32 = countDeleted set.group :=
    Nat.mod_eq_of_lt (by omega)
  rw [h4]
  have h5 : countNonEmpty set.group + (2 ^ 32 - countDeleted set.group) =
      (liveKeys set.group).length + 2 ^ 32 := by omega
  rw [h5, Nat.add_mod_right]
  exact Nat.mod_eq_of_lt (by omega)

theorem Inv_NewSet (cfg : Config) (H : Oracle K) (hv : cfg.Valid) (sz : Nat) :
    Inv cfg H (NewSet cfg sz : Set K) := by
  have hp := numGroups_pos cfg sz
  have hf := numGroups_fits cfg hv sz
  refine ⟨makeGroups_inv cfg H 0 _ hp, ?_, ?_, ?_, ?_, ?_⟩
  · exact (makeGroups_countNonEmpty cfg _).symm
  · exact (makeGroups_countDeleted cfg _).symm
  · show (numGroups cfg sz * cfg.maxAvgGroupLoad) % 2 ^ 32 =
      (makeGroups cfg (numGroups cfg sz) : List (Group K)).length * cfg.maxAvgGroupLoad
    rw [makeGroups_length, Nat.mod_eq_of_lt hf]
  · exact Nat.zero_le _
  · show (makeGroups cfg (numGroups cfg sz) : List (Group K)).length * cfg.maxAvgGroupLoad < 2 ^ 32
    rw [makeGroups_length]; exact hf

theorem Inv_Clear (cfg : Config) (H : Oracle K) (set : Set K) (inv : Inv cfg H set) :
    Inv cfg H (Clear cfg set) := by
  have hg := Clear_group cfg set inv.table.wt
  have e1 : (Clear cfg set).hashFunction = set.hashFunction := rfl
  have e2 : (Clear cfg set).resident = 0 := rfl
  have e3 : (Clear cfg set).dead = 0 := rfl
  have e4 : (Clear cfg set).elementLimit = set.elementLimit := rfl
  refine ⟨?_, ?_, ?_, ?_, ?_, ?_⟩
  · rw [hg, e1]; exact makeGroups_inv cfg H _ _ inv.table.pos
  · rw [hg, e2]; exact (makeGroups_countNonEmpty cfg _).symm
  · rw [hg, e3]; exact (makeGroups_countDeleted cfg _).symm
  · rw [hg, e4, makeGroups_length]; exact inv.limit_eq
  · rw [e2]; exact Nat.zero_le _
  · unfold Fits; rw [hg, makeGroups_length]; exact inv.fits

theorem isFull_ne_kEmpty (c : Int) (h : isFull c = true) : c ≠ kEmpty := by
  intro e; rw [e, isFull_kEmpty] at h; cases h

theorem isFull_ne_kDeleted (c : Int) (h : isFull c = true) : c ≠ kDeleted := by
  intro e; rw [e, isFull_kDeleted] at h; cases h

/-- `Remove` of the key in an Occupied lane: hard delete when the group has an
Empty byte, tombstone otherwise; the invariant is kept and exactly that key
leaves the set. -/
theorem removeAt_spec (cfg : Config) (H : Oracle K) (set : Set K) (inv : Inv cfg H set)
    (x : K) (i s : Nat) (c0 : Int) (hc : ctrlAt set.group i s = some c0)
    (hfull : isFull c0 = true) (hk : slotAt set.group i s = some x) :
    Inv cfg H (removeAt set i s) ∧
      List.Perm (x :: liveKeys (removeAt set i s).group) (liveKeys set.group) ∧
      (GEmpty set.group i →
        removeAt set i s = { set with
          group := setCell set.group i s kEmpty zeroKey
          resident := set.resident - 1 } ∧ 0 < set.resident) ∧
      (¬ GEmpty set.group i →
        removeAt set i s = { set with
          group := setCell set.group i s kDeleted zeroKey
          dead := set.dead + 1 }) := by
  have hib := (ctrlAt_bounds cfg set.group inv.table.wt i s c0 hc).1
  have hg : set.group[i]? = some set.group[i] := List.getElem?_eq_getElem hib
  have hGE := GEmpty_iff set.group i set.group[i] hg
  have hne := isFull_ne_kEmpty c0 hfull
  have hnd := isFull_ne_kDeleted c0 hfull
  have hlk := liveKeys_length cfg set.group inv.table.wt
  have hfit := inv.fits
  unfold Fits at hfit
  have hle := inv.resident_le
  rw [inv.limit_eq] at hle
  have hres := inv.resident_eq
  have hdead := inv.dead_eq
  by_cases hE : GEmpty set.group i
  · have hm : ctlrMatchEmpty set.group[i].ctrl ≠ 0 := hGE.1 hE
    obtain ⟨q1, q2, q3⟩ := TableInv_remove cfg H set.hashFunction set.group inv.table x i s c0
      kEmpty hc hfull hk (Or.inl ⟨rfl, hE⟩)
    have n1 := countCtrl_setCell (fun c => decide (c ≠ kEmpty)) set.group i s kEmpty c0
      (zeroKey : K) hc
    have n2 := countCtrl_setCell (fun c => decide (c = kDeleted)) set.group i s kEmpty c0
      (zeroKey : K) hc
    simp only [ne_eq, hne, not_false_eq_true, decide_True, if_true, not_true_eq_false,
      decide_False, Bool.false_eq_true, if_false, Nat.add_zero] at n1
    have d1 : decide (kEmpty = kDeleted) = false := by decide
    simp only [hnd, decide_False, Bool.false_eq_true, if_false, Nat.add_zero, d1] at n2
    have n1' : countNonEmpty (setCell set.group i s kEmpty (zeroKey : K)) + 1 =
        countNonEmpty set.group := n1
    have n2' : countDeleted (setCell set.group i s kEmpty (zeroKey : K)) =
        countDeleted set.group := n2
    have hpos : 0 < set.resident := by omega
    have hmod : (set.resident + (2 ^ 32 - 1)) % 2 ^ 32 = set.resident - 1 := by
      have : set.resident + (2 ^ 32 - 1) = (set.resident - 1) + 2 ^ 32 := by omega
      rw [this, Nat.add_mod_right]
      exact Nat.mod_eq_of_lt (by omega)
    have heq : removeAt set i s = { set with
          group := setCell set.group i s kEmpty zeroKey
          resident := set.resident - 1 } := by
      unfold removeAt
      rw [hg]
      simp only []
      rw [if_pos hm, hmod]
    refine ⟨?_, ?_, fun _ => ⟨heq, hpos⟩, fun h => absurd hE h⟩
    · rw [heq]
      refine ⟨q1, ?_, ?_, ?_, ?_, ?_⟩
      · show set.resident - 1 = countNonEmpty (setCell set.group i s kEmpty (zeroKey : K))
        omega
      · show set.dead = countDeleted (setCell set.group i s kEmpty (zeroKey : K))
        omega
      · show set.elementLimit =
          (setCell set.group i s kEmpty (zeroKey : K)).length * cfg.maxAvgGroupLoad
        rw [setCell_length]; exact inv.limit_eq
      · show set.resident - 1 ≤ set.elementLimit
        have := inv.resident_le
        omega
      · show (setCell set.group i s kEmpty (zeroKey : K)).length * cfg.maxAvgGroupLoad < 2 ^ 32
        rw [setCell_length]; exact hfit
    · rw [heq]; exact q2
  · have hm : ¬ ctlrMatchEmpty set.group[i].ctrl ≠ 0 := fun h => hE (hGE.2 h)
    obtain ⟨q1, q2, q3⟩ := TableInv_remove cfg H set.hashFunction set.group inv.table x i s c0
      kDeleted hc hfull hk (Or.inr rfl)
    have n1 := countCtrl_setCell (fun c => decide (c ≠ kEmpty)) set.group i s kDeleted c0
      (zeroKey : K) hc
    have n2 := countCtrl_setCell (fun c => decide (c = kDeleted)) set.group i s kDeleted c0
      (zeroKey : K) hc
    have d1 : decide (kDeleted ≠ kEmpty) = true := by decide
    simp only [ne_eq, hne, not_false_eq_true, decide_True, if_true] at n1
    have d2 : decide (¬ kDeleted = kEmpty) = true := by decide
    rw [if_pos d2] at n1
    simp only [hnd, decide_False, Bool.false_eq_true, if_false, Nat.add_zero, decide_True,
      if_true] at n2
    have n1' : countNonEmpty (setCell set.group i s kDeleted (zeroKey : K)) =
        countNonEmpty set.group := by
      have : countNonEmpty (setCell set.group i s kDeleted (zeroKey : K)) + 1 =
        countNonEmpty set.group + 1 := n1
      omega
    have n2' : countDeleted (setCell set.group i s kDeleted (zeroKey : K)) =
        countDeleted set.group + 1 := n2
    have hlk2 := liveKeys_length cfg _ q1.wt
    have hmod : (set.dead + 1) % 2 ^ 32 = set.dead + 1 := Nat.mod_eq_of_lt (by omega)
    have heq : removeAt set i s = { set with
          group := setCell set.group i s kDeleted zeroKey
          dead := set.dead + 1 } := by
      unfold removeAt
      rw [hg]
      simp only []
      rw [if_neg hm, hmod]
    refine ⟨?_, ?_, fun h => absurd h hE, fun _ => heq⟩
    · rw [heq]
      refine ⟨q1, ?_, ?_, ?_, inv.resident_le, ?_⟩
      · show set.resident = countNonEmpty (setCell set.group i s kDeleted (zeroKey : K))
        omega
      · show set.dead + 1 = countDeleted (setCell set.group i s kDeleted (zeroKey : K))
        omega
      · show set.elementLimit =
          (setCell set.group i s kDeleted (zeroKey : K)).length * cfg.maxAvgGroupLoad
        rw [setCell_length]; exact inv.limit_eq
      · show (setCell set.group i s kDeleted (zeroKey : K)).length * cfg.maxAvgGroupLoad < 2 ^ 32
        rw [setCell_length]; exact hfit
    · rw [heq]; exact q2

end Invariant

section AddInv

variable {K : Type} [DecidableEq K] [Inhabited K]

/-- `Add` below the load limit: no rehash; a live key leaves the set as it is,
any other key goes into an Empty lane and `resident` grows by one. -/
theorem Add_noRehash (cfg : Config) (H : Oracle K) (hv : cfg.Valid) (set : Set K)
    (inv : Inv cfg H set) (hlt : set.resident < set.elementLimit) (x : K) :
    (x ∈ liveKeys set.group ∧ Add cfg H set x = some set) ∨
    (x ∉ liveKeys set.group ∧ ∃ i s,
      Add cfg H set x = some (insertAt set i s (tagOf H set.hashFunction x) x) ∧
      ctrlAt set.group i s = some kEmpty ∧
      (insertAt set i s (tagOf H set.hashFunction x) x).resident = set.resident + 1 ∧
      Inv cfg H (insertAt set i s (tagOf H set.hashFunction x) x) ∧
      List.Perm (liveKeys (insertAt set i s (tagOf H set.hashFunction x) x).group)
        (x :: liveKeys set.group)) := by
  have hadd : Add cfg H set x = addProbe cfg H set x := by
    unfold Add
    rw [if_neg (by omega)]
  rw [hadd]
  have hfit := inv.fits
  unfold Fits at hfit
  have hlim := inv.limit_eq
  rcases addProbe_spec cfg H set inv.table (Inv_hasEmpty cfg H hv set inv) x with h | h
  · exact Or.inl h
  · obtain ⟨h1, i, s, h2, h3, h4, h5, h6, h7⟩ := h
    have hmod : (set.resident + 1) % 2 ^ 32 = set.resident + 1 := Nat.mod_eq_of_lt (by omega)
    refine Or.inr ⟨h1, i, s, h2, h3, hmod, ?_, h5⟩
    refine ⟨h4, ?_, ?_, ?_, ?_, ?_⟩
    · show (set.resident + 1) % 2 ^ 32 = countNonEmpty (setCell set.group i s _ x)
      rw [hmod, h6, inv.resident_eq]
    · show set.dead = countDeleted (setCell set.group i s _ x)
      rw [h7]; exact inv.dead_eq
    · show set.elementLimit = (setCell set.group i s _ x).length * cfg.maxAvgGroupLoad
      rw [setCell_length]; exact hlim
    · show (set.resident + 1) % 2 ^ 32 ≤ set.elementLimit
      rw [hmod]; omega
    · show (setCell set.group i s _ x).length * cfg.maxAvgGroupLoad < 2 ^ 32
      rw [setCell_length]; exact hfit

theorem nextSize_eq (cfg : Config) (H : Oracle K) (hv : cfg.Valid) (set : Set K)
    (inv : Inv cfg H set) :
    nextSize set = if set.dead ≥ set.resident / 2 then set.group.length
      else set.group.length * 2 := by
  have hfit := inv.fits
  unfold Fits at hfit
  have h2 : set.group.length * 2 ≤ set.group.length * cfg.maxAvgGroupLoad :=
    Nat.mul_le_mul_left _ hv.1
  unfold nextSize
  simp only []
  rw [Nat.mod_eq_of_lt (by omega : set.group.length < 2 ^ 32),
    Nat.mod_eq_of_lt (by omega : set.group.length * 2 < 2 ^ 32)]

/-- `Add` at the load limit: one rehash into `nextSize` groups under the next
hasher, then the probe in the new array. -/
theorem Add_rehash (cfg : Config) (H : Oracle K) (hv : cfg.Valid) (set : Set K)
    (inv : Inv cfg H set) (hge : set.elementLimit ≤ set.resident) (x : K) :
    ∃ set1 set2, rehash cfg H set (nextSize set) = some set1 ∧
      RehashInv cfg H (set.hashFunction + 1) ((nextSize set * cfg.maxAvgGroupLoad) % 2 ^ 32)
        (nextSize set) set1 (liveKeys set.group).reverse ∧
      Add cfg H set x = some set2 ∧
      set2.hashFunction = set.hashFunction + 1 ∧
      set2.elementLimit = (nextSize set * cfg.maxAvgGroupLoad) % 2 ^ 32 ∧
      set2.group.length = nextSize set ∧
      TableInv cfg H (set.hashFunction + 1) set2.group ∧
      (Fits cfg set2 → Inv cfg H set2) ∧
      ((x ∈ liveKeys set.group ∧ set2 = set1) ∨
       (x ∉ liveKeys set.group ∧
         List.Perm (liveKeys set2.group) (x :: liveKeys set1.group))) := by
  obtain ⟨hv1, hv2, hv3⟩ := hv
  have hfit := inv.fits
  unfold Fits at hfit
  have hlim := inv.limit_eq
  have hle := inv.resident_le
  have hres := inv.resident_eq
  have hdead := inv.dead_eq
  have hlk := liveKeys_length cfg set.group inv.table.wt
  have hpos := inv.table.pos
  have hns := nextSize_eq cfg H ⟨hv1, hv2, hv3⟩ set inv
  have hnL : 2 ≤ set.group.length * cfg.maxAvgGroupLoad := by
    calc 2 = 1 * 2 := by norm_num
      _ ≤ set.group.length * cfg.maxAvgGroupLoad := Nat.mul_le_mul hpos hv1
  have hLG : set.group.length * cfg.maxAvgGroupLoad < set.group.length * cfg.groupSize :=
    Nat.mul_lt_mul_of_pos_left hv2 hpos
  -- bounds on the new size
  have hn1 : set.group.length ≤ nextSize set := by
    rw [hns]; split <;> omega
  have hn2 : (liveKeys set.group).length + 1 ≤ nextSize set * cfg.maxAvgGroupLoad := by
    rw [hns]
    split
    · omega
    · have : set.group.length * 2 * cfg.maxAvgGroupLoad =
          2 * (set.group.length * cfg.maxAvgGroupLoad) := by ring
      rw [this]; omega
  have hn3 : nextSize set * cfg.maxAvgGroupLoad < nextSize set * cfg.groupSize :=
    Nat.mul_lt_mul_of_pos_left hv2 (by omega)
  obtain ⟨set1, hr, rinv⟩ := rehash_spec cfg H set inv.table (nextSize set) (by omega)
    (by omega)
  have hadd : Add cfg H set x = addProbe cfg H set1 x := by
    unfold Add
    rw [if_pos (by omega), hr]
  have hlen1 : (liveKeys set.group).reverse.length = (liveKeys set.group).length :=
    List.length_reverse _
  have rres : set1.resident = (liveKeys set.group).reverse.length := by
    rw [rinv.resident_eq]; exact Nat.mod_eq_of_lt (by rw [hlen1]; omega)
  have ht1 : TableInv cfg H set1.hashFunction set1.group := by
    rw [rinv.seed_eq]; exact rinv.table
  have hE1 : ∃ i, GEmpty set1.group i := by
    apply exists_GEmpty cfg set1.group rinv.table.wt
    rw [rinv.nonEmpty_eq, rinv.length_eq, hlen1]
    omega
  have hmem : x ∈ liveKeys set1.group ↔ x ∈ liveKeys set.group := by
    rw [rinv.perm.mem_iff, List.mem_reverse]
  have hInv1 : Fits cfg set1 → Inv cfg H set1 := by
    intro hf
    unfold Fits at hf
    rw [rinv.length_eq] at hf
    refine ⟨ht1, ?_, ?_, ?_, ?_, ?_⟩
    · rw [rres, rinv.nonEmpty_eq]
    · rw [rinv.dead_eq, rinv.deleted_eq]
    · rw [rinv.limit_eq, rinv.length_eq]; exact Nat.mod_eq_of_lt hf
    · rw [rres, rinv.limit_eq, Nat.mod_eq_of_lt hf, hlen1]; omega
    · unfold Fits; rw [rinv.length_eq]; exact hf
  rcases addProbe_spec cfg H set1 ht1 hE1 x with h | h
  · refine ⟨set1, set1, hr, rinv, by rw [hadd]; exact h.2, rinv.seed_eq, rinv.limit_eq,
      rinv.length_eq, rinv.table, hInv1, Or.inl ⟨hmem.1 h.1, rfl⟩⟩
  · obtain ⟨h1, i, s, h2, h3, h4, h5, h6, h7⟩ := h
    refine ⟨set1, insertAt set1 i s (tagOf H set1.hashFunction x) x, hr, rinv,
      by rw [hadd]; exact h2, rinv.seed_eq, rinv.limit_eq, ?_, ?_, ?_,
      Or.inr ⟨fun hx => h1 (hmem.2 hx), h5⟩⟩
    · show (setCell set1.group i s _ x).length = nextSize set
      rw [setCell_length]; exact rinv.length_eq
    · have := h4
      rw [rinv.seed_eq] at this
      rw [rinv.seed_eq]
      exact this
    · intro hf
      unfold Fits at hf
      have hf2 : nextSize set * cfg.maxAvgGroupLoad < 2 ^ 32 := by
        have : (insertAt set1 i s (tagOf H set1.hashFunction x) x).group.length =
            nextSize set := by
          show (setCell set1.group i s _ x).length = nextSize set
          rw [setCell_length]; exact rinv.length_eq
        rw [this] at hf; exact hf
      have hmod : (set1.resident + 1) % 2 ^ 32 = set1.resident + 1 := by
        apply Nat.mod_eq_of_lt
        rw [rres, hlen1]; omega
      refine ⟨h4, ?_, ?_, ?_, ?_, hf⟩
      · show (set1.resident + 1) % 2 ^ 32 = countNonEmpty (setCell set1.group i s _ x)
        rw [hmod, h6, rres, rinv.nonEmpty_eq]
      · show set1.dead = countDeleted (setCell set1.group i s _ x)
        rw [h7, rinv.dead_eq, rinv.deleted_eq]
      · show set1.elementLimit = (setCell set1.group i s _ x).length * cfg.maxAvgGroupLoad
        rw [setCell_length, rinv.limit_eq, rinv.length_eq]; exact Nat.mod_eq_of_lt hf2
      · show (set1.resident + 1) % 2 ^ 32 ≤ set1.elementLimit
        rw [hmod, rres, rinv.limit_eq, Nat.mod_eq_of_lt hf2, hlen1]
        exact hn2

/-- `Add` returns; afterwards the live keys are the old ones and the added
key, and the invariant holds again when the new load limit fits. -/
theorem Add_spec (cfg : Config) (H : Oracle K) (hv : cfg.Valid) (set : Set K)
    (inv : Inv cfg H set) (x : K) :
    ∃ set2, Add cfg H set x = some set2 ∧
      (Fits cfg set2 → Inv cfg H set2) ∧
      (liveKeys set2.group).Nodup ∧
      (∀ y, y ∈ liveKeys set2.group ↔ y = x ∨ y ∈ liveKeys set.group) ∧
      (liveKeys set2.group).length =
        (if x ∈ liveKeys set.group then (liveKeys set.group).length
         else (liveKeys set.group).length + 1) := by
  by_cases hlt : set.resident < set.elementLimit
  · rcases Add_noRehash cfg H hv set inv hlt x with h | h
    · refine ⟨set, h.2, fun _ => inv, inv.table.nodup, ?_, by rw [if_pos h.1]⟩
      intro y
      constructor
      · exact fun hy => Or.inr hy
      · rintro (e | e)
        · rw [e]; exact h.1
        · exact e
    · obtain ⟨h1, i, s, h2, _, _, h5, h6⟩ := h
      refine ⟨_, h2, fun _ => h5, h5.table.nodup, ?_, ?_⟩
      · intro y
        rw [h6.mem_iff, List.mem_cons]
      · rw [if_neg h1, h6.length_eq, List.length_cons]
  · obtain ⟨set1, set2, _, rinv, h3, _, _, _, h7, h8, h9⟩ :=
      Add_rehash cfg H hv set inv (by omega) x
    refine ⟨set2, h3, h8, h7.nodup, ?_, ?_⟩
    · intro y
      rcases h9 with ⟨q1, q2⟩ | ⟨q1, q2⟩
      · rw [q2, rinv.perm.mem_iff, List.mem_reverse]
        constructor
        · exact fun hy => Or.inr hy
        · rintro (e | e)
          · rw [e]; exact q1
          · exact e
      · rw [q2.mem_iff, List.mem_cons, rinv.perm.mem_iff, List.mem_reverse]
    · rcases h9 with ⟨q1, q2⟩ | ⟨q1, q2⟩
      · rw [if_pos q1, q2, rinv.perm.length_eq, List.length_reverse]
      · rw [if_neg q1, q2.length_eq, List.length_cons, rinv.perm.length_eq,
          List.length_reverse]

/-- `Remove` returns; afterwards the live keys are the old ones without the
removed key, and the invariant holds again. -/
theorem Remove_inv (cfg : Config) (H : Oracle K) (hv : cfg.Valid) (set : Set K)
    (inv : Inv cfg H set) (x : K) :
    ∃ b set2, Remove cfg H set x = some (b, set2) ∧ b = decide (x ∈ liveKeys set.group) ∧
      Inv cfg H set2 ∧
      (∀ y, y ∈ liveKeys set2.group ↔ y ≠ x ∧ y ∈ liveKeys set.group) ∧
      (liveKeys set2.group).length + (if x ∈ liveKeys set.group then 1 else 0) =
        (liveKeys set.group).length := by
  rcases Remove_spec cfg H set inv.table (Inv_hasEmpty cfg H hv set inv) x with h | h
  · refine ⟨false, set, h.2, by simp [h.1], inv, ?_, by simp [h.1]⟩
    intro y
    constructor
    · intro hy
      exact ⟨fun e => h.1 (e ▸ hy), hy⟩
    · exact fun hy => hy.2
  · obtain ⟨h1, i, s, h2, h3, h4⟩ := h
    obtain ⟨q1, q2, _, _⟩ := removeAt_spec cfg H set inv x i s _ h3 (isFull_tag _) h4
    refine ⟨true, _, h2, by simp [h1], q1, ?_, ?_⟩
    · intro y
      have hnd : (x :: liveKeys (removeAt set i s).group).Nodup :=
        (List.Perm.nodup_iff q2).2 inv.table.nodup
      rw [List.nodup_cons] at hnd
      rw [← q2.mem_iff, List.mem_cons]
      constructor
      · intro hy
        exact ⟨fun e => hnd.1 (e ▸ hy), Or.inr hy⟩
      · rintro ⟨hne, e | e⟩
        · exact absurd e hne
        · exact e
    · rw [if_pos h1, ← q2.length_eq, List.length_cons]

/-- Every reachable state satisfies the invariant. -/
theorem Reachable_inv (cfg : Config) (H : Oracle K) (hv : cfg.Valid) (set : Set K)
    (hr : Reachable cfg H set) : Inv cfg H set := by
  induction hr with
  | newSet sz _ => exact Inv_NewSet cfg H hv sz
  | add x _ h hf ih =>
    obtain ⟨set2, h2, h3, _⟩ := Add_spec cfg H hv _ ih x
    rw [h] at h2
    simp only [Option.some.injEq] at h2
    subst h2
    exact h3 hf
  | remove x b _ h ih =>
    obtain ⟨b2, set2, h2, _, h3, _⟩ := Remove_inv cfg H hv _ ih x
    rw [h] at h2
    simp only [Option.some.injEq, Prod.mk.injEq] at h2
    rw [h2.2]
    exact h3
  | clear _ ih => exact Inv_Clear cfg H _ ih

end AddInv

section IterLemmas

variable {K : Type} [DecidableEq K] [Inhabited K]

theorem callsUntilStop_append {σ : Type} (cb : σ → K → σ × Bool) (l1 l2 : List K) (st : σ) :
    callsUntilStop cb (l1 ++ l2) st =
      if (callsUntilStop cb l1 st).2.2 = true then callsUntilStop cb l1 st
      else ((callsUntilStop cb l1 st).1 ++ (callsUntilStop cb l2 (callsUntilStop cb l1 st).2.1).1,
            (callsUntilStop cb l2 (callsUntilStop cb l1 st).2.1).2.1,
            (callsUntilStop cb l2 (callsUntilStop cb l1 st).2.1).2.2) := by
  induction l1 generalizing st with
  | nil => simp [callsUntilStop]
  | cons k ks ih =>
    simp only [List.cons_append, callsUntilStop, List.append_eq]
    by_cases h : (cb st k).2 = true
    · simp [h]
    · simp only [h, if_false]
      rw [ih]
      by_cases h2 : (callsUntilStop cb ks (cb st k).1).2.2 = true
      · simp [h2]
      · simp [h2]

theorem callsUntilStop_never {σ : Type} (cb : σ → K → σ × Bool)
    (hcb : ∀ st k, (cb st k).2 = false) (l : List K) (st : σ) :
    (callsUntilStop cb l st).1 = l ∧ (callsUntilStop cb l st).2.2 = false := by
  induction l generalizing st with
  | nil => simp [callsUntilStop]
  | cons k ks ih =>
    simp only [callsUntilStop, hcb, Bool.false_eq_true, if_false]
    exact ⟨by rw [(ih _).1], (ih _).2⟩

theorem callsUntilStop_initial {σ : Type} (cb : σ → K → σ × Bool) (l : List K) (st : σ) :
    (callsUntilStop cb l st).1 <+: l := by
  induction l generalizing st with
  | nil => simp [callsUntilStop]
  | cons k ks ih =>
    simp only [callsUntilStop]
    by_cases h : (cb st k).2 = true
    · simp only [h, if_true]
      exact ⟨ks, rfl⟩
    · simp only [h, if_false]
      obtain ⟨t, ht⟩ := ih (cb st k).1
      exact ⟨t, by simp [ht]⟩

theorem keys_cons (c : Int) (cs : List Int) (k : K) (ks : List K) :
    Group.keys ({ ctrl := c :: cs, slot := k :: ks } : Group K) =
      if c = kEmpty ∨ c = kDeleted then Group.keys ({ ctrl := cs, slot := ks } : Group K)
      else k :: Group.keys ({ ctrl := cs, slot := ks } : Group K) := by
  unfold Group.keys isFull
  simp only [List.zip_cons_cons, List.filterMap_cons]
  by_cases h : c = kEmpty ∨ c = kDeleted
  · simp [h]
  · simp [h]

theorem keys_nil_left (slot : List K) :
    Group.keys ({ ctrl := [], slot := slot } : Group K) = [] := by
  simp [Group.keys]

theorem keys_nil_right (ctrl : List Int) :
    Group.keys ({ ctrl := ctrl, slot := ([] : List K) } : Group K) = [] := by
  simp [Group.keys]

/-- The lane loop of `Iter` offers the live keys of the group in lane order
and stops with the callback. -/
theorem iterLanes_eq {σ : Type} (cb : σ → K → σ × Bool) (ctrl : List Int) (slot : List K)
    (st : σ) (seen : List K) :
    iterLanes cb ctrl slot st seen =
      (seen ++ (callsUntilStop cb (Group.keys ({ ctrl := ctrl, slot := slot } : Group K)) st).1,
       (callsUntilStop cb (Group.keys ({ ctrl := ctrl, slot := slot } : Group K)) st).2.1,
       (callsUntilStop cb (Group.keys ({ ctrl := ctrl, slot := slot } : Group K)) st).2.2) := by
  induction ctrl generalizing slot st seen with
  | nil =>
    rw [keys_nil_left]
    simp [iterLanes, callsUntilStop]
  | cons c cs ih =>
    cases slot with
    | nil =>
      rw [keys_nil_right]
      simp [iterLanes, callsUntilStop]
    | cons k ks =>
      rw [keys_cons]
      unfold iterLanes
      by_cases h : c = kEmpty ∨ c = kDeleted
      · rw [if_pos h, if_pos h]
        exact ih _ _ _
      · rw [if_neg h, if_neg h]
        simp only [callsUntilStop]
        by_cases h2 : (cb st k).2 = true
        · simp [h2]
        · simp only [h2, if_false]
          rw [ih]
          simp

theorem keysAt_eq (gs : List (Group K)) (i : Nat) (g : Group K) (h : gs[i]? = some g) :
    keysAt gs i = Group.keys g := by
  unfold keysAt; rw [h]

/-- The group loop of `Iter` offers the live keys group by group in carousel
order and stops with the callback. -/
theorem iterGroups_eq {σ : Type} (cb : σ → K → σ × Bool) (data : List (Group K))
    (hn : data.length < 2 ^ 32) (todo idx : Nat) (hidx : idx < data.length) (st : σ)
    (seen : List K) :
    iterGroups data cb todo idx st seen =
      some (seen ++ (callsUntilStop cb
          ((List.range todo).flatMap (fun t => keysAt data (walk data.length idx t))) st).1,
        (callsUntilStop cb
          ((List.range todo).flatMap (fun t => keysAt data (walk data.length idx t))) st).2.1) := by
  induction todo generalizing idx st seen with
  | zero => simp [iterGroups, callsUntilStop]
  | succ todo ih =>
    have hg : data[idx]? = some data[idx] := List.getElem?_eq_getElem hidx
    have hpos : 0 < data.length := by omega
    unfold iterGroups
    rw [hg]
    simp only []
    rw [Nat.mod_eq_of_lt hn, iterLanes_eq]
    simp only []
    rw [List.range_succ_eq_map, List.flatMap_cons, List.flatMap_map]
    rw [walk_zero _ _ hidx, keysAt_eq data idx data[idx] hg, callsUntilStop_append]
    have hw : (fun t => keysAt data (walk data.length idx (t + 1))) =
        (fun t => keysAt data (walk data.length (nextGroup idx data.length) t)) := by
      funext t; rw [walk_nextGroup _ _ _ hidx]
    by_cases h : (callsUntilStop cb (Group.keys data[idx]) st).2.2 = true
    · rw [if_pos h, if_pos h]
    · rw [if_neg h, if_neg h]
      rw [ih (nextGroup idx data.length) (nextGroup_lt _ _ hpos)]
      simp only [List.append_assoc, Function.comp_def, Nat.succ_eq_add_one]
      rw [hw]

/-- What `Iter` passes to the callback. -/
theorem Iter_eq {σ : Type} (cb : σ → K → σ × Bool) (set : Set K)
    (hn : set.group.length < 2 ^ 32) (start : Nat) (hs : start < set.group.length) (init : σ) :
    Iter set start cb init =
      some ((callsUntilStop cb (visitOrder set.group start) init).1,
        (callsUntilStop cb (visitOrder set.group start) init).2.1) := by
  unfold Iter
  simp only []
  rw [iterGroups_eq cb set.group hn _ start hs]
  simp [visitOrder]

theorem flatMap_range_keysAt (gs : List (Group K)) :
    (List.range gs.length).flatMap (fun i => keysAt gs i) = liveKeys gs := by
  induction gs with
  | nil => simp [liveKeys]
  | cons g gs ih =>
    rw [List.length_cons, List.range_succ_eq_map, List.flatMap_cons, List.flatMap_map]
    have : ((fun i => keysAt (g :: gs) i) ∘ Nat.succ) = (fun i => keysAt gs i) := by
      funext i; simp [keysAt]
    simp only [Function.comp_def, Nat.succ_eq_add_one] at this ⊢
    rw [this, ih]
    simp [liveKeys, keysAt]

theorem range_walk_perm (n a : Nat) (ha : a < n) :
    List.Perm ((List.range n).map (fun t => walk n a t)) (List.range n) := by
  apply (List.perm_ext_iff_of_nodup ?_ (List.nodup_range n)).2
  · intro i
    simp only [List.mem_map, List.mem_range]
    constructor
    · rintro ⟨t, _, rfl⟩
      exact walk_lt n a t (by omega)
    · intro hi
      obtain ⟨t, ht, hw⟩ := walk_surj n a i ha hi
      exact ⟨t, ht, hw⟩
  · apply List.Nodup.map_on _ (List.nodup_range n)
    intro t ht u hu h
    exact walk_inj n a t u (List.mem_range.1 ht) (List.mem_range.1 hu) h

/-- The visit order of `Iter` is a rearrangement of the live keys. -/
theorem visitOrder_perm (gs : List (Group K)) (start : Nat) (hs : start < gs.length) :
    List.Perm (visitOrder gs start) (liveKeys gs) := by
  rw [← flatMap_range_keysAt]
  have h1 : visitOrder gs start =
      ((List.range gs.length).map (fun t => walk gs.length start t)).flatMap
        (fun i => keysAt gs i) := by
    unfold visitOrder
    rw [List.flatMap_map]
  rw [h1]
  exact List.Perm.flatMap_right _ (range_walk_perm gs.length start hs)

end IterLemmas

section Runs

variable {K : Type} [DecidableEq K] [Inhabited K]

/-- A key without duplicates in the list of live keys sits in one lane only. -/
theorem Occ_unique (gs : List (Group K)) (hnd : (liveKeys gs).Nodup) (x : K)
    (i j i1 j1 : Nat) (h : Occ gs i j x) (h1 : Occ gs i1 j1 x) : i1 = i ∧ j1 = j := by
  by_contra hne
  obtain ⟨c, hc, hf, hk⟩ := h
  obtain ⟨c1, hc1, hf1, hk1⟩ := h1
  have hperm := liveKeys_setCell gs i j kEmpty c (zeroKey : K) x hc hk
  rw [hf, isFull_kEmpty] at hperm
  simp only [if_true, Bool.false_eq_true, if_false, List.append_nil] at hperm
  have hC := ctrlAt_setCell gs i j kEmpty c (zeroKey : K) hc i1 j1
  have hS := slotAt_setCell gs i j kEmpty (zeroKey : K) x hk i1 j1
  rw [if_neg hne] at hC hS
  have hmem : x ∈ liveKeys (setCell gs i j kEmpty (zeroKey : K)) :=
    (mem_liveKeys _ _).2 ⟨i1, j1, c1, by rw [hC]; exact hc1, hf1, by rw [hS]; exact hk1⟩
  have hnd2 := (List.Perm.nodup_iff hperm).2 hnd
  rw [List.nodup_append] at hnd2
  exact hnd2.2.2 hmem (List.mem_singleton_self x)

/-- `Add` of a live key returns and changes neither `Count` nor membership. -/
theorem Add_present (cfg : Config) (H : Oracle K) (hv : cfg.Valid) (set : Set K)
    (inv : Inv cfg H set) (x : K) (hx : x ∈ liveKeys set.group) :
    ∃ set2, Add cfg H set x = some set2 ∧ Count set2 = Count set ∧
      Contains cfg H set2 x = some true := by
  have hcount := Inv_Count cfg H set inv
  by_cases hlt : set.resident < set.elementLimit
  · rcases Add_noRehash cfg H hv set inv hlt x with h | h
    · refine ⟨set, h.2, rfl, ?_⟩
      rw [Contains_spec cfg H set inv.table (Inv_hasEmpty cfg H hv set inv) x]
      simp [hx]
    · exact absurd hx h.1
  · obtain ⟨set1, set2, _, rinv, h3, h4, _, h6, h7, _, h9⟩ :=
      Add_rehash cfg H hv set inv (by omega) x
    rcases h9 with ⟨_, q2⟩ | ⟨q1, _⟩
    · subst q2
      have hfit := inv.fits
      unfold Fits at hfit
      have hle := inv.resident_le
      rw [inv.limit_eq, inv.resident_eq] at hle
      have hlk := liveKeys_length cfg set.group inv.table.wt
      have hns := nextSize_eq cfg H hv set inv
      have hn1 : set.group.length ≤ nextSize set := by
        rw [hns]; split <;> omega
      have hLG : set.group.length * cfg.maxAvgGroupLoad < set.group.length * cfg.groupSize :=
        Nat.mul_lt_mul_of_pos_left hv.2.1 inv.table.pos
      have hGG : set.group.length * cfg.groupSize ≤ nextSize set * cfg.groupSize :=
        Nat.mul_le_mul_right _ hn1
      have hlen : (liveKeys set.group).reverse.length = (liveKeys set.group).length :=
        List.length_reverse _
      refine ⟨set2, h3, ?_, ?_⟩
      · rw [hcount]
        unfold Count
        rw [rinv.resident_eq, rinv.dead_eq, hlen]
        simp only [Nat.zero_mod, Nat.sub_zero, Nat.add_mod_right, Nat.mod_mod]
        exact Nat.mod_eq_of_lt (by omega)
      · have ht : TableInv cfg H set2.hashFunction set2.group := by rw [h4]; exact h7
        have hE : ∃ i, GEmpty set2.group i := by
          apply exists_GEmpty cfg set2.group h7.wt
          rw [rinv.nonEmpty_eq, rinv.length_eq, hlen]
          omega
        rw [Contains_spec cfg H set2 ht hE x]
        have : x ∈ liveKeys set2.group := by
          rw [rinv.perm.mem_iff, List.mem_reverse]; exact hx
        simp [this]
    · exact absurd hx q1

/-- A run of operations whose states all fit returns, keeps the invariant and
holds exactly the keys of the replayed mathematical set. -/
theorem runOps_spec (cfg : Config) (H : Oracle K) (hv : cfg.Valid) (ops : List (Op K)) :
    ∀ (set : Set K) (A : Finset K), Inv cfg H set →
      (∀ y, y ∈ liveKeys set.group ↔ y ∈ A) → runFits cfg H set ops = true →
      ∃ set1, runOps cfg H set ops = some set1 ∧ Inv cfg H set1 ∧
        (∀ y, y ∈ liveKeys set1.group ↔ y ∈ ops.foldl absOp A) := by
  induction ops with
  | nil =>
    intro set A inv hA _
    exact ⟨set, rfl, inv, hA⟩
  | cons op ops ih =>
    intro set A inv hA hfit
    cases op with
    | add x =>
      obtain ⟨set2, h1, h2, _, h4, _⟩ := Add_spec cfg H hv set inv x
      have hap : applyOp cfg H set (Op.add x) = some set2 := h1
      simp only [runFits, hap, Bool.and_eq_true, decide_eq_true_eq] at hfit
      obtain ⟨set3, q1, q2, q3⟩ := ih set2 (insert x A) (h2 hfit.1)
        (by intro y; rw [h4, Finset.mem_insert, hA]) hfit.2
      exact ⟨set3, by simp only [runOps, hap]; exact q1, q2, q3⟩
    | remove x =>
      obtain ⟨b, set2, h1, _, h3, h4, _⟩ := Remove_inv cfg H hv set inv x
      have hap : applyOp cfg H set (Op.remove x) = some set2 := by
        simp [applyOp, h1]
      simp only [runFits, hap, Bool.and_eq_true, decide_eq_true_eq] at hfit
      obtain ⟨set3, q1, q2, q3⟩ := ih set2 (A.erase x) h3
        (by intro y; rw [h4, Finset.mem_erase, hA]) hfit.2
      exact ⟨set3, by simp only [runOps, hap]; exact q1, q2, q3⟩
    | clear =>
      have hap : applyOp cfg H set Op.clear = some (Clear cfg set) := rfl
      simp only [runFits, hap, Bool.and_eq_true, decide_eq_true_eq] at hfit
      obtain ⟨set3, q1, q2, q3⟩ := ih (Clear cfg set) ∅ (Inv_Clear cfg H set inv)
        (by
          intro y
          rw [Clear_group cfg set inv.table.wt, makeGroups_liveKeys]
          simp) hfit.2
      exact ⟨set3, by simp only [runOps, hap]; exact q1, q2, q3⟩

/-- As many `Add`s as the headroom allows never rehash. -/
theorem addAll_noRehash (cfg : Config) (H : Oracle K) (hv : cfg.Valid) (xs : List K) :
    ∀ (set : Set K), Inv cfg H set → set.resident + xs.length ≤ set.elementLimit →
      ∃ set1, addAll cfg H set xs = some set1 ∧ Inv cfg H set1 ∧
        set1.hashFunction = set.hashFunction ∧ set1.group.length = set.group.length ∧
        set1.elementLimit = set.elementLimit ∧
        set1.resident ≤ set.resident + xs.length ∧
        (xs.Nodup → (∀ x ∈ xs, x ∉ liveKeys set.group) →
          set1.resident = set.resident + xs.length) := by
  induction xs with
  | nil =>
    intro set inv _
    exact ⟨set, rfl, inv, rfl, rfl, rfl, by simp, fun _ _ => by simp⟩
  | cons x xs ih =>
    intro set inv hle
    simp only [List.length_cons] at hle
    rcases Add_noRehash cfg H hv set inv (by omega) x with h | h
    · obtain ⟨set1, q1, q2, q3, q4, q5, q6, _⟩ := ih set inv (by omega)
      refine ⟨set1, by simp only [addAll, h.2]; exact q1, q2, q3, q4, q5,
        by simp only [List.length_cons]; omega, ?_⟩
      intro _ habs
      exact absurd h.1 (habs x (List.mem_cons_self _ _))
    · obtain ⟨_, i, s, h2, _, h4, h5, h6⟩ := h
      have e1 : (insertAt set i s (tagOf H set.hashFunction x) x).hashFunction =
          set.hashFunction := rfl
      have e2 : (insertAt set i s (tagOf H set.hashFunction x) x).elementLimit =
          set.elementLimit := rfl
      have e3 : (insertAt set i s (tagOf H set.hashFunction x) x).group.length =
          set.group.length := setCell_length _ _ _ _ _
      obtain ⟨set1, q1, q2, q3, q4, q5, q6, q7⟩ :=
        ih (insertAt set i s (tagOf H set.hashFunction x) x) h5 (by rw [h4, e2]; omega)
      refine ⟨set1, by simp only [addAll, h2]; exact q1, q2, by rw [q3, e1], by rw [q4, e3],
        by rw [q5, e2], by simp only [List.length_cons]; omega, ?_⟩
      intro hnd habs
      rw [List.nodup_cons] at hnd
      have := q7 hnd.2 (by
        intro y hy hmem
        rw [h6.mem_iff, List.mem_cons] at hmem
        rcases hmem with e | e
        · subst e; exact hnd.1 hy
        · exact habs y (List.mem_cons_of_mem _ hy) e)
      simp only [List.length_cons]
      omega

end Runs

section Claims

variable {K : Type} [DecidableEq K] [Inhabited K]

theorem Inv_Capacity (cfg : Config) (H : Oracle K) (set : Set K) (inv : Inv cfg H set) :
    Capacity set = set.elementLimit - set.resident := by
  have h1 := inv.resident_le
  have h2 := inv.fits
  unfold Fits at h2
  rw [← inv.limit_eq] at h2
  unfold Capacity
  rw [Nat.mod_eq_of_lt (by omega : set.resident < 2 ^ 32)]
  have : set.elementLimit + (2 ^ 32 - set.resident) =
      (set.elementLimit - set.resident) + 2 ^ 32 := by omega
  rw [this, Nat.add_mod_right]
  exact Nat.mod_eq_of_lt (by omega)

theorem Inv_length_lt (cfg : Config) (H : Oracle K) (hv : cfg.Valid) (set : Set K)
    (inv : Inv cfg H set) : set.group.length < 2 ^ 32 := by
  have h2 := inv.fits
  unfold Fits at h2
  have : set.group.length * 1 ≤ set.group.length * cfg.maxAvgGroupLoad :=
    Nat.mul_le_mul_left _ (by have := hv.1; omega)
  omega

theorem NewSet_liveKeys (cfg : Config) (sz : Nat) (y : K) :
    y ∈ liveKeys (NewSet cfg sz : Set K).group ↔ y ∈ (∅ : Finset K) := by
  show y ∈ liveKeys (makeGroups cfg (numGroups cfg sz) : List (Group K)) ↔ _
  rw [makeGroups_liveKeys]
  simp

/-- C4. Remove of an absent key fails without mutation: in every reachable
state, for a key with `Contains(x) == false`, `Remove(x)` returns false and the
whole state is unchanged. -/
theorem remove_absent_unchanged (cfg : Config) (H : Oracle K) (hv : cfg.Valid) (set : Set K)
    (hr : Reachable cfg H set) (x : K) (hc : Contains cfg H set x = some false) :
    Remove cfg H set x = some (false, set) := by
  have inv := Reachable_inv cfg H hv set hr
  have hE := Inv_hasEmpty cfg H hv set inv
  rw [Contains_spec cfg H set inv.table hE x] at hc
  simp only [Option.some.injEq, decide_eq_false_iff_not] at hc
  rcases Remove_spec cfg H set inv.table hE x with h | h
  · exact h.2
  · exact absurd h.1 hc

/-- C5. Remove of a present key: in every reachable state, for a key `x` in the
Occupied lane `j` of group `i`, `Remove(x)` returns true and zeroes that key
slot; if group `i` has an Empty control byte the lane becomes Empty, `resident`
decreases by one and `dead` is unchanged, otherwise the lane becomes Deleted,
`dead` increases by one and `resident` is unchanged; in both cases `Count()`
decreases by exactly one and no other control byte or key slot changes. -/
theorem remove_present_delete_or_tombstone (cfg : Config) (H : Oracle K) (hv : cfg.Valid)
    (set : Set K) (hr : Reachable cfg H set) (x : K) (i j : Nat)
    (hocc : Occ set.group i j x) :
    ∃ set1, Remove cfg H set x = some (true, set1) ∧
      slotAt set1.group i j = some zeroKey ∧
      (GEmpty set.group i →
        ctrlAt set1.group i j = some kEmpty ∧ set1.resident + 1 = set.resident ∧
          set1.dead = set.dead) ∧
      (¬ GEmpty set.group i →
        ctrlAt set1.group i j = some kDeleted ∧ set1.dead = set.dead + 1 ∧
          set1.resident = set.resident) ∧
      Count set1 + 1 = Count set ∧
      (∀ i1 j1, ¬ (i1 = i ∧ j1 = j) →
        ctrlAt set1.group i1 j1 = ctrlAt set.group i1 j1 ∧
          slotAt set1.group i1 j1 = slotAt set.group i1 j1) := by
  have inv := Reachable_inv cfg H hv set hr
  have hE := Inv_hasEmpty cfg H hv set inv
  have hx : x ∈ liveKeys set.group := (mem_liveKeys _ _).2 ⟨i, j, hocc⟩
  rcases Remove_spec cfg H set inv.table hE x with h | h
  · exact absurd hx h.1
  · obtain ⟨_, i0, s0, h2, h3, h4⟩ := h
    obtain ⟨e1, e2⟩ := Occ_unique set.group inv.table.nodup x i j i0 s0 hocc
      ⟨_, h3, isFull_tag _, h4⟩
    subst e1
    subst e2
    obtain ⟨q1, q2, q3, q4⟩ := removeAt_spec cfg H set inv x i0 s0 _ h3 (isFull_tag _) h4
    have hcount : Count (removeAt set i0 s0) + 1 = Count set := by
      rw [Inv_Count cfg H _ q1, Inv_Count cfg H set inv, ← q2.length_eq, List.length_cons]
    refine ⟨removeAt set i0 s0, h2, ?_, ?_, ?_, hcount, ?_⟩
    · by_cases hg : GEmpty set.group i0
      · rw [(q3 hg).1]
        show slotAt (setCell set.group i0 s0 kEmpty zeroKey) i0 s0 = some zeroKey
        rw [slotAt_setCell set.group i0 s0 kEmpty zeroKey x h4]
        simp
      · rw [q4 hg]
        show slotAt (setCell set.group i0 s0 kDeleted zeroKey) i0 s0 = some zeroKey
        rw [slotAt_setCell set.group i0 s0 kDeleted zeroKey x h4]
        simp
    · intro hg
      obtain ⟨r1, r2⟩ := q3 hg
      rw [r1]
      refine ⟨?_, ?_, rfl⟩
      · show ctrlAt (setCell set.group i0 s0 kEmpty zeroKey) i0 s0 = some kEmpty
        rw [ctrlAt_setCell set.group i0 s0 kEmpty _ zeroKey h3]
        simp
      · show set.resident - 1 + 1 = set.resident
        omega
    · intro hg
      rw [q4 hg]
      refine ⟨?_, rfl, rfl⟩
      show ctrlAt (setCell set.group i0 s0 kDeleted zeroKey) i0 s0 = some kDeleted
      rw [ctrlAt_setCell set.group i0 s0 kDeleted _ zeroKey h3]
      simp
    · intro i1 j1 hne
      by_cases hg : GEmpty set.group i0
      · rw [(q3 hg).1]
        constructor
        · show ctrlAt (setCell set.group i0 s0 kEmpty zeroKey) i1 j1 = _
          rw [ctrlAt_setCell set.group i0 s0 kEmpty _ zeroKey h3, if_neg hne]
        · show slotAt (setCell set.group i0 s0 kEmpty zeroKey) i1 j1 = _
          rw [slotAt_setCell set.group i0 s0 kEmpty zeroKey x h4, if_neg hne]
      · rw [q4 hg]
        constructor
        · show ctrlAt (setCell set.group i0 s0 kDeleted zeroKey) i1 j1 = _
          rw [ctrlAt_setCell set.group i0 s0 kDeleted _ zeroKey h3, if_neg hne]
        · show slotAt (setCell set.group i0 s0 kDeleted zeroKey) i1 j1 = _
          rw [slotAt_setCell set.group i0 s0 kDeleted zeroKey x h4, if_neg hne]

/-- C6. Clear empties the set in place: for every well-typed state with at
least one group (of at least one lane), after `Clear()` `Count()` is 0, `Contains(x)` is false for every
key, every control byte is Empty, every key slot is the zero value, `resident`
and `dead` are 0, and the group count, `elementLimit` and the hasher are
unchanged, so `Capacity()` equals `elementLimit`. -/
theorem clear_empties_in_place (cfg : Config) (H : Oracle K) (set : Set K)
    (wt : set.WellTyped cfg) (hG : 0 < cfg.groupSize) (hpos : 0 < set.group.length)
    (hlim : set.elementLimit < 2 ^ 32) :
    Count (Clear cfg set) = 0 ∧
      (∀ x, Contains cfg H (Clear cfg set) x = some false) ∧
      (∀ i j, i < set.group.length → j < cfg.groupSize →
        ctrlAt (Clear cfg set).group i j = some kEmpty ∧
          slotAt (Clear cfg set).group i j = some zeroKey) ∧
      (Clear cfg set).resident = 0 ∧ (Clear cfg set).dead = 0 ∧
      (Clear cfg set).group.length = set.group.length ∧
      (Clear cfg set).elementLimit = set.elementLimit ∧
      (Clear cfg set).hashFunction = set.hashFunction ∧
      Capacity (Clear cfg set) = set.elementLimit := by
  have hg := Clear_group cfg set wt
  have hlen : (Clear cfg set).group.length = set.group.length := by
    rw [hg, makeGroups_length]
  refine ⟨by simp [Count, Clear], ?_, ?_, rfl, rfl, hlen, rfl, rfl, ?_⟩
  · intro x
    have ht : TableInv cfg H (Clear cfg set).hashFunction (Clear cfg set).group := by
      rw [hg]; exact makeGroups_inv cfg H _ _ hpos
    have hE : ∃ i, GEmpty (Clear cfg set).group i := by
      apply exists_GEmpty cfg _ ht.wt
      rw [hg, makeGroups_countNonEmpty, makeGroups_length]
      exact Nat.mul_pos hpos hG
    rw [Contains_spec cfg H _ ht hE x, hg, makeGroups_liveKeys]
    simp
  · intro i j hi hj
    obtain ⟨c, k, h1, h2⟩ := ctrlAt_isSome cfg (Clear cfg set).group
      (by rw [hg]; exact makeGroups_wt cfg _) i j (by rw [hlen]; exact hi) hj
    rw [hg] at h1 h2
    rw [hg, h1, h2, makeGroups_ctrlAt cfg _ i j c h1, makeGroups_slotAt cfg _ i j k h2]
    exact ⟨rfl, rfl⟩
  · show (set.elementLimit + (2 ^ 32 - 0 % 2 ^ 32)) % 2 ^ 32 = set.elementLimit
    simp only [Nat.zero_mod, Nat.sub_zero, Nat.add_mod_right]
    exact Nat.mod_eq_of_lt hlim

/-- C7. Iteration of an un-mutated set is a complete, duplicate-free
enumeration: in every reachable state, for every starting group index below the
group count and every callback that never asks to stop, `Iter` returns, calls
the callback exactly `Count()` times, and the keys passed to it are the keys with
`Contains(x) == true`, each exactly once. -/
theorem iter_visits_each_live_key_once {σ : Type} (cfg : Config) (H : Oracle K)
    (hv : cfg.Valid) (set : Set K) (hr : Reachable cfg H set) (start : Nat)
    (hs : start < set.group.length) (callBack : σ → K → σ × Bool)
    (hcb : ∀ st k, (callBack st k).2 = false) (init : σ) :
    ∃ visited st, Iter set start callBack init = some (visited, st) ∧
      visited.length = Count set ∧ visited.Nodup ∧
      (∀ x, x ∈ visited ↔ Contains cfg H set x = some true) := by
  have inv := Reachable_inv cfg H hv set hr
  have hn := Inv_length_lt cfg H hv set inv
  have hperm := visitOrder_perm set.group start hs
  have hnever := callsUntilStop_never callBack hcb (visitOrder set.group start) init
  refine ⟨visitOrder set.group start,
    (callsUntilStop callBack (visitOrder set.group start) init).2.1, ?_, ?_, ?_, ?_⟩
  · rw [Iter_eq callBack set hn start hs init, hnever.1]
  · rw [Inv_Count cfg H set inv, hperm.length_eq]
  · exact (List.Perm.nodup_iff hperm).2 inv.table.nodup
  · intro x
    rw [Contains_spec cfg H set inv.table (Inv_hasEmpty cfg H hv set inv) x, hperm.mem_iff]
    simp

/-- C8. Iter honours early stop immediately: for every state with fewer than
`2^32` groups, every starting group index below the group count and every
callback, the keys passed to the callback are the initial segment of the full visit order
(the one a never-stopping callback receives from the same start index) up to and
including the first key at which the callback returns true; nothing is called
after a stop. -/
theorem iter_stops_at_first_stop {σ : Type} (set : Set K) (hn : set.group.length < 2 ^ 32)
    (start : Nat) (hs : start < set.group.length) (callBack : σ → K → σ × Bool) (init : σ) :
    Iter set start (fun (u : Unit) (_ : K) => (u, false)) () =
        some (visitOrder set.group start, ()) ∧
      Iter set start callBack init =
        some ((callsUntilStop callBack (visitOrder set.group start) init).1,
          (callsUntilStop callBack (visitOrder set.group start) init).2.1) ∧
      (callsUntilStop callBack (visitOrder set.group start) init).1 <+:
        visitOrder set.group start := by
  refine ⟨?_, Iter_eq callBack set hn start hs init, callsUntilStop_initial _ _ _⟩
  rw [Iter_eq _ set hn start hs ()]
  rw [(callsUntilStop_never (fun (u : Unit) (_ : K) => (u, false)) (fun _ _ => rfl)
    (visitOrder set.group start) ()).1]

end Claims

section Witnesses

theorem remove_absent_unchanged_witness :
    demoCfg.Valid ∧ Reachable demoCfg demoHash demoSet1 ∧
    Contains demoCfg demoHash demoSet1 7 = some false ∧
    Remove demoCfg demoHash demoSet1 7 = some (false, demoSet1) :=
  ⟨by decide,
    Reachable.add 5 (Reachable.newSet 1 (by decide)) (by decide) (by decide),
    by decide,
    remove_absent_unchanged demoCfg demoHash (by decide) demoSet1
      (Reachable.add 5 (Reachable.newSet 1 (by decide)) (by decide) (by decide)) 7
      (by decide)⟩

theorem remove_present_delete_or_tombstone_witness :
    demoCfg.Valid ∧ Reachable demoCfg demoHash demoSet1 ∧ Occ demoSet1.group 0 0 5 ∧
    ∃ set1, Remove demoCfg demoHash demoSet1 5 = some (true, set1) ∧
      slotAt set1.group 0 0 = some zeroKey ∧
      (GEmpty demoSet1.group 0 →
        ctrlAt set1.group 0 0 = some kEmpty ∧ set1.resident + 1 = demoSet1.resident ∧
          set1.dead = demoSet1.dead) ∧
      (¬ GEmpty demoSet1.group 0 →
        ctrlAt set1.group 0 0 = some kDeleted ∧ set1.dead = demoSet1.dead + 1 ∧
          set1.resident = demoSet1.resident) ∧
      Count set1 + 1 = Count demoSet1 ∧
      (∀ i1 j1, ¬ (i1 = 0 ∧ j1 = 0) →
        ctrlAt set1.group i1 j1 = ctrlAt demoSet1.group i1 j1 ∧
          slotAt set1.group i1 j1 = slotAt demoSet1.group i1 j1) :=
  ⟨by decide,
    Reachable.add 5 (Reachable.newSet 1 (by decide)) (by decide) (by decide),
    ⟨2, by decide, by decide, by decide⟩,
    remove_present_delete_or_tombstone demoCfg demoHash (by decide) demoSet1
      (Reachable.add 5 (Reachable.newSet 1 (by decide)) (by decide) (by decide)) 5 0 0
      ⟨2, by decide, by decide, by decide⟩⟩

theorem clear_empties_in_place_witness :
    demoSet1.WellTyped demoCfg ∧ 0 < demoCfg.groupSize ∧ 0 < demoSet1.group.length ∧
    demoSet1.elementLimit < 2 ^ 32 ∧
    (Count (Clear demoCfg demoSet1) = 0 ∧
      (∀ x, Contains demoCfg demoHash (Clear demoCfg demoSet1) x = some false) ∧
      (∀ i j, i < demoSet1.group.length → j < demoCfg.groupSize →
        ctrlAt (Clear demoCfg demoSet1).group i j = some kEmpty ∧
          slotAt (Clear demoCfg demoSet1).group i j = some zeroKey) ∧
      (Clear demoCfg demoSet1).resident = 0 ∧ (Clear demoCfg demoSet1).dead = 0 ∧
      (Clear demoCfg demoSet1).group.length = demoSet1.group.length ∧
      (Clear demoCfg demoSet1).elementLimit = demoSet1.elementLimit ∧
      (Clear demoCfg demoSet1).hashFunction = demoSet1.hashFunction ∧
      Capacity (Clear demoCfg demoSet1) = demoSet1.elementLimit) :=
  ⟨by intro g hg; simp only [demoSet1, List.mem_singleton] at hg; subst hg; decide,
    by decide, by decide, by decide,
    clear_empties_in_place demoCfg demoHash demoSet1
      (by intro g hg; simp only [demoSet1, List.mem_singleton] at hg; subst hg; decide)
      (by decide) (by decide) (by decide)⟩

theorem iter_visits_each_live_key_once_witness :
    demoCfg.Valid ∧ Reachable demoCfg demoHash demoSet1 ∧ 0 < demoSet1.group.length ∧
    (∀ (st : Nat) (k : Nat), ((fun (n : Nat) (_ : Nat) => (n + 1, false)) st k).2 = false) ∧
    ∃ visited st, Iter demoSet1 0 (fun (n : Nat) (_ : Nat) => (n + 1, false)) 0 =
        some (visited, st) ∧
      visited.length = Count demoSet1 ∧ visited.Nodup ∧
      (∀ x, x ∈ visited ↔ Contains demoCfg demoHash demoSet1 x = some true) :=
  ⟨by decide,
    Reachable.add 5 (Reachable.newSet 1 (by decide)) (by decide) (by decide),
    by decide, fun _ _ => rfl,
    iter_visits_each_live_key_once demoCfg demoHash (by decide) demoSet1
      (Reachable.add 5 (Reachable.newSet 1 (by decide)) (by decide) (by decide)) 0
      (by decide) (fun (n : Nat) (_ : Nat) => (n + 1, false)) (fun _ _ => rfl) 0⟩

theorem iter_stops_at_first_stop_witness :
    demoSet1.group.length < 2 ^ 32 ∧ 0 < demoSet1.group.length ∧
    (Iter demoSet1 0 (fun (u : Unit) (_ : Nat) => (u, false)) () =
        some (visitOrder demoSet1.group 0, ()) ∧
      Iter demoSet1 0 (fun (n : Nat) (_ : Nat) => (n + 1, true)) 0 =
        some ((callsUntilStop (fun (n : Nat) (_ : Nat) => (n + 1, true))
            (visitOrder demoSet1.group 0) 0).1,
          (callsUntilStop (fun (n : Nat) (_ : Nat) => (n + 1, true))
            (visitOrder demoSet1.group 0) 0).2.1) ∧
      (callsUntilStop (fun (n : Nat) (_ : Nat) => (n + 1, true))
          (visitOrder demoSet1.group 0) 0).1 <+: visitOrder demoSet1.group 0) :=
  ⟨by decide, by decide,
    iter_stops_at_first_stop demoSet1 (by decide) 0 (by decide)
      (fun (n : Nat) (_ : Nat) => (n + 1, true)) 0⟩

end Witnesses

section Bookkeeping

variable {K : Type} [DecidableEq K] [Inhabited K]

/-- The states a fitting run passes through are reachable. -/
theorem Reachable_run (cfg : Config) (H : Oracle K) (ops : List (Op K)) :
    ∀ (set : Set K), Reachable cfg H set → runFits cfg H set ops = true →
      ∀ set1, runOps cfg H set ops = some set1 → Reachable cfg H set1 := by
  induction ops with
  | nil =>
    intro set hr _ set1 h
    simp only [runOps, Option.some.injEq] at h
    rw [← h]; exact hr
  | cons op ops ih =>
    intro set hr hfit set1 h
    cases hap : applyOp cfg H set op with
    | none => simp [runOps, hap] at h
    | some set2 =>
      simp only [runFits, hap, Bool.and_eq_true, decide_eq_true_eq] at hfit
      simp only [runOps, hap] at h
      refine ih set2 ?_ hfit.2 set1 h
      cases op with
      | add x => exact Reachable.add x hr hap hfit.1
      | remove x =>
        simp only [applyOp] at hap
        cases hrem : Remove cfg H set x with
        | none => simp [hrem] at hap
        | some r =>
          obtain ⟨b, s3⟩ := r
          simp only [hrem, Option.map_some', Option.some.injEq] at hap
          subst hap
          exact Reachable.remove x b hr hrem
      | clear =>
        simp only [applyOp, Option.some.injEq] at hap
        rw [← hap]
        exact Reachable.clear hr

theorem countP_split (l : List Int) :
    l.countP isFull + l.countP (fun c => decide (c = kDeleted)) =
      l.countP (fun c => decide (c ≠ kEmpty)) := by
  induction l with
  | nil => simp
  | cons c cs ih =>
    simp only [List.countP_cons]
    by_cases h1 : c = kEmpty
    · subst h1
      simp [isFull, kEmpty, kDeleted] at ih ⊢
      omega
    · by_cases h2 : c = kDeleted
      · subst h2
        simp [isFull, kEmpty, kDeleted] at ih ⊢
        omega
      · simp [isFull, h1, h2] at ih ⊢
        omega

/-- Occupied and Deleted slots together are the slots that are not Empty. -/
theorem countOccupied_add (gs : List (Group K)) :
    countOccupied gs + countDeleted gs = countNonEmpty gs := by
  unfold countOccupied countDeleted countNonEmpty countCtrl
  induction gs with
  | nil => simp
  | cons g gs ih =>
    have := countP_split g.ctrl
    simp only [List.map_cons, List.sum_cons] at ih ⊢
    omega

end Bookkeeping

section Digest

variable {K : Type} [DecidableEq K] [Inhabited K]

/-- `H2` is the low seven bits of the digest. -/
theorem hashH2_eq_mod (hash : Nat) : hashH2 hash = hash % 128 := by
  unfold hashH2
  exact Nat.and_pow_two_sub_one_eq_mod hash 7

theorem hashH2_lt (hash : Nat) : hashH2 hash < 128 := by
  rw [hashH2_eq_mod]; exact Nat.mod_lt _ (by norm_num)

/-- `H1` is the 64-bit digest shifted right by seven bits. -/
theorem hashH1_eq_div (hash : Nat) (h : hash < 2 ^ 64) : hashH1 hash = hash / 128 := by
  unfold hashH1
  apply Nat.eq_of_testBit_eq
  intro j
  have e1 : (0xffffffffffffff80 : Nat) = 2 ^ 64 - (127 + 1) := by norm_num
  have e2 : hash / 128 = hash >>> 7 := by rw [Nat.shiftRight_eq_div_pow]
  have e3 : (127 : Nat) = 2 ^ 7 - 1 := by norm_num
  rw [e2, Nat.testBit_shiftRight, Nat.testBit_shiftRight, Nat.testBit_and, e1,
    Nat.testBit_two_pow_sub_succ (by norm_num), e3, Nat.testBit_two_pow_sub_one]
  by_cases hj : 7 + j < 64
  · have : ¬ 7 + j < 7 := by omega
    simp [hj, this]
  · have hlt : hash < 2 ^ (7 + j) :=
      lt_of_lt_of_le h (Nat.pow_le_pow_right (by norm_num) (by omega))
    rw [Nat.testBit_lt_two_pow hlt]
    simp

theorem digest_lt (H : Oracle K) (set : Set K) (x : K) : digest H set x < 2 ^ 64 :=
  Nat.mod_lt _ (by norm_num)

/-- The step count of the carousel from `a` to `i`. -/
theorem walk_steps (n a i t : Nat) (ha : a < n) (ht : t < n) (h : walk n a t = i) :
    t = (i + n - a) % n := by
  have hi : i < n := by rw [← h]; exact walk_lt n a t (by omega)
  obtain ⟨t1, h1, h2⟩ : ∃ t1, t1 = (i + n - a) % n ∧ walk n a t1 = i := by
    refine ⟨_, rfl, ?_⟩
    unfold walk
    rw [Nat.add_mod_mod]
    have : a + (i + n - a) = i + n := by omega
    rw [this, Nat.add_mod_right]
    exact Nat.mod_eq_of_lt hi
  rw [← h1]
  exact walk_inj n a t t1 ht (by rw [h1]; exact Nat.mod_lt _ (by omega)) (by rw [h, h2])

theorem countP_zero_getElem? (p : Int → Bool) (l : List Int) (h : l.countP p = 0)
    (j : Nat) (c : Int) (hc : l[j]? = some c) : p c = false := by
  rw [List.countP_eq_zero] at h
  have := h c (List.getElem?_mem hc)
  simpa using this

/-- With a count of zero no control byte satisfies the predicate. -/
theorem countCtrl_zero (p : Int → Bool) (gs : List (Group K)) (h : countCtrl p gs = 0)
    (i j : Nat) (c : Int) (hc : ctrlAt gs i j = some c) : p c = false := by
  induction gs generalizing i with
  | nil => simp [ctrlAt] at hc
  | cons g gs ih =>
    unfold countCtrl at h
    simp only [List.map_cons, List.sum_cons] at h
    cases i with
    | zero =>
      simp only [ctrlAt, List.getElem?_cons_zero, Option.some_bind] at hc
      exact countP_zero_getElem? p g.ctrl (by omega) j c hc
    | succ i =>
      simp only [ctrlAt, List.getElem?_cons_succ] at hc
      exact ih (by unfold countCtrl; omega) i hc

end Digest

section Frames2

variable {K : Type} [DecidableEq K] [Inhabited K]

/-- `Add` below the load limit either leaves the set as it is or overwrites one
Empty lane with the tag and the key. -/
theorem Add_frame (cfg : Config) (H : Oracle K) (hv : cfg.Valid) (set : Set K)
    (inv : Inv cfg H set) (hlt : set.resident < set.elementLimit) (x : K) :
    ∃ set1, Add cfg H set x = some set1 ∧ set1.dead = set.dead ∧
      ((x ∈ liveKeys set.group ∧ set1 = set) ∨
       (x ∉ liveKeys set.group ∧ ∃ i j, ctrlAt set.group i j = some kEmpty ∧
          set1.group = setCell set.group i j (tagOf H set.hashFunction x : Int) x)) := by
  rcases Add_noRehash cfg H hv set inv hlt x with h | h
  · exact ⟨set, h.2, rfl, Or.inl ⟨h.1, rfl⟩⟩
  · obtain ⟨h1, i, s, h2, h3, _⟩ := h
    exact ⟨_, h2, rfl, Or.inr ⟨h1, i, s, h3, rfl⟩⟩

/-- `Remove` either leaves the set as it is or overwrites the Occupied lane of
the key: with Empty when its group has an Empty byte, with Deleted otherwise. -/
theorem Remove_frame (cfg : Config) (H : Oracle K) (hv : cfg.Valid) (set : Set K)
    (inv : Inv cfg H set) (x : K) :
    ∃ b set1, Remove cfg H set x = some (b, set1) ∧
      ((x ∉ liveKeys set.group ∧ set1 = set) ∨
       (∃ i j c1, ctrlAt set.group i j = some (tagOf H set.hashFunction x : Int) ∧
          slotAt set.group i j = some x ∧
          ((c1 = kEmpty ∧ GEmpty set.group i) ∨ c1 = kDeleted) ∧
          set1.group = setCell set.group i j c1 zeroKey)) := by
  rcases Remove_spec cfg H set inv.table (Inv_hasEmpty cfg H hv set inv) x with h | h
  · exact ⟨false, set, h.2, Or.inl ⟨h.1, rfl⟩⟩
  · obtain ⟨_, i, s, h2, h3, h4⟩ := h
    obtain ⟨_, _, q3, q4⟩ := removeAt_spec cfg H set inv x i s _ h3 (isFull_tag _) h4
    refine ⟨true, removeAt set i s, h2, Or.inr ?_⟩
    by_cases hg : GEmpty set.group i
    · exact ⟨i, s, kEmpty, h3, h4, Or.inl ⟨rfl, hg⟩, by rw [(q3 hg).1]⟩
    · exact ⟨i, s, kDeleted, h3, h4, Or.inr rfl, by rw [q4 hg]⟩

end Frames2

section Claims2

variable {K : Type} [DecidableEq K] [Inhabited K]

/-- C11. `numGroups` at the failing input: with sixteen lanes and average load
fourteen the sum `n + maxAvgGroupLoad - 1` wraps for `n = 4294967295`, so
`numGroups` returns 1 although one group holds only 14 elements, and
`NewSet(4294967295).Capacity()` is 14. -/
theorem numGroups_wraps_near_max :
    numGroups typicalCfg 4294967295 = 1 ∧
      ¬ (numGroups typicalCfg 4294967295 * typicalCfg.maxAvgGroupLoad ≥ 4294967295) ∧
      Capacity (NewSet typicalCfg 4294967295 : Set Nat) = 14 := by
  decide

/-- C13. Set semantics, no duplicates: in every reachable state two Occupied
slots that hold equal keys are the same slot. -/
theorem no_duplicate_keys (cfg : Config) (H : Oracle K) (hv : cfg.Valid) (set : Set K)
    (hr : Reachable cfg H set) (i j i1 j1 : Nat) (k : K)
    (h : Occ set.group i j k) (h1 : Occ set.group i1 j1 k) : i1 = i ∧ j1 = j :=
  Occ_unique set.group (Reachable_inv cfg H hv set hr).table.nodup k i j i1 j1 h h1

/-- C14, the claim as stated fails: `tombSet` is reachable, its `resident` is 3
and it has 2 Occupied slots (the third counted slot is a tombstone). -/
theorem resident_counts_tombstones :
    tombCfg.Valid ∧ Reachable tombCfg tombHash tombSet ∧ tombSet.resident = 3 ∧
      countOccupied tombSet.group = 2 ∧ tombSet.resident ≠ countOccupied tombSet.group :=
  ⟨by decide,
    Reachable_run tombCfg tombHash [Op.add 1, Op.add 2, Op.add 3, Op.remove 2]
      (NewSet tombCfg 3) (Reachable.newSet 3 (by decide)) (by decide) tombSet (by decide),
    by decide, by decide, by decide⟩

/-- C14 as amended. In every reachable state `resident` is the number of slots
whose control byte is not Empty, that is Occupied plus Deleted; the number of
Occupied slots is `resident - dead`. -/
theorem resident_is_nonEmpty_count (cfg : Config) (H : Oracle K) (hv : cfg.Valid)
    (set : Set K) (hr : Reachable cfg H set) :
    set.resident = countNonEmpty set.group ∧
      set.resident = countOccupied set.group + countDeleted set.group ∧
      countOccupied set.group = set.resident - set.dead := by
  have inv := Reachable_inv cfg H hv set hr
  have h1 := countOccupied_add set.group
  have h2 := inv.resident_eq
  have h3 := inv.dead_eq
  refine ⟨h2, by omega, by omega⟩

/-- C15, the claim as stated fails: with `maxAvgGroupLoad = 1 < groupSize = 2`
the reachable state `fullSet` has no Empty control byte, and `Contains` and
`Remove` of an absent key do not return. -/
theorem probe_diverges_with_load_one :
    tinyCfg.maxAvgGroupLoad < tinyCfg.groupSize ∧ Reachable tinyCfg tombHash fullSet ∧
      (∀ g ∈ fullSet.group, kEmpty ∉ g.ctrl) ∧
      Contains tinyCfg tombHash fullSet 3 = none ∧
      Remove tinyCfg tombHash fullSet 3 = none :=
  ⟨by decide,
    Reachable_run tinyCfg tombHash [Op.add 1, Op.add 2]
      (NewSet tinyCfg 1) (Reachable.newSet 1 (by decide)) (by decide) fullSet (by decide),
    by decide, by decide, by decide⟩

end Claims2

section Claims3

variable {K : Type} [DecidableEq K] [Inhabited K]

theorem tagOf_eq (H : Oracle K) (set : Set K) (x : K) :
    tagOf H set.hashFunction x = digest H set x % 128 := by
  show hashH2 (digest H set x) = _
  exact hashH2_eq_mod _

theorem startOf_eq (H : Oracle K) (set : Set K) (x : K) :
    startOf H set.hashFunction set.group.length x =
      digest H set x / 128 % set.group.length := by
  show hashH1 (digest H set x) % set.group.length = _
  rw [hashH1_eq_div _ (digest_lt H set x)]

/-- C16. Probe-path invariant: in every reachable state, for every Occupied
slot holding key `k` in group `i`, with `h` the digest of `k` under the current
hasher, the control byte of the slot is the low 7 bits of `h` (a value below
128) and no group on the cyclic path from group `(h >> 7) mod groupCount` up to
but excluding `i` has an Empty byte; hence an Empty byte found on the probe path
of a key before any equality hit proves that the key is absent. -/
theorem probe_path_invariant (cfg : Config) (H : Oracle K) (hv : cfg.Valid) (set : Set K)
    (hr : Reachable cfg H set) :
    (∀ i j k, Occ set.group i j k →
      ctrlAt set.group i j = some ((digest H set k % 128 : Nat) : Int) ∧
      digest H set k % 128 < 128 ∧
      ∀ u, u < (i + set.group.length - digest H set k / 128 % set.group.length) %
            set.group.length →
        ¬ GEmpty set.group
          ((digest H set k / 128 % set.group.length + u) % set.group.length)) ∧
    (∀ x t, t < set.group.length →
      GEmpty set.group
        ((digest H set x / 128 % set.group.length + t) % set.group.length) →
      (∀ u, u ≤ t → ¬ GHit set.group x (digest H set x % 128)
        ((digest H set x / 128 % set.group.length + u) % set.group.length)) →
      Contains cfg H set x = some false) := by
  have inv := Reachable_inv cfg H hv set hr
  have hpos := inv.table.pos
  constructor
  · intro i j k hocc
    obtain ⟨p1, t, p2, p3, p4⟩ := inv.table.path i j k hocc
    rw [tagOf_eq] at p1
    rw [startOf_eq] at p3 p4
    refine ⟨p1, Nat.mod_lt _ (by norm_num), ?_⟩
    have ha : digest H set k / 128 % set.group.length < set.group.length :=
      Nat.mod_lt _ hpos
    have ht := walk_steps set.group.length _ i t ha p2 p3
    intro u hu
    rw [← ht] at hu
    exact p4 u hu
  · intro x t ht hE hnohit
    rw [Contains_spec cfg H set inv.table (Inv_hasEmpty cfg H hv set inv) x]
    have hx : x ∉ liveKeys set.group := by
      intro hmem
      rw [mem_liveKeys] at hmem
      obtain ⟨i1, j1, hocc⟩ := hmem
      obtain ⟨p1, t1, p2, p3, p4⟩ := inv.table.path i1 j1 x hocc
      rw [tagOf_eq] at p1
      rw [startOf_eq] at p3 p4
      have hhit : GHit set.group x (digest H set x % 128) i1 := by
        obtain ⟨c, _, _, q3⟩ := hocc
        exact ⟨j1, p1, q3⟩
      by_cases hle : t1 ≤ t
      · apply hnohit t1 hle
        have : walk set.group.length (digest H set x / 128 % set.group.length) t1 = i1 := p3
        unfold walk at this
        rw [this]
        exact hhit
      · exact p4 t (by omega) hE
    simp [hx]

/-- C17. Tombstones are never reused by a plain insert: in every reachable
state, an `Add` that does not rehash (`resident < elementLimit`) leaves `dead`
and every Deleted control byte as they are, and a control byte it changes was
Empty and its slot now holds the added key; `Remove` never changes a control
byte that is already Deleted. -/
theorem tombstones_not_reused (cfg : Config) (H : Oracle K) (hv : cfg.Valid) (set : Set K)
    (hr : Reachable cfg H set) (x : K) :
    (set.resident < set.elementLimit →
      ∃ set1, Add cfg H set x = some set1 ∧ set1.dead = set.dead ∧
        (∀ i j, ctrlAt set.group i j = some kDeleted →
          ctrlAt set1.group i j = some kDeleted) ∧
        (∀ i j, ctrlAt set1.group i j ≠ ctrlAt set.group i j →
          ctrlAt set.group i j = some kEmpty ∧ slotAt set1.group i j = some x)) ∧
    (∃ b set1, Remove cfg H set x = some (b, set1) ∧
      ∀ i j, ctrlAt set.group i j = some kDeleted →
        ctrlAt set1.group i j = some kDeleted) := by
  have inv := Reachable_inv cfg H hv set hr
  constructor
  · intro hlt
    obtain ⟨set1, h1, h2, h3⟩ := Add_frame cfg H hv set inv hlt x
    refine ⟨set1, h1, h2, ?_⟩
    rcases h3 with ⟨_, e⟩ | ⟨_, i0, j0, hc, e⟩
    · subst e
      exact ⟨fun _ _ h => h, fun _ _ h => absurd rfl h⟩
    · obtain ⟨hib, hjb⟩ := ctrlAt_bounds cfg set.group inv.table.wt i0 j0 kEmpty hc
      obtain ⟨_, k0, _, hk0⟩ := ctrlAt_isSome cfg set.group inv.table.wt i0 j0 hib hjb
      have hC := ctrlAt_setCell set.group i0 j0 (tagOf H set.hashFunction x : Int) kEmpty x hc
      have hS := slotAt_setCell set.group i0 j0 (tagOf H set.hashFunction x : Int) x k0 hk0
      rw [e]
      constructor
      · intro i j hd
        rw [hC]
        by_cases hij : i = i0 ∧ j = j0
        · rw [hij.1, hij.2, hc] at hd
          exact absurd hd (by decide)
        · rw [if_neg hij]; exact hd
      · intro i j hne
        rw [hC] at hne
        by_cases hij : i = i0 ∧ j = j0
        · rw [hij.1, hij.2, hS]
          exact ⟨hc, by simp⟩
        · rw [if_neg hij] at hne
          exact absurd rfl hne
  · obtain ⟨b, set1, h1, h2⟩ := Remove_frame cfg H hv set inv x
    refine ⟨b, set1, h1, ?_⟩
    rcases h2 with ⟨_, e⟩ | ⟨i0, j0, c1, hc, _, _, e⟩
    · subst e
      exact fun _ _ h => h
    · have hC := ctrlAt_setCell set.group i0 j0 c1 _ (zeroKey : K) hc
      rw [e]
      intro i j hd
      rw [hC]
      by_cases hij : i = i0 ∧ j = j0
      · rw [hij.1, hij.2, hc] at hd
        simp only [Option.some.injEq] at hd
        exact absurd hd (tag_ne_kDeleted _)
      · rw [if_neg hij]; exact hd

/-- C20. A fully packed group never regains an Empty slot in place: in every
reachable state, for a group without an Empty control byte, an `Add` that does
not rehash and a `Remove` return and leave that group without an Empty control
byte. -/
theorem packed_group_stays_packed (cfg : Config) (H : Oracle K) (hv : cfg.Valid)
    (set : Set K) (hr : Reachable cfg H set) (g : Nat) (hg : ¬ GEmpty set.group g) (x : K) :
    (set.resident < set.elementLimit →
      ∃ set1, Add cfg H set x = some set1 ∧ ¬ GEmpty set1.group g) ∧
    (∃ b set1, Remove cfg H set x = some (b, set1) ∧ ¬ GEmpty set1.group g) := by
  have inv := Reachable_inv cfg H hv set hr
  constructor
  · intro hlt
    obtain ⟨set1, h1, _, h3⟩ := Add_frame cfg H hv set inv hlt x
    refine ⟨set1, h1, ?_⟩
    rcases h3 with ⟨_, e⟩ | ⟨_, i0, j0, hc, e⟩
    · subst e; exact hg
    · rintro ⟨j, hj⟩
      rw [e, ctrlAt_setCell set.group i0 j0 _ kEmpty x hc] at hj
      by_cases hij : g = i0 ∧ j = j0
      · rw [if_pos hij] at hj
        simp only [Option.some.injEq] at hj
        exact tag_ne_kEmpty _ hj
      · rw [if_neg hij] at hj
        exact hg ⟨j, hj⟩
  · obtain ⟨b, set1, h1, h2⟩ := Remove_frame cfg H hv set inv x
    refine ⟨b, set1, h1, ?_⟩
    rcases h2 with ⟨_, e⟩ | ⟨i0, j0, c1, hc, hk, hc1, e⟩
    · subst e; exact hg
    · obtain ⟨_, _, q3⟩ := TableInv_remove cfg H set.hashFunction set.group inv.table x
        i0 j0 _ c1 hc (isFull_tag _) hk hc1
      rw [e, q3]
      exact hg

end Claims3

section NumGroups

/-- Where `n + maxAvgGroupLoad - 1` does not wrap, `numGroups` is the least
group count of at least one whose load limit covers `n`. -/
theorem numGroups_minimal (cfg : Config) (n : Nat) (hL : 0 < cfg.maxAvgGroupLoad)
    (hn : n + cfg.maxAvgGroupLoad ≤ 2 ^ 32) :
    1 ≤ numGroups cfg n ∧ n ≤ numGroups cfg n * cfg.maxAvgGroupLoad ∧
      ∀ g, 1 ≤ g → n ≤ g * cfg.maxAvgGroupLoad → numGroups cfg n ≤ g := by
  have e : (n + cfg.maxAvgGroupLoad + (2 ^ 32 - 1)) % 2 ^ 32 = n + cfg.maxAvgGroupLoad - 1 := by
    have : n + cfg.maxAvgGroupLoad + (2 ^ 32 - 1) = (n + cfg.maxAvgGroupLoad - 1) + 2 ^ 32 := by
      omega
    rw [this, Nat.add_mod_right]
    exact Nat.mod_eq_of_lt (by omega)
  have h1 := Nat.div_mul_le_self (n + cfg.maxAvgGroupLoad - 1) cfg.maxAvgGroupLoad
  have h2 := @Nat.lt_div_mul_add (n + cfg.maxAvgGroupLoad - 1) cfg.maxAvgGroupLoad hL
  unfold numGroups
  simp only [e]
  generalize hq : (n + cfg.maxAvgGroupLoad - 1) / cfg.maxAvgGroupLoad = q at h1 h2
  by_cases h0 : q = 0
  · rw [if_pos h0]
    subst h0
    refine ⟨le_refl _, by omega, fun g hg _ => hg⟩
  · rw [if_neg h0]
    refine ⟨by omega, by omega, ?_⟩
    intro g _ hle
    by_contra hlt
    have hq1 : g + 1 ≤ q := by omega
    have : (g + 1) * cfg.maxAvgGroupLoad ≤ q * cfg.maxAvgGroupLoad :=
      Nat.mul_le_mul_right _ hq1
    have e2 : (g + 1) * cfg.maxAvgGroupLoad = g * cfg.maxAvgGroupLoad + cfg.maxAvgGroupLoad := by
      ring
    omega

end NumGroups

section Witnesses2

theorem no_duplicate_keys_witness :
    tombCfg.Valid ∧ Reachable tombCfg tombHash tombSet ∧
      Occ tombSet.group 0 2 3 ∧ Occ tombSet.group 0 2 3 ∧ ((0 : Nat) = 0 ∧ (2 : Nat) = 2) :=
  ⟨by decide,
    Reachable_run tombCfg tombHash [Op.add 1, Op.add 2, Op.add 3, Op.remove 2]
      (NewSet tombCfg 3) (Reachable.newSet 3 (by decide)) (by decide) tombSet (by decide),
    ⟨3, by decide, by decide, by decide⟩, ⟨3, by decide, by decide, by decide⟩,
    no_duplicate_keys tombCfg tombHash (by decide) tombSet
      (Reachable_run tombCfg tombHash [Op.add 1, Op.add 2, Op.add 3, Op.remove 2]
        (NewSet tombCfg 3) (Reachable.newSet 3 (by decide)) (by decide) tombSet (by decide))
      0 2 0 2 3 ⟨3, by decide, by decide, by decide⟩ ⟨3, by decide, by decide, by decide⟩⟩

theorem resident_is_nonEmpty_count_witness :
    tombCfg.Valid ∧ Reachable tombCfg tombHash tombSet ∧
      tombSet.resident = countNonEmpty tombSet.group ∧
      tombSet.resident = countOccupied tombSet.group + countDeleted tombSet.group ∧
      countOccupied tombSet.group = tombSet.resident - tombSet.dead :=
  ⟨by decide,
    Reachable_run tombCfg tombHash [Op.add 1, Op.add 2, Op.add 3, Op.remove 2]
      (NewSet tombCfg 3) (Reachable.newSet 3 (by decide)) (by decide) tombSet (by decide),
    resident_is_nonEmpty_count tombCfg tombHash (by decide) tombSet
      (Reachable_run tombCfg tombHash [Op.add 1, Op.add 2, Op.add 3, Op.remove 2]
        (NewSet tombCfg 3) (Reachable.newSet 3 (by decide)) (by decide) tombSet (by decide))⟩

theorem probe_path_invariant_witness :
    tombCfg.Valid ∧ Reachable tombCfg tombHash tombSet ∧
      ((∀ i j k, Occ tombSet.group i j k →
        ctrlAt tombSet.group i j = some ((digest tombHash tombSet k % 128 : Nat) : Int) ∧
        digest tombHash tombSet k % 128 < 128 ∧
        ∀ u, u < (i + tombSet.group.length -
              digest tombHash tombSet k / 128 % tombSet.group.length) %
              tombSet.group.length →
          ¬ GEmpty tombSet.group
            ((digest tombHash tombSet k / 128 % tombSet.group.length + u) %
              tombSet.group.length)) ∧
      (∀ x t, t < tombSet.group.length →
        GEmpty tombSet.group
          ((digest tombHash tombSet x / 128 % tombSet.group.length + t) %
            tombSet.group.length) →
        (∀ u, u ≤ t → ¬ GHit tombSet.group x (digest tombHash tombSet x % 128)
          ((digest tombHash tombSet x / 128 % tombSet.group.length + u) %
            tombSet.group.length)) →
        Contains tombCfg tombHash tombSet x = some false)) :=
  ⟨by decide,
    Reachable_run tombCfg tombHash [Op.add 1, Op.add 2, Op.add 3, Op.remove 2]
      (NewSet tombCfg 3) (Reachable.newSet 3 (by decide)) (by decide) tombSet (by decide),
    probe_path_invariant tombCfg tombHash (by decide) tombSet
      (Reachable_run tombCfg tombHash [Op.add 1, Op.add 2, Op.add 3, Op.remove 2]
        (NewSet tombCfg 3) (Reachable.newSet 3 (by decide)) (by decide) tombSet (by decide))⟩

theorem tombstones_not_reused_witness :
    tombCfg.Valid ∧ Reachable tombCfg tombHash tombSet ∧
      ((tombSet.resident < tombSet.elementLimit →
        ∃ set1, Add tombCfg tombHash tombSet 9 = some set1 ∧ set1.dead = tombSet.dead ∧
          (∀ i j, ctrlAt tombSet.group i j = some kDeleted →
            ctrlAt set1.group i j = some kDeleted) ∧
          (∀ i j, ctrlAt set1.group i j ≠ ctrlAt tombSet.group i j →
            ctrlAt tombSet.group i j = some kEmpty ∧ slotAt set1.group i j = some 9)) ∧
      (∃ b set1, Remove tombCfg tombHash tombSet 9 = some (b, set1) ∧
        ∀ i j, ctrlAt tombSet.group i j = some kDeleted →
          ctrlAt set1.group i j = some kDeleted)) :=
  ⟨by decide,
    Reachable_run tombCfg tombHash [Op.add 1, Op.add 2, Op.add 3, Op.remove 2]
      (NewSet tombCfg 3) (Reachable.newSet 3 (by decide)) (by decide) tombSet (by decide),
    tombstones_not_reused tombCfg tombHash (by decide) tombSet
      (Reachable_run tombCfg tombHash [Op.add 1, Op.add 2, Op.add 3, Op.remove 2]
        (NewSet tombCfg 3) (Reachable.newSet 3 (by decide)) (by decide) tombSet (by decide)) 9⟩

theorem packed_group_stays_packed_witness :
    tombCfg.Valid ∧ Reachable tombCfg tombHash packedSet ∧ ¬ GEmpty packedSet.group 0 ∧
      ((packedSet.resident < packedSet.elementLimit →
        ∃ set1, Add tombCfg tombHash packedSet 4 = some set1 ∧ ¬ GEmpty set1.group 0) ∧
      (∃ b set1, Remove tombCfg tombHash packedSet 4 = some (b, set1) ∧
        ¬ GEmpty set1.group 0)) :=
  ⟨by decide,
    Reachable_run tombCfg tombHash [Op.add 1, Op.add 2, Op.add 3]
      (NewSet tombCfg 3) (Reachable.newSet 3 (by decide)) (by decide) packedSet (by decide),
    by rw [GEmpty_iff packedSet.group 0 _ rfl]; decide,
    packed_group_stays_packed tombCfg tombHash (by decide) packedSet
      (Reachable_run tombCfg tombHash [Op.add 1, Op.add 2, Op.add 3]
        (NewSet tombCfg 3) (Reachable.newSet 3 (by decide)) (by decide) packedSet (by decide))
      0 (by rw [GEmpty_iff packedSet.group 0 _ rfl]; decide) 4⟩

end Witnesses2

section CoreInv

variable {K : Type} [DecidableEq K] [Inhabited K]

/-- The table of a core state has an Empty control byte. -/
theorem Core_hasEmpty (cfg : Config) (H : Oracle K) (set : Set K) (inv : Core cfg H set) :
    ∃ i, GEmpty set.group i :=
  exists_GEmpty cfg set.group inv.table.wt inv.room

/-- `Count` of a core state is the number of live keys modulo `2^32`. -/
theorem Core_Count (cfg : Config) (H : Oracle K) (set : Set K) (inv : Core cfg H set) :
    Count set = (liveKeys set.group).length % 2 ^ 32 := by
  have h1 := liveKeys_length cfg set.group inv.table.wt
  unfold Count
  rw [inv.resident_eq, inv.dead_eq]
  omega

theorem Core_NewSet (cfg : Config) (H : Oracle K) (hv : cfg.Valid) (sz : Nat) :
    Core cfg H (NewSet cfg sz : Set K) := by
  have hp := numGroups_pos cfg sz
  have e0 : countNonEmpty (NewSet cfg sz : Set K).group = 0 := makeGroups_countNonEmpty cfg _
  have e1 : countDeleted (NewSet cfg sz : Set K).group = 0 := makeGroups_countDeleted cfg _
  have e2 : (NewSet cfg sz : Set K).group.length = numGroups cfg sz := makeGroups_length cfg _
  refine ⟨makeGroups_inv cfg H 0 _ hp, ?_, ?_, ?_, ?_, ?_⟩
  · rw [e0]; rfl
  · rw [e1]; rfl
  · rw [e2]; rfl
  · rw [e0, e2]
    exact Nat.mul_pos hp (by have := hv.1; have := hv.2.1; omega)
  · rw [e0]; intro h; omega

theorem Core_Clear (cfg : Config) (H : Oracle K) (set : Set K) (inv : Core cfg H set) :
    Core cfg H (Clear cfg set) := by
  have hg := Clear_group cfg set inv.table.wt
  have e1 : (Clear cfg set).hashFunction = set.hashFunction := rfl
  have e2 : (Clear cfg set).resident = 0 := rfl
  have e3 : (Clear cfg set).dead = 0 := rfl
  have e4 : (Clear cfg set).elementLimit = set.elementLimit := rfl
  have hroom := inv.room
  refine ⟨?_, ?_, ?_, ?_, ?_, ?_⟩
  · rw [hg, e1]; exact makeGroups_inv cfg H _ _ inv.table.pos
  · rw [hg, e2, makeGroups_countNonEmpty]; rfl
  · rw [hg, e3, makeGroups_countDeleted]; rfl
  · rw [hg, e4, makeGroups_length]; exact inv.limit_eq
  · rw [hg, makeGroups_countNonEmpty, makeGroups_length]; omega
  · rw [hg, makeGroups_countNonEmpty]; intro h; omega

/-- `Remove` of the key in an Occupied lane keeps the core invariant, and
exactly that key leaves the set. -/
theorem Core_removeAt (cfg : Config) (H : Oracle K) (set : Set K) (inv : Core cfg H set)
    (x : K) (i s : Nat) (c0 : Int) (hc : ctrlAt set.group i s = some c0)
    (hfull : isFull c0 = true) (hk : slotAt set.group i s = some x) :
    Core cfg H (removeAt set i s) ∧
      List.Perm (x :: liveKeys (removeAt set i s).group) (liveKeys set.group) := by
  have hib := (ctrlAt_bounds cfg set.group inv.table.wt i s c0 hc).1
  have hg : set.group[i]? = some set.group[i] := List.getElem?_eq_getElem hib
  have hGE := GEmpty_iff set.group i set.group[i] hg
  have hne := isFull_ne_kEmpty c0 hfull
  have hnd := isFull_ne_kDeleted c0 hfull
  have hres := inv.resident_eq
  have hdead := inv.dead_eq
  have hroom := inv.room
  have hwrap := inv.wrap
  by_cases hE : GEmpty set.group i
  · have hm : ctlrMatchEmpty set.group[i].ctrl ≠ 0 := hGE.1 hE
    obtain ⟨q1, q2, q3⟩ := TableInv_remove cfg H set.hashFunction set.group inv.table x i s c0
      kEmpty hc hfull hk (Or.inl ⟨rfl, hE⟩)
    have n1 := countCtrl_setCell (fun c => decide (c ≠ kEmpty)) set.group i s kEmpty c0
      (zeroKey : K) hc
    have n2 := countCtrl_setCell (fun c => decide (c = kDeleted)) set.group i s kEmpty c0
      (zeroKey : K) hc
    simp only [ne_eq, hne, not_false_eq_true, decide_True, if_true, not_true_eq_false,
      decide_False, Bool.false_eq_true, if_false, Nat.add_zero] at n1
    have d1 : decide (kEmpty = kDeleted) = false := by decide
    simp only [hnd, decide_False, Bool.false_eq_true, if_false, Nat.add_zero, d1] at n2
    have n1' : countNonEmpty (setCell set.group i s kEmpty (zeroKey : K)) + 1 =
        countNonEmpty set.group := n1
    have n2' : countDeleted (setCell set.group i s kEmpty (zeroKey : K)) =
        countDeleted set.group := n2
    have heq : removeAt set i s = { set with
          group := setCell set.group i s kEmpty zeroKey
          resident := (set.resident + (2 ^ 32 - 1)) % 2 ^ 32 } := by
      unfold removeAt
      rw [hg]
      simp only []
      rw [if_pos hm]
    refine ⟨?_, ?_⟩
    · rw [heq]
      refine ⟨q1, ?_, ?_, ?_, ?_, ?_⟩
      · show (set.resident + (2 ^ 32 - 1)) % 2 ^ 32 =
          countNonEmpty (setCell set.group i s kEmpty (zeroKey : K)) % 2 ^ 32
        omega
      · show set.dead = countDeleted (setCell set.group i s kEmpty (zeroKey : K)) % 2 ^ 32
        rw [n2']; exact hdead
      · show set.elementLimit =
          ((setCell set.group i s kEmpty (zeroKey : K)).length * cfg.maxAvgGroupLoad) % 2 ^ 32
        rw [setCell_length]; exact inv.limit_eq
      · show countNonEmpty (setCell set.group i s kEmpty (zeroKey : K)) <
          (setCell set.group i s kEmpty (zeroKey : K)).length * cfg.groupSize
        rw [setCell_length]; omega
      · show 2 ^ 32 ≤ countNonEmpty (setCell set.group i s kEmpty (zeroKey : K)) →
          (countNonEmpty (setCell set.group i s kEmpty (zeroKey : K)) / 2 ^ 32 + 1) * 2 ^ 32 ≤
            (setCell set.group i s kEmpty (zeroKey : K)).length * cfg.groupSize
        rw [setCell_length]
        intro h
        have := hwrap (by omega)
        omega
    · rw [heq]; exact q2
  · have hm : ¬ ctlrMatchEmpty set.group[i].ctrl ≠ 0 := fun h => hE (hGE.2 h)
    obtain ⟨q1, q2, q3⟩ := TableInv_remove cfg H set.hashFunction set.group inv.table x i s c0
      kDeleted hc hfull hk (Or.inr rfl)
    have n1 := countCtrl_setCell (fun c => decide (c ≠ kEmpty)) set.group i s kDeleted c0
      (zeroKey : K) hc
    have n2 := countCtrl_setCell (fun c => decide (c = kDeleted)) set.group i s kDeleted c0
      (zeroKey : K) hc
    have d1 : decide (kDeleted ≠ kEmpty) = true := by decide
    simp only [ne_eq, hne, not_false_eq_true, decide_True, if_true] at n1
    have d2 : decide (¬ kDeleted = kEmpty) = true := by decide
    rw [if_pos d2] at n1
    simp only [hnd, decide_False, Bool.false_eq_true, if_false, Nat.add_zero, decide_True,
      if_true] at n2
    have n1' : countNonEmpty (setCell set.group i s kDeleted (zeroKey : K)) =
        countNonEmpty set.group := by
      have : countNonEmpty (setCell set.group i s kDeleted (zeroKey : K)) + 1 =
        countNonEmpty set.group + 1 := n1
      omega
    have n2' : countDeleted (setCell set.group i s kDeleted (zeroKey : K)) =
        countDeleted set.group + 1 := n2
    have heq : removeAt set i s = { set with
          group := setCell set.group i s kDeleted zeroKey
          dead := (set.dead + 1) % 2 ^ 32 } := by
      unfold removeAt
      rw [hg]
      simp only []
      rw [if_neg hm]
    refine ⟨?_, ?_⟩
    · rw [heq]
      refine ⟨q1, ?_, ?_, ?_, ?_, ?_⟩
      · show set.resident = countNonEmpty (setCell set.group i s kDeleted (zeroKey : K)) % 2 ^ 32
        rw [n1']; exact hres
      · show (set.dead + 1) % 2 ^ 32 =
          countDeleted (setCell set.group i s kDeleted (zeroKey : K)) % 2 ^ 32
        omega
      · show set.elementLimit =
          ((setCell set.group i s kDeleted (zeroKey : K)).length * cfg.maxAvgGroupLoad) % 2 ^ 32
        rw [setCell_length]; exact inv.limit_eq
      · show countNonEmpty (setCell set.group i s kDeleted (zeroKey : K)) <
          (setCell set.group i s kDeleted (zeroKey : K)).length * cfg.groupSize
        rw [setCell_length, n1']; exact hroom
      · show 2 ^ 32 ≤ countNonEmpty (setCell set.group i s kDeleted (zeroKey : K)) →
          (countNonEmpty (setCell set.group i s kDeleted (zeroKey : K)) / 2 ^ 32 + 1) * 2 ^ 32 ≤
            (setCell set.group i s kDeleted (zeroKey : K)).length * cfg.groupSize
        rw [setCell_length, n1']; exact hwrap
    · rw [heq]; exact q2

/-- `Remove` returns in a core state; afterwards the live keys are the old ones
without the removed key, and the core invariant holds again. -/
theorem Core_Remove (cfg : Config) (H : Oracle K) (set : Set K)
    (inv : Core cfg H set) (x : K) :
    ∃ b set2, Remove cfg H set x = some (b, set2) ∧ b = decide (x ∈ liveKeys set.group) ∧
      Core cfg H set2 ∧
      (∀ y, y ∈ liveKeys set2.group ↔ y ≠ x ∧ y ∈ liveKeys set.group) := by
  rcases Remove_spec cfg H set inv.table (Core_hasEmpty cfg H set inv) x with h | h
  · refine ⟨false, set, h.2, by simp [h.1], inv, ?_⟩
    intro y
    constructor
    · intro hy
      exact ⟨fun e => h.1 (e ▸ hy), hy⟩
    · exact fun hy => hy.2
  · obtain ⟨h1, i, s, h2, h3, h4⟩ := h
    obtain ⟨q1, q2⟩ := Core_removeAt cfg H set inv x i s _ h3 (isFull_tag _) h4
    refine ⟨true, _, h2, by simp [h1], q1, ?_⟩
    intro y
    have hnd : (x :: liveKeys (removeAt set i s).group).Nodup :=
      (List.Perm.nodup_iff q2).2 inv.table.nodup
    rw [List.nodup_cons] at hnd
    rw [← q2.mem_iff, List.mem_cons]
    constructor
    · intro hy
      exact ⟨fun e => hnd.1 (e ▸ hy), Or.inr hy⟩
    · rintro ⟨hne, e | e⟩
      · exact absurd e hne
      · exact e

/-- Below `2^31` groups the doubling of `nextSize` does not wrap. -/
theorem nextSize_small (set : Set K) (hn : set.group.length < 2 ^ 31) :
    nextSize set = if set.dead ≥ set.resident / 2 then set.group.length
      else set.group.length * 2 := by
  unfold nextSize
  simp only []
  rw [Nat.mod_eq_of_lt (by omega : set.group.length < 2 ^ 32),
    Nat.mod_eq_of_lt (by omega : set.group.length * 2 < 2 ^ 32)]

end CoreInv

section CoreAdd

variable {K : Type} [DecidableEq K] [Inhabited K]

/-- `Add` at the load limit, whatever the new size: when `nextSize` groups are
at least one and have room for the live keys and one more, `Add` rehashes into
`nextSize` groups under the next hasher and then probes the new array. -/
theorem Add_rehash_gen (cfg : Config) (H : Oracle K) (set : Set K)
    (ht : TableInv cfg H set.hashFunction set.group)
    (hge : set.elementLimit ≤ set.resident) (hn : 0 < nextSize set)
    (hroom : (liveKeys set.group).length < nextSize set * cfg.groupSize) (x : K) :
    ∃ set1 set2, rehash cfg H set (nextSize set) = some set1 ∧
      RehashInv cfg H (set.hashFunction + 1) ((nextSize set * cfg.maxAvgGroupLoad) % 2 ^ 32)
        (nextSize set) set1 (liveKeys set.group).reverse ∧
      Add cfg H set x = some set2 ∧
      set2.hashFunction = set.hashFunction + 1 ∧
      set2.elementLimit = (nextSize set * cfg.maxAvgGroupLoad) % 2 ^ 32 ∧
      set2.group.length = nextSize set ∧
      set2.dead = 0 ∧
      countDeleted set2.group = 0 ∧
      TableInv cfg H (set.hashFunction + 1) set2.group ∧
      ((x ∈ liveKeys set.group ∧ set2 = set1) ∨
       (x ∉ liveKeys set.group ∧
         List.Perm (liveKeys set2.group) (x :: liveKeys set.group) ∧
         countNonEmpty set2.group = (liveKeys set.group).length + 1 ∧
         set2.resident = ((liveKeys set.group).length + 1) % 2 ^ 32)) := by
  obtain ⟨set1, hr, rinv⟩ := rehash_spec cfg H set ht (nextSize set) hn (by omega)
  have hadd : Add cfg H set x = addProbe cfg H set1 x := by
    unfold Add
    rw [if_pos (by omega), hr]
  have hlen1 : (liveKeys set.group).reverse.length = (liveKeys set.group).length :=
    List.length_reverse _
  have ht1 : TableInv cfg H set1.hashFunction set1.group := by
    rw [rinv.seed_eq]; exact rinv.table
  have hE1 : ∃ i, GEmpty set1.group i := by
    apply exists_GEmpty cfg set1.group rinv.table.wt
    rw [rinv.nonEmpty_eq, rinv.length_eq, hlen1]
    exact hroom
  have hmem : x ∈ liveKeys set1.group ↔ x ∈ liveKeys set.group := by
    rw [rinv.perm.mem_iff, List.mem_reverse]
  rcases addProbe_spec cfg H set1 ht1 hE1 x with h | h
  · exact ⟨set1, set1, hr, rinv, by rw [hadd]; exact h.2, rinv.seed_eq, rinv.limit_eq,
      rinv.length_eq, rinv.dead_eq, rinv.deleted_eq, rinv.table, Or.inl ⟨hmem.1 h.1, rfl⟩⟩
  · obtain ⟨h1, i, s, h2, h3, h4, h5, h6, h7⟩ := h
    refine ⟨set1, insertAt set1 i s (tagOf H set1.hashFunction x) x, hr, rinv,
      by rw [hadd]; exact h2, rinv.seed_eq, rinv.limit_eq, ?_, rinv.dead_eq, ?_, ?_,
      Or.inr ⟨fun hx => h1 (hmem.2 hx), ?_, ?_, ?_⟩⟩
    · show (setCell set1.group i s _ x).length = nextSize set
      rw [setCell_length]; exact rinv.length_eq
    · show countDeleted (setCell set1.group i s _ x) = 0
      rw [h7]; exact rinv.deleted_eq
    · have := h4
      rw [rinv.seed_eq] at this
      rw [rinv.seed_eq]
      exact this
    · exact h5.trans (List.Perm.cons _ (rinv.perm.trans (List.reverse_perm _)))
    · show countNonEmpty (setCell set1.group i s _ x) = _
      rw [h6, rinv.nonEmpty_eq, hlen1]
    · show (set1.resident + 1) % 2 ^ 32 = _
      rw [rinv.resident_eq, hlen1]
      omega

/-- `Add` returns in a core state of fewer than `2^31` groups; afterwards the
live keys are the old ones and the added key and the core invariant holds
again. Below the load limit nothing else changes; at the load limit the hasher
is reseeded and the group count is `nextSize`. -/
theorem Core_Add (cfg : Config) (H : Oracle K) (hv : cfg.Valid) (set : Set K)
    (inv : Core cfg H set) (hsmall : set.group.length < 2 ^ 31) (x : K) :
    ∃ set2, Add cfg H set x = some set2 ∧
      Core cfg H set2 ∧
      (∀ y, y ∈ liveKeys set2.group ↔ y = x ∨ y ∈ liveKeys set.group) ∧
      (liveKeys set2.group).length =
        (if x ∈ liveKeys set.group then (liveKeys set.group).length
         else (liveKeys set.group).length + 1) ∧
      (set.resident < set.elementLimit →
        set2.group.length = set.group.length ∧ set2.elementLimit = set.elementLimit ∧
          set2.hashFunction = set.hashFunction) ∧
      (set.elementLimit ≤ set.resident →
        set2.hashFunction = set.hashFunction + 1 ∧ set2.group.length = nextSize set ∧
          set2.elementLimit = (nextSize set * cfg.maxAvgGroupLoad) % 2 ^ 32) := by
  obtain ⟨hv1, hv2, hv3⟩ := hv
  have hres := inv.resident_eq
  have hdead := inv.dead_eq
  have hlim := inv.limit_eq
  have hroom := inv.room
  have hwrap := inv.wrap
  have hpos := inv.table.pos
  have hlk := liveKeys_length cfg set.group inv.table.wt
  have hLG : set.group.length * cfg.maxAvgGroupLoad < set.group.length * cfg.groupSize :=
    Nat.mul_lt_mul_of_pos_left hv2 hpos
  have hG3 : 3 ≤ set.group.length * cfg.groupSize := by
    calc 3 = 1 * 3 := by norm_num
      _ ≤ set.group.length * cfg.groupSize := Nat.mul_le_mul hpos (by omega)
  have hmodle : (set.group.length * cfg.maxAvgGroupLoad) % 2 ^ 32 ≤
      set.group.length * cfg.maxAvgGroupLoad := Nat.mod_le _ _
  by_cases hlt : set.resident < set.elementLimit
  · have hadd : Add cfg H set x = addProbe cfg H set x := by
      unfold Add
      rw [if_neg (by omega)]
    rcases addProbe_spec cfg H set inv.table (Core_hasEmpty cfg H set inv) x with h | h
    · refine ⟨set, by rw [hadd]; exact h.2, inv, ?_, by rw [if_pos h.1],
        fun _ => ⟨rfl, rfl, rfl⟩, fun hge => absurd hlt (by omega)⟩
      intro y
      constructor
      · exact fun hy => Or.inr hy
      · rintro (e | e)
        · rw [e]; exact h.1
        · exact e
    · obtain ⟨h1, i, s, h2, h3, h4, h5, h6, h7⟩ := h
      refine ⟨insertAt set i s (tagOf H set.hashFunction x) x, by rw [hadd]; exact h2,
        ⟨h4, ?_, ?_, ?_, ?_, ?_⟩, ?_, ?_, fun _ => ⟨setCell_length _ _ _ _ _, rfl, rfl⟩,
        fun hge => absurd hlt (by omega)⟩
      · show (set.resident + 1) % 2 ^ 32 = countNonEmpty (setCell set.group i s _ x) % 2 ^ 32
        rw [h6]; omega
      · show set.dead = countDeleted (setCell set.group i s _ x) % 2 ^ 32
        rw [h7]; exact hdead
      · show set.elementLimit = ((setCell set.group i s _ x).length * cfg.maxAvgGroupLoad) % 2 ^ 32
        rw [setCell_length]; exact hlim
      · show countNonEmpty (setCell set.group i s _ x) < (setCell set.group i s _ x).length *
          cfg.groupSize
        rw [setCell_length, h6]
        by_cases hc : countNonEmpty set.group < 2 ^ 32
        · omega
        · have := hwrap (by omega)
          omega
      · show 2 ^ 32 ≤ countNonEmpty (setCell set.group i s _ x) →
          (countNonEmpty (setCell set.group i s _ x) / 2 ^ 32 + 1) * 2 ^ 32 ≤
            (setCell set.group i s _ x).length * cfg.groupSize
        rw [setCell_length, h6]
        intro hc
        by_cases hc0 : countNonEmpty set.group < 2 ^ 32
        · omega
        · have := hwrap (by omega)
          omega
      · intro y
        show y ∈ liveKeys (setCell set.group i s _ x) ↔ _
        rw [h5.mem_iff, List.mem_cons]
      · show (liveKeys (setCell set.group i s _ x)).length = _
        rw [if_neg h1, h5.length_eq, List.length_cons]
  · have hge : set.elementLimit ≤ set.resident := by omega
    have hns := nextSize_small set hsmall
    have hn1 : set.group.length ≤ nextSize set := by
      rw [hns]; split <;> omega
    have hGG : set.group.length * cfg.groupSize ≤ nextSize set * cfg.groupSize :=
      Nat.mul_le_mul_right _ hn1
    obtain ⟨set1, set2, hr, rinv, h3, h4, h5, h6, h7, h8, h9, h10⟩ :=
      Add_rehash_gen cfg H set inv.table hge (by omega) (by omega) x
    have ht2 : TableInv cfg H set2.hashFunction set2.group := by rw [h4]; exact h9
    have hlk2 := liveKeys_length cfg set2.group h9.wt
    have hlen1 : (liveKeys set.group).reverse.length = (liveKeys set.group).length :=
      List.length_reverse _
    -- the non-Empty count and the counter of the new state
    have hc2 : countNonEmpty set2.group ≤ (liveKeys set.group).length + 1 ∧
        set2.resident = countNonEmpty set2.group % 2 ^ 32 := by
      rcases h10 with ⟨_, q2⟩ | ⟨_, _, q3, q4⟩
      · subst q2
        refine ⟨by rw [rinv.nonEmpty_eq, hlen1]; omega, ?_⟩
        rw [rinv.resident_eq, rinv.nonEmpty_eq]
      · exact ⟨by omega, by rw [q4, q3]⟩
    have hbound : countNonEmpty set2.group < nextSize set * cfg.groupSize ∧
        (2 ^ 32 ≤ countNonEmpty set2.group →
          (countNonEmpty set2.group / 2 ^ 32 + 1) * 2 ^ 32 ≤ nextSize set * cfg.groupSize) := by
      have hc := hc2.1
      rw [hns]
      by_cases hd : set.dead ≥ set.resident / 2
      · rw [if_pos hd]
        rw [hres, hdead] at hd
        by_cases hc0 : countNonEmpty set.group < 2 ^ 32
        · constructor
          · omega
          · intro hh; omega
        · have := hwrap (by omega)
          constructor
          · omega
          · intro hh; omega
      · rw [if_neg hd]
        have e : set.group.length * 2 * cfg.groupSize =
            2 * (set.group.length * cfg.groupSize) := by ring
        rw [e]
        constructor
        · omega
        · intro hh; omega
    refine ⟨set2, h3, ⟨ht2, hc2.2, ?_, ?_, ?_, ?_⟩, ?_, ?_, fun h => absurd h hlt,
      fun _ => ⟨h4, h6, h5⟩⟩
    · rw [h7, h8]; rfl
    · rw [h5, h6]
    · rw [h6]; exact hbound.1
    · rw [h6]; exact hbound.2
    · intro y
      rcases h10 with ⟨q1, q2⟩ | ⟨q1, q2, _⟩
      · subst q2
        rw [rinv.perm.mem_iff, List.mem_reverse]
        constructor
        · exact fun hy => Or.inr hy
        · rintro (e | e)
          · rw [e]; exact q1
          · exact e
      · rw [q2.mem_iff, List.mem_cons]
    · rcases h10 with ⟨q1, q2⟩ | ⟨q1, q2, _⟩
      · subst q2
        rw [if_pos q1, rinv.perm.length_eq, hlen1]
      · rw [if_neg q1, q2.length_eq, List.length_cons]

/-- Every state of a run whose Adds start below `2^31` groups satisfies the
core invariant. -/
theorem Reach31_core (cfg : Config) (H : Oracle K) (hv : cfg.Valid) (set : Set K)
    (hr : Reach31 cfg H set) : Core cfg H set := by
  induction hr with
  | newSet sz _ => exact Core_NewSet cfg H hv sz
  | add x _ hn h ih =>
    obtain ⟨set2, h2, h3, _⟩ := Core_Add cfg H hv _ ih hn x
    rw [h] at h2
    simp only [Option.some.injEq] at h2
    subst h2
    exact h3
  | remove x b _ h ih =>
    obtain ⟨b2, set2, h2, _, h3, _⟩ := Core_Remove cfg H _ ih x
    rw [h] at h2
    simp only [Option.some.injEq, Prod.mk.injEq] at h2
    rw [h2.2]
    exact h3
  | clear _ ih => exact Core_Clear cfg H _ ih

/-- A run whose operations all start below `2^31` groups returns, keeps the
core invariant and holds exactly the keys of the replayed mathematical set. -/
theorem runOps_core (cfg : Config) (H : Oracle K) (hv : cfg.Valid) (ops : List (Op K)) :
    ∀ (set : Set K) (A : Finset K), Core cfg H set →
      (∀ y, y ∈ liveKeys set.group ↔ y ∈ A) → runSmall cfg H set ops = true →
      ∃ set1, runOps cfg H set ops = some set1 ∧ Core cfg H set1 ∧
        (∀ y, y ∈ liveKeys set1.group ↔ y ∈ ops.foldl absOp A) := by
  induction ops with
  | nil =>
    intro set A inv hA _
    exact ⟨set, rfl, inv, hA⟩
  | cons op ops ih =>
    intro set A inv hA hsm
    cases op with
    | add x =>
      have hsm0 : set.group.length < 2 ^ 31 := by
        simp only [runSmall, Bool.and_eq_true, decide_eq_true_eq] at hsm
        exact hsm.1
      obtain ⟨set2, h1, h2, h4, _⟩ := Core_Add cfg H hv set inv hsm0 x
      have hap : applyOp cfg H set (Op.add x) = some set2 := h1
      simp only [runSmall, hap, Bool.and_eq_true, decide_eq_true_eq] at hsm
      obtain ⟨set3, q1, q2, q3⟩ := ih set2 (insert x A) h2
        (by intro y; rw [h4, Finset.mem_insert, hA]) hsm.2
      exact ⟨set3, by simp only [runOps, hap]; exact q1, q2, q3⟩
    | remove x =>
      obtain ⟨b, set2, h1, _, h3, h4⟩ := Core_Remove cfg H set inv x
      have hap : applyOp cfg H set (Op.remove x) = some set2 := by
        simp [applyOp, h1]
      simp only [runSmall, hap, Bool.and_eq_true, decide_eq_true_eq] at hsm
      obtain ⟨set3, q1, q2, q3⟩ := ih set2 (A.erase x) h3
        (by intro y; rw [h4, Finset.mem_erase, hA]) hsm.2
      exact ⟨set3, by simp only [runOps, hap]; exact q1, q2, q3⟩
    | clear =>
      have hap : applyOp cfg H set Op.clear = some (Clear cfg set) := rfl
      simp only [runSmall, hap, Bool.and_eq_true, decide_eq_true_eq] at hsm
      obtain ⟨set3, q1, q2, q3⟩ := ih (Clear cfg set) ∅ (Core_Clear cfg H set inv)
        (by
          intro y
          rw [Clear_group cfg set inv.table.wt, makeGroups_liveKeys]
          simp) hsm.2
      exact ⟨set3, by simp only [runOps, hap]; exact q1, q2, q3⟩

end CoreAdd

section FilledRuns

theorem addAll_append {K : Type} [DecidableEq K] [Inhabited K] (cfg : Config) (H : Oracle K)
    (xs ys : List K) :
    ∀ set : Set K, addAll cfg H set (xs ++ ys) =
      (addAll cfg H set xs).bind (fun set1 => addAll cfg H set1 ys) := by
  induction xs with
  | nil => intro set; rfl
  | cons x xs ih =>
    intro set
    simp only [List.cons_append, addAll]
    cases Add cfg H set x with
    | none => rfl
    | some set1 => exact ih set1

theorem Filled_liveLength (cfg : Config) (H : Oracle Nat) (set : Set Nat) (n lim seed m : Nat)
    (hf : Filled cfg H set n lim seed m) : (liveKeys set.group).length = m := by
  have := liveKeys_length cfg set.group hf.table.wt
  have h1 := hf.nonEmpty_eq
  have h2 := hf.deleted_eq
  omega

theorem Filled_NewSet (cfg : Config) (H : Oracle Nat) (sz : Nat) :
    Filled cfg H (NewSet cfg sz) (numGroups cfg sz)
      ((numGroups cfg sz * cfg.maxAvgGroupLoad) % 2 ^ 32) 0 0 := by
  refine ⟨makeGroups_inv cfg H 0 _ (numGroups_pos cfg sz), rfl, makeGroups_length cfg _, rfl, rfl,
    rfl, makeGroups_countNonEmpty cfg _, makeGroups_countDeleted cfg _, ?_⟩
  intro y
  have : liveKeys (NewSet cfg sz : Set Nat).group = [] := makeGroups_liveKeys cfg _
  rw [this]
  simp

/-- `Add` of the next key below the load limit: no rehash. -/
theorem Filled_add_direct (cfg : Config) (H : Oracle Nat) (set : Set Nat) (n lim seed m : Nat)
    (hf : Filled cfg H set n lim seed m) (hlt : m % 2 ^ 32 < lim)
    (hroom : m < n * cfg.groupSize) :
    ∃ set1, Add cfg H set m = some set1 ∧ Filled cfg H set1 n lim seed (m + 1) := by
  have hadd : Add cfg H set m = addProbe cfg H set m := by
    unfold Add
    rw [if_neg (by rw [hf.resident_eq, hf.limit_eq]; omega)]
  have ht : TableInv cfg H set.hashFunction set.group := by rw [hf.seed_eq]; exact hf.table
  have hE : ∃ i, GEmpty set.group i := by
    apply exists_GEmpty cfg set.group hf.table.wt
    rw [hf.nonEmpty_eq, hf.length_eq]; exact hroom
  rcases addProbe_spec cfg H set ht hE m with h | h
  · exact absurd ((hf.keys m).1 h.1) (by omega)
  · obtain ⟨h1, i, s, h2, h3, h4, h5, h6, h7⟩ := h
    refine ⟨insertAt set i s (tagOf H set.hashFunction m) m, by rw [hadd]; exact h2,
      ⟨?_, hf.seed_eq, ?_, hf.limit_eq, ?_, hf.dead_eq, ?_, ?_, ?_⟩⟩
    · have := h4
      rw [hf.seed_eq] at this
      rw [hf.seed_eq]
      exact this
    · show (setCell set.group i s _ m).length = n
      rw [setCell_length]; exact hf.length_eq
    · show (set.resident + 1) % 2 ^ 32 = (m + 1) % 2 ^ 32
      rw [hf.resident_eq]; omega
    · show countNonEmpty (setCell set.group i s _ m) = m + 1
      rw [h6, hf.nonEmpty_eq]
    · show countDeleted (setCell set.group i s _ m) = 0
      rw [h7]; exact hf.deleted_eq
    · intro y
      show y ∈ liveKeys (setCell set.group i s _ m) ↔ y < m + 1
      rw [h5.mem_iff, List.mem_cons, hf.keys]
      omega

/-- Adds of the next `j` keys below the load limit: no rehash. -/
theorem Filled_addAll_direct (cfg : Config) (H : Oracle Nat) (n lim seed : Nat) (j : Nat) :
    ∀ (set : Set Nat) (m : Nat), Filled cfg H set n lim seed m → m + j ≤ lim → lim < 2 ^ 32 →
      m + j ≤ n * cfg.groupSize →
      ∃ set1, addAll cfg H set (List.range' m j) = some set1 ∧
        Filled cfg H set1 n lim seed (m + j) := by
  induction j with
  | zero =>
    intro set m hf _ _ _
    exact ⟨set, rfl, hf⟩
  | succ j ih =>
    intro set m hf h1 h2 h3
    obtain ⟨set1, q1, q2⟩ := Filled_add_direct cfg H set n lim seed m hf
      (by rw [Nat.mod_eq_of_lt (by omega)]; omega) (by omega)
    obtain ⟨set2, q3, q4⟩ := ih set1 (m + 1) q2 (by omega) h2 (by omega)
    refine ⟨set2, ?_, ?_⟩
    · simp only [List.range', addAll, q1]
      exact q3
    · have : m + (j + 1) = m + 1 + j := by omega
      rw [this]; exact q4

theorem Filled_nextSize (cfg : Config) (H : Oracle Nat) (set : Set Nat) (n lim seed m : Nat)
    (hf : Filled cfg H set n lim seed m) :
    nextSize set = if 0 ≥ m % 2 ^ 32 / 2 then n % 2 ^ 32 else ((n % 2 ^ 32) * 2) % 2 ^ 32 := by
  unfold nextSize
  simp only []
  rw [hf.dead_eq, hf.resident_eq, hf.length_eq]

/-- `rehash` of a filled table into `n1` groups with room for its keys. -/
theorem Filled_rehash (cfg : Config) (H : Oracle Nat) (set : Set Nat) (n lim seed m : Nat)
    (hf : Filled cfg H set n lim seed m) (n1 : Nat) (hn1 : 0 < n1)
    (hroom : m ≤ n1 * cfg.groupSize) :
    ∃ set1, rehash cfg H set n1 = some set1 ∧
      Filled cfg H set1 n1 ((n1 * cfg.maxAvgGroupLoad) % 2 ^ 32) (seed + 1) m := by
  have ht : TableInv cfg H set.hashFunction set.group := by rw [hf.seed_eq]; exact hf.table
  have hlen := Filled_liveLength cfg H set n lim seed m hf
  obtain ⟨set1, hr, rinv⟩ := rehash_spec cfg H set ht n1 hn1 (by omega)
  have hlen1 : (liveKeys set.group).reverse.length = m := by
    rw [List.length_reverse]; exact hlen
  rw [hf.seed_eq] at rinv
  refine ⟨set1, hr, ⟨rinv.table, rinv.seed_eq, rinv.length_eq, rinv.limit_eq, ?_, rinv.dead_eq,
    ?_, rinv.deleted_eq, ?_⟩⟩
  · rw [rinv.resident_eq, hlen1]
  · rw [rinv.nonEmpty_eq, hlen1]
  · intro y
    rw [rinv.perm.mem_iff, List.mem_reverse, hf.keys]

/-- `Add` of the next key at the load limit: one rehash into `nextSize`
groups, whatever that size is, as long as it has room. -/
theorem Filled_add_rehash (cfg : Config) (H : Oracle Nat) (set : Set Nat) (n lim seed m : Nat)
    (hf : Filled cfg H set n lim seed m) (hge : lim ≤ m % 2 ^ 32)
    (n1 : Nat) (hns : nextSize set = n1) (hn1 : 0 < n1) (hroom : m < n1 * cfg.groupSize) :
    ∃ set1, Add cfg H set m = some set1 ∧
      Filled cfg H set1 n1 ((n1 * cfg.maxAvgGroupLoad) % 2 ^ 32) (seed + 1) (m + 1) := by
  have ht : TableInv cfg H set.hashFunction set.group := by rw [hf.seed_eq]; exact hf.table
  have hlen := Filled_liveLength cfg H set n lim seed m hf
  obtain ⟨set1, set2, _, _, h3, h4, h5, h6, h7, h8, h9, h10⟩ :=
    Add_rehash_gen cfg H set ht (by rw [hf.resident_eq, hf.limit_eq]; exact hge)
      (by rw [hns]; exact hn1) (by rw [hns, hlen]; exact hroom) m
  rw [hns] at h5 h6
  rw [hf.seed_eq] at h4 h9
  rcases h10 with ⟨q1, _⟩ | ⟨_, q2, q3, q4⟩
  · exact absurd ((hf.keys m).1 q1) (by omega)
  · refine ⟨set2, h3, ⟨h9, h4, h6, h5, ?_, h7, ?_, h8, ?_⟩⟩
    · rw [q4, hlen]
    · rw [q3, hlen]
    · intro y
      rw [q2.mem_iff, List.mem_cons, hf.keys]
      omega

/-- `Add` at the load limit when `nextSize` is zero: the rehash into an array
of no groups does not return. -/
theorem Filled_add_fault (cfg : Config) (H : Oracle Nat) (set : Set Nat) (n lim seed m : Nat)
    (hf : Filled cfg H set n lim seed m) (hge : lim ≤ m % 2 ^ 32)
    (hns : nextSize set = 0) (hm : 0 < m) (x : Nat) :
    Add cfg H set x = none := by
  have hlen := Filled_liveLength cfg H set n lim seed m hf
  have hr : rehash cfg H set 0 = none := by
    rw [rehash_eq cfg H set hf.table.wt 0]
    cases hl : liveKeys set.group with
    | nil => rw [hl] at hlen; simp at hlen; omega
    | cons k ks =>
      simp only [List.foldl_cons]
      have : rehashKey cfg H
          (some ({ hashFunction := set.hashFunction + 1
                   elementLimit := (0 * cfg.maxAvgGroupLoad) % 2 ^ 32
                   resident := 0
                   dead := 0
                   group := makeGroups cfg 0 } : Set Nat)) k = none := by
        unfold rehashKey
        simp only [makeGroups_length, rehashInsert]
      rw [this]
      exact foldl_rehashKey_none cfg H ks
  unfold Add
  rw [if_pos (by rw [hf.resident_eq, hf.limit_eq]; exact hge), hns, hr]

end FilledRuns

section WrapRuns

variable {K : Type} [DecidableEq K] [Inhabited K]

/-- The states a run passes through are states of the run when every operation
starts below `2^31` groups. -/
theorem Reach31_run (cfg : Config) (H : Oracle K) (ops : List (Op K)) :
    ∀ (set : Set K), Reach31 cfg H set → runSmall cfg H set ops = true →
      ∀ set1, runOps cfg H set ops = some set1 → Reach31 cfg H set1 := by
  induction ops with
  | nil =>
    intro set hr _ set1 h
    simp only [runOps, Option.some.injEq] at h
    rw [← h]; exact hr
  | cons op ops ih =>
    intro set hr hsm set1 h
    cases hap : applyOp cfg H set op with
    | none => simp [runOps, hap] at h
    | some set2 =>
      simp only [runSmall, hap, Bool.and_eq_true, decide_eq_true_eq] at hsm
      simp only [runOps, hap] at h
      refine ih set2 ?_ hsm.2 set1 h
      cases op with
      | add x => exact Reach31.add x hr hsm.1 hap
      | remove x =>
        simp only [applyOp] at hap
        cases hrem : Remove cfg H set x with
        | none => simp [hrem] at hap
        | some r =>
          obtain ⟨b, s3⟩ := r
          simp only [hrem, Option.map_some', Option.some.injEq] at hap
          subst hap
          exact Reach31.remove x b hr hrem
      | clear =>
        simp only [applyOp, Option.some.injEq] at hap
        rw [← hap]
        exact Reach31.clear hr

/-- `NewSet(sz)` followed by the Add of the keys below `N`, all below the load
limit. -/
theorem Filled_range_direct (cfg : Config) (H : Oracle Nat) (sz n lim N : Nat)
    (hn : numGroups cfg sz = n) (hlim : (n * cfg.maxAvgGroupLoad) % 2 ^ 32 = lim)
    (hN : N ≤ lim) (hroom : N ≤ n * cfg.groupSize) :
    ∃ p, addAll cfg H (NewSet cfg sz) (List.range N) = some p ∧ Filled cfg H p n lim 0 N := by
  have h0 := Filled_NewSet cfg H sz
  rw [hn, hlim] at h0
  have hl : lim < 2 ^ 32 := by rw [← hlim]; exact Nat.mod_lt _ (by norm_num)
  obtain ⟨p, q1, q2⟩ := Filled_addAll_direct cfg H n lim 0 N (NewSet cfg sz) 0 h0
    (by omega) hl (by omega)
  rw [Nat.zero_add] at q2
  exact ⟨p, by rw [List.range_eq_range']; exact q1, q2⟩

/-- One more key added at the load limit: the run goes on through a rehash. -/
theorem Filled_range_rehash (cfg : Config) (H : Oracle Nat) (set0 : Set Nat)
    (N n lim seed N1 n1 lim1 seed1 : Nat)
    (hp : ∃ p, addAll cfg H set0 (List.range N) = some p ∧ Filled cfg H p n lim seed N)
    (hN1 : N + 1 = N1) (hseed : seed + 1 = seed1) (hge : lim ≤ N % 2 ^ 32)
    (hns : (if 0 ≥ N % 2 ^ 32 / 2 then n % 2 ^ 32 else ((n % 2 ^ 32) * 2) % 2 ^ 32) = n1)
    (hn1 : 0 < n1) (hroom : N < n1 * cfg.groupSize)
    (hlim1 : (n1 * cfg.maxAvgGroupLoad) % 2 ^ 32 = lim1) :
    ∃ s, addAll cfg H set0 (List.range N1) = some s ∧ Filled cfg H s n1 lim1 seed1 N1 := by
  obtain ⟨p, q1, q2⟩ := hp
  obtain ⟨s, q3, q4⟩ := Filled_add_rehash cfg H p n lim seed N q2 hge n1
    (by rw [Filled_nextSize cfg H p n lim seed N q2]; exact hns) hn1 hroom
  subst hN1 hseed hlim1
  refine ⟨s, ?_, q4⟩
  rw [List.range_succ, addAll_append, q1]
  show addAll cfg H p [N] = some s
  simp only [addAll, q3]

/-- With a table filled to a load limit that calls for a rehash, `Add` of any
key rehashes into `nextSize` groups when these have room. -/
theorem Filled_add_any_rehash (cfg : Config) (H : Oracle Nat) (set : Set Nat)
    (n lim seed m : Nat) (hf : Filled cfg H set n lim seed m) (hge : lim ≤ m % 2 ^ 32)
    (n1 : Nat)
    (hns : (if 0 ≥ m % 2 ^ 32 / 2 then n % 2 ^ 32 else ((n % 2 ^ 32) * 2) % 2 ^ 32) = n1)
    (hn1 : 0 < n1) (hroom : m < n1 * cfg.groupSize) (x : Nat) :
    ∃ set1, Add cfg H set x = some set1 ∧ set1.hashFunction = set.hashFunction + 1 ∧
      set1.group.length = n1 := by
  have ht : TableInv cfg H set.hashFunction set.group := by rw [hf.seed_eq]; exact hf.table
  have hlen := Filled_liveLength cfg H set n lim seed m hf
  have hns2 : nextSize set = n1 := by
    rw [Filled_nextSize cfg H set n lim seed m hf]; exact hns
  obtain ⟨_, set2, _, _, h3, h4, _, h6, _⟩ :=
    Add_rehash_gen cfg H set ht (by rw [hf.resident_eq, hf.limit_eq]; exact hge)
      (by rw [hns2]; exact hn1) (by rw [hns2, hlen]; exact hroom) x
  exact ⟨set2, h3, h4, by rw [h6, hns2]⟩

/-- The typical constants, `NewSet(3758096384)` and the Add of the keys
`0 .. 3758096383`: `2^28` groups, filled exactly to the load limit. -/
theorem typical_atLimit (H : Oracle Nat) :
    ∃ p, addAll typicalCfg H (NewSet typicalCfg 3758096384) (List.range 3758096384) = some p ∧
      Filled typicalCfg H p 268435456 3758096384 0 3758096384 :=
  Filled_range_direct typicalCfg H 3758096384 268435456 3758096384 3758096384
    (by decide) (by decide) (by decide) (by decide)

/-- One more key: the table is rehashed into `2^29` groups and the `uint32`
load limit wraps to `3221225472`. -/
theorem typical_doubled (H : Oracle Nat) :
    ∃ s, addAll typicalCfg H (NewSet typicalCfg 3758096384) (List.range 3758096385) = some s ∧
      Filled typicalCfg H s 536870912 3221225472 1 3758096385 :=
  Filled_range_rehash typicalCfg H _ 3758096384 268435456 3758096384 0 3758096385 536870912
    3221225472 1 (typical_atLimit H) (by decide) (by decide) (by decide) (by decide) (by decide)
    (by decide) (by decide)

/-- Two more keys, each Add rehashing again: `2^31` groups with load limit
`0`. -/
theorem typical_maxGroups (H : Oracle Nat) :
    ∃ s, addAll typicalCfg H (NewSet typicalCfg 3758096384) (List.range 3758096387) = some s ∧
      Filled typicalCfg H s 2147483648 0 3 3758096387 :=
  Filled_range_rehash typicalCfg H _ 3758096386 1073741824 2147483648 2 3758096387 2147483648
    0 3
    (Filled_range_rehash typicalCfg H _ 3758096385 536870912 3221225472 1 3758096386 1073741824
      2147483648 2 (typical_doubled H) (by decide) (by decide) (by decide) (by decide)
      (by decide) (by decide) (by decide))
    (by decide) (by decide) (by decide) (by decide) (by decide) (by decide) (by decide)

/-- The typical constants, `NewSet(4294967282)` and the Add of the `2^32` keys
`0 .. 4294967295`: the last four Adds rehash, the last one into fewer groups
than before, and `resident` wraps to `0`. -/
theorem typical_allKeys (H : Oracle Nat) :
    ∃ s, addAll typicalCfg H (NewSet typicalCfg 4294967282) (List.range 4294967296) = some s ∧
      Filled typicalCfg H s 613566752 4294967232 4 4294967296 :=
  Filled_range_rehash typicalCfg H _ 4294967295 2454267024 4294967264 3 4294967296 613566752
    4294967232 4
    (Filled_range_rehash typicalCfg H _ 4294967294 1227133512 4294967280 2 4294967295 2454267024
      4294967264 3
      (Filled_range_rehash typicalCfg H _ 4294967293 613566756 4294967288 1 4294967294
        1227133512 4294967280 2
        (Filled_range_rehash typicalCfg H _ 4294967292 306783378 4294967292 0 4294967293
          613566756 4294967288 1
          (Filled_range_direct typicalCfg H 4294967282 306783378 4294967292 4294967292
            (by decide) (by decide) (by decide) (by decide))
          (by decide) (by decide) (by decide) (by decide) (by decide) (by decide) (by decide))
        (by decide) (by decide) (by decide) (by decide) (by decide) (by decide) (by decide))
      (by decide) (by decide) (by decide) (by decide) (by decide) (by decide) (by decide))
    (by decide) (by decide) (by decide) (by decide) (by decide) (by decide) (by decide)

end WrapRuns

section Claims4

variable {K : Type} [DecidableEq K] [Inhabited K]

/-- C1. Refinement against a mathematical set: for every hash oracle family,
every capacity hint and every finite sequence of Add / Remove / Clear applied to
`NewSet(sz)` in which every operation starts at a group count below `2^31` (so
that the `uint32` doubling does not wrap), the run returns and `Contains(x)` on
the resulting set returns true if and only if `x` is in the set obtained by
replaying the sequence on the empty mathematical set. The load limit
`groupCount * maxAvgGroupLoad` may wrap along the run. -/
theorem contains_refines_mathematical_set (cfg : Config) (H : Oracle K) (hv : cfg.Valid)
    (sz : Nat) (ops : List (Op K))
    (hsmall : runSmall cfg H (NewSet cfg sz) ops = true) :
    ∃ set, runOps cfg H (NewSet cfg sz) ops = some set ∧
      ∀ x, Contains cfg H set x = some (decide (x ∈ absRun ops)) := by
  obtain ⟨set1, h1, inv1, hA⟩ := runOps_core cfg H hv ops (NewSet cfg sz) ∅
    (Core_NewSet cfg H hv sz) (NewSet_liveKeys cfg sz) hsmall
  refine ⟨set1, h1, ?_⟩
  intro x
  rw [Contains_spec cfg H set1 inv1.table (Core_hasEmpty cfg H set1 inv1) x]
  have : (x ∈ liveKeys set1.group) ↔ (x ∈ absRun ops) := hA x
  simp only [Option.some.injEq, decide_eq_decide]
  exact this

/-- C2 at the failing input: under the typical constants, `NewSet(4294967282)`
followed by the Add of the `2^32` keys `0 .. 4294967295` returns a set that
holds each of these keys exactly once (and `Contains` says so), yet `resident`
has wrapped and `Count()` is `0`. -/
theorem count_wraps_at_two_pow_32_elements (H : Oracle Nat) :
    ∃ s, addAll typicalCfg H (NewSet typicalCfg 4294967282) (List.range 4294967296) = some s ∧
      (liveKeys s.group).Nodup ∧ (liveKeys s.group).length = 4294967296 ∧
      (∀ x, Contains typicalCfg H s x = some (decide (x < 4294967296))) ∧
      s.resident = 0 ∧ s.dead = 0 ∧ Count s = 0 := by
  obtain ⟨s, h1, hf⟩ := typical_allKeys H
  have ht : TableInv typicalCfg H s.hashFunction s.group := by rw [hf.seed_eq]; exact hf.table
  have hE : ∃ i, GEmpty s.group i := by
    apply exists_GEmpty typicalCfg s.group hf.table.wt
    rw [hf.nonEmpty_eq, hf.length_eq]
    decide
  have hres : s.resident = 0 := by rw [hf.resident_eq]; decide
  refine ⟨s, h1, hf.table.nodup, Filled_liveLength typicalCfg H s _ _ _ _ hf, ?_, hres,
    hf.dead_eq, ?_⟩
  · intro x
    rw [Contains_spec typicalCfg H s ht hE x]
    simp only [Option.some.injEq, decide_eq_decide]
    exact hf.keys x
  · unfold Count
    rw [hres, hf.dead_eq]; decide

/-- C3 at the failing input: under the typical constants, `NewSet(3758096384)`
followed by the Add of the keys `0 .. 3758096386` returns a set of `2^31`
groups whose load limit has wrapped to `0`; there `nextSize` wraps to `0` and
`Add` of any key does not return (the rehash into an array of no groups
faults), so there is no second `Add`, no `Count` and no `Contains`. -/
theorem add_faults_at_two_pow_31_groups (H : Oracle Nat) :
    ∃ s, addAll typicalCfg H (NewSet typicalCfg 3758096384) (List.range 3758096387) = some s ∧
      s.group.length = 2147483648 ∧ s.elementLimit = 0 ∧ nextSize s = 0 ∧
      ∀ x, Add typicalCfg H s x = none := by
  obtain ⟨s, h1, hf⟩ := typical_maxGroups H
  have hns : nextSize s = 0 := by
    rw [Filled_nextSize typicalCfg H s _ _ _ _ hf]; decide
  exact ⟨s, h1, hf.length_eq, hf.limit_eq, hns,
    fun x => Filled_add_fault typicalCfg H s _ _ _ _ hf (by decide) hns (by decide) x⟩

/-- C9 at the failing input: under the typical constants, `NewSet(3758096384)`
followed by the Add of the keys `0 .. 3758096383` returns a set of `2^28` groups
with `resident = elementLimit`; the next Add rehashes once and doubles the
group count, and the new `elementLimit` is the wrapped product `3221225472`,
not the new group count times `maxAvgGroupLoad` (`7516192768`). -/
theorem add_rehash_limit_wraps (H : Oracle Nat) :
    ∃ p s, addAll typicalCfg H (NewSet typicalCfg 3758096384) (List.range 3758096384) = some p ∧
      p.group.length = 268435456 ∧ p.resident = p.elementLimit ∧
      Add typicalCfg H p 3758096384 = some s ∧
      s.hashFunction = p.hashFunction + 1 ∧ s.group.length = 2 * p.group.length ∧
      s.elementLimit = 3221225472 ∧
      s.elementLimit ≠ s.group.length * typicalCfg.maxAvgGroupLoad := by
  obtain ⟨p, h1, hf⟩ := typical_atLimit H
  obtain ⟨s, h2, hf2⟩ := Filled_add_rehash typicalCfg H p _ _ _ _ hf (by decide) 536870912
    (by rw [Filled_nextSize typicalCfg H p _ _ _ _ hf]; decide) (by decide) (by decide)
  refine ⟨p, s, h1, hf.length_eq, ?_, h2, ?_, ?_, ?_, ?_⟩
  · rw [hf.resident_eq, hf.limit_eq]; decide
  · rw [hf2.seed_eq, hf.seed_eq]
  · rw [hf2.length_eq, hf.length_eq]
  · rw [hf2.limit_eq]; decide
  · rw [hf2.limit_eq, hf2.length_eq]; decide

/-- C10 at the failing input: under the typical constants, after
`NewSet(3758096384)` and the Add of the keys `0 .. 3758096384` the load limit
has wrapped below `resident`; `Capacity()` is `3758096383`, yet the very next
Add of any key rehashes (it reseeds the hasher and doubles the group count). -/
theorem capacity_overstates_headroom (H : Oracle Nat) :
    ∃ s, addAll typicalCfg H (NewSet typicalCfg 3758096384) (List.range 3758096385) = some s ∧
      Capacity s = 3758096383 ∧
      ∀ x, ∃ s1, Add typicalCfg H s x = some s1 ∧
        s1.hashFunction = s.hashFunction + 1 ∧ s1.group.length = 2 * s.group.length := by
  obtain ⟨s, h1, hf⟩ := typical_doubled H
  refine ⟨s, h1, ?_, ?_⟩
  · unfold Capacity
    rw [hf.limit_eq, hf.resident_eq]; decide
  · intro x
    obtain ⟨s1, q1, q2, q3⟩ := Filled_add_any_rehash typicalCfg H s _ _ _ _ hf (by decide)
      1073741824 (by decide) (by decide) (by decide) x
    exact ⟨s1, q1, q2, by rw [q3, hf.length_eq]⟩

/-- C12 at the failing input: under the typical constants, `NewSet(3758096384)`
followed by the Add of the keys `0 .. 3758096384` returns a set of `2^29`
groups with `resident = 3758096385` above `elementLimit = 3221225472`, which is
not the group count times `maxAvgGroupLoad`. -/
theorem load_limit_broken_after_wrap (H : Oracle Nat) :
    ∃ s, addAll typicalCfg H (NewSet typicalCfg 3758096384) (List.range 3758096385) = some s ∧
      s.group.length = 536870912 ∧ s.resident = 3758096385 ∧ s.elementLimit = 3221225472 ∧
      ¬ s.resident ≤ s.elementLimit ∧
      s.elementLimit ≠ s.group.length * typicalCfg.maxAvgGroupLoad := by
  obtain ⟨s, h1, hf⟩ := typical_doubled H
  have hres : s.resident = 3758096385 := by rw [hf.resident_eq]; decide
  refine ⟨s, h1, hf.length_eq, hres, hf.limit_eq, ?_, ?_⟩
  · rw [hres, hf.limit_eq]; decide
  · rw [hf.limit_eq, hf.length_eq]; decide

/-- C15 as amended. Probe termination with `2 ≤ maxAvgGroupLoad < groupSize`:
in every state of a run from `NewSet(sz)` by Add / Remove / Clear whose Adds all
start below `2^31` groups, at least one control byte is Empty, and for every key
the probe loops of `Contains` and `Remove` return within `len(group)`
iterations (the iterations the embedding gives them); when the state itself has
fewer than `2^31` groups so do the probe loop of `Add` (after its optional
rehash) and the re-insertion loops of `rehash`. -/
theorem probes_terminate (cfg : Config) (H : Oracle K) (hv : cfg.Valid) (set : Set K)
    (hr : Reach31 cfg H set) :
    (∃ i, GEmpty set.group i) ∧
      ∀ x, (∃ b, Contains cfg H set x = some b) ∧
        (∃ b set1, Remove cfg H set x = some (b, set1)) ∧
        (set.group.length < 2 ^ 31 →
          (∃ set1, Add cfg H set x = some set1) ∧
          (∃ set1, rehash cfg H set (nextSize set) = some set1)) := by
  have inv := Reach31_core cfg H hv set hr
  have hE := Core_hasEmpty cfg H set inv
  refine ⟨hE, ?_⟩
  intro x
  refine ⟨⟨_, Contains_spec cfg H set inv.table hE x⟩, ?_, ?_⟩
  · obtain ⟨b, set1, h, _⟩ := Core_Remove cfg H set inv x
    exact ⟨b, set1, h⟩
  · intro hsmall
    constructor
    · obtain ⟨set1, h, _⟩ := Core_Add cfg H hv set inv hsmall x
      exact ⟨set1, h⟩
    · have hlk := liveKeys_length cfg set.group inv.table.wt
      have hroom := inv.room
      have hpos := inv.table.pos
      have hns := nextSize_small set hsmall
      have hn1 : set.group.length ≤ nextSize set := by
        rw [hns]; split <;> omega
      have hGG : set.group.length * cfg.groupSize ≤ nextSize set * cfg.groupSize :=
        Nat.mul_le_mul_right _ hn1
      obtain ⟨set1, h, _⟩ := rehash_spec cfg H set inv.table (nextSize set) (by omega)
        (by omega)
      exact ⟨set1, h⟩

/-- C18 at the failing input: under the typical constants, `NewSet(3758096384)`
followed by the Add of the keys `0 .. 3758096383` returns a set of `2^28`
groups at its load limit; `nextSize()` is `2^29` and `rehash(nextSize())`
returns a table of `2^29` groups whose `elementLimit` is the wrapped product
`3221225472`, not `n * maxAvgGroupLoad`. -/
theorem rehash_limit_wraps (H : Oracle Nat) :
    ∃ p s, addAll typicalCfg H (NewSet typicalCfg 3758096384) (List.range 3758096384) = some p ∧
      nextSize p = 536870912 ∧
      rehash typicalCfg H p (nextSize p) = some s ∧
      s.group.length = nextSize p ∧ s.elementLimit = 3221225472 ∧
      s.elementLimit ≠ nextSize p * typicalCfg.maxAvgGroupLoad := by
  obtain ⟨p, h1, hf⟩ := typical_atLimit H
  have hns : nextSize p = 536870912 := by
    rw [Filled_nextSize typicalCfg H p _ _ _ _ hf]; decide
  obtain ⟨s, h2, hf2⟩ := Filled_rehash typicalCfg H p _ _ _ _ hf 536870912 (by decide)
    (by decide)
  refine ⟨p, s, h1, hns, by rw [hns]; exact h2, by rw [hns]; exact hf2.length_eq, ?_, ?_⟩
  · rw [hf2.limit_eq]; decide
  · rw [hf2.limit_eq, hns]; decide

/-- C19 at the failing input: under the typical constants, after
`NewSet(3758096384)` and the Add of the keys `0 .. 3758096384` the counters
still match the control bytes, but `elementLimit` has wrapped below `resident`,
so the `uint32` subtraction of `Capacity()` wraps: it returns `3758096383`
where `elementLimit - resident` is `-536870913`. -/
theorem capacity_subtraction_wraps (H : Oracle Nat) :
    ∃ s, addAll typicalCfg H (NewSet typicalCfg 3758096384) (List.range 3758096385) = some s ∧
      s.resident = countNonEmpty s.group ∧ s.dead = countDeleted s.group ∧
      s.elementLimit < s.resident ∧
      (s.elementLimit : Int) - (s.resident : Int) = -536870913 ∧
      Capacity s = 3758096383 := by
  obtain ⟨s, h1, hf⟩ := typical_doubled H
  have hres : s.resident = 3758096385 := by rw [hf.resident_eq]; decide
  refine ⟨s, h1, ?_, ?_, ?_, ?_, ?_⟩
  · rw [hres, hf.nonEmpty_eq]
  · rw [hf.dead_eq, hf.deleted_eq]
  · rw [hres, hf.limit_eq]; decide
  · rw [hres, hf.limit_eq]; decide
  · unfold Capacity
    rw [hf.limit_eq, hres]; decide

end Claims4

section Witnesses4

theorem contains_refines_mathematical_set_witness :
    demoCfg.Valid ∧
    runSmall demoCfg demoHash (NewSet demoCfg 1)
      [Op.add 5, Op.add 7, Op.remove 5, Op.add 9, Op.add 11] = true ∧
    ∃ set, runOps demoCfg demoHash (NewSet demoCfg 1)
        [Op.add 5, Op.add 7, Op.remove 5, Op.add 9, Op.add 11] = some set ∧
      ∀ x, Contains demoCfg demoHash set x =
        some (decide (x ∈ absRun [Op.add 5, Op.add 7, Op.remove 5, Op.add 9, Op.add 11])) :=
  ⟨by decide, by decide,
    contains_refines_mathematical_set demoCfg demoHash (by decide) 1
      [Op.add 5, Op.add 7, Op.remove 5, Op.add 9, Op.add 11] (by decide)⟩

theorem probes_terminate_witness :
    tombCfg.Valid ∧ Reach31 tombCfg tombHash tombSet ∧
      ((∃ i, GEmpty tombSet.group i) ∧
        ∀ x, (∃ b, Contains tombCfg tombHash tombSet x = some b) ∧
          (∃ b set1, Remove tombCfg tombHash tombSet x = some (b, set1)) ∧
          (tombSet.group.length < 2 ^ 31 →
            (∃ set1, Add tombCfg tombHash tombSet x = some set1) ∧
            (∃ set1, rehash tombCfg tombHash tombSet (nextSize tombSet) = some set1))) :=
  ⟨by decide,
    Reach31_run tombCfg tombHash [Op.add 1, Op.add 2, Op.add 3, Op.remove 2]
      (NewSet tombCfg 3) (Reach31.newSet 3 (by decide)) (by decide) tombSet (by decide),
    probes_terminate tombCfg tombHash (by decide) tombSet
      (Reach31_run tombCfg tombHash [Op.add 1, Op.add 2, Op.add 3, Op.remove 2]
        (NewSet tombCfg 3) (Reach31.newSet 3 (by decide)) (by decide) tombSet (by decide))⟩

end Witnesses4

end Swiss
